import Mathlib

/-!
# gzdetect: a shallow embedding of `gzdetect.c`

Bytes are natural numbers (a `Byte` of the C program is a value below 256),
pointers into the window buffer are offsets from `rs->buf`, and `time_t` is a
signed 64-bit integer, wide enough that none of the sums of `gzcheck` wraps.
-/

namespace Gzdetect

/-! ## Constants of the program -/

/-- The window capacity, `#define BUFSIZE 4096`. -/
def BUFSIZE : Nat := 4096

/-- The name buffer capacity, `#define NAMELEN 30`. -/
def NAMELEN : Nat := 30

/-- The length of the fixed gzip header, `#define GZ_HDR_LEN 10`. -/
def GZ_HDR_LEN : Nat := 10

/-- The lower bound on a plausible modification time, `#define AD_1990 631170000`. -/
def AD_1990 : Int := 631170000

/-- The slack allowed past the current time, `#define APPROX_YEAR 31556926`. -/
def APPROX_YEAR : Int := 31556926

/-- The strictness bit of `gzdflags`, `GZ_FIND_STRICT = 0x1`. -/
def GZ_FIND_STRICT : Nat := 1

/-! ## The header heuristic -/

/-- The byte `p[i]` of the memory that starts at `p`. -/
def byteAt (p : List Nat) (i : Nat) : Nat := p.getD i 0

/-- The modification time `gzcheck` computes:
`(time_t)p[4] + ((time_t)p[5] << 8) + ((time_t)p[6] << 16) + ((time_t)p[7] << 24)`. -/
def mtimeOf (p : List Nat) : Int :=
  ((byteAt p 4 + (byteAt p 5 <<< 8) + (byteAt p 6 <<< 16) + (byteAt p 7 <<< 24) : Nat) : Int)

/-- The function `gzcheck(p, flags)`, with `now` the value `time(NULL)` returns:
0 when the ten bytes at `p` look like the start of gzip data, 1 otherwise. -/
def gzcheck (p : List Nat) (flags : Nat) (now : Int) : Nat :=
  if byteAt p 1 ≠ 0x8b ∨ byteAt p 2 ≠ 0x08 then 1
  else if byteAt p 3 &&& 0xe0 ≠ 0 then 1
  else if flags &&& GZ_FIND_STRICT ≠ 0 ∧
      (mtimeOf p ≠ 0 ∧ (mtimeOf p < AD_1990 ∨ mtimeOf p > now + APPROX_YEAR)) then 1
  else if byteAt p 8 ≠ 2 ∧ byteAt p 8 ≠ 4 ∧ byteAt p 8 ≠ 0 then 1
  else if flags &&& GZ_FIND_STRICT ≠ 0 ∧ (byteAt p 9 > 13 ∧ byteAt p 9 ≠ 255) then 1
  else 0

/-- The little-endian 32-bit value of four bytes, as the specification words it. -/
def le32 (b0 b1 b2 b3 : Nat) : Nat := b0 + 256 * b1 + 65536 * b2 + 16777216 * b3

/-- The Unix time of 1990-01-01T00:00:00 UTC: 20 years of 365 days and 5 leap days
(1972, 1976, 1980, 1984, 1988) after the epoch. -/
def unix1990 : Int := (20 * 365 + 5) * 86400

/-! ## The windowed reader -/

/-- The input file behind `rs->fd`: its bytes, the file position, whether
`read` fails on it (returns -1), and how the coming `read` calls cut their
results short, as a pipe or a terminal may: the first entry `c` of `short`
lets the next `read` return at most `c + 1` bytes, the second entry bounds the
read after it, and so on. Past the list, and on a regular file (the empty
list), a `read` returns all the bytes asked for, or all that remain. -/
structure Source where
  data : List Nat
  pos : Nat
  failing : Bool
  short : List Nat := []
deriving DecidableEq

/-- The most bytes the next `read` returns when `n` are asked for. -/
def Source.cap (s : Source) (n : Nat) : Nat :=
  match s.short with
  | [] => n
  | c :: _ => min n (c + 1)

/-- The call `read(fd, dst, n)`: `none` for the result -1, otherwise the bytes
stored at `dst` (as many as asked for and allowed by `short`, or all that
remain) and the file advanced past them. -/
def fdRead (s : Source) (n : Nat) : Option (List Nat × Source) :=
  if s.failing then none
  else
    let bytes := (s.data.drop s.pos).take (s.cap n)
    some (bytes, { s with pos := s.pos + bytes.length, short := s.short.tail })

/-- The bytes of the source that no `read` has returned yet. -/
def Source.rest (s : Source) : List Nat := s.data.drop s.pos

/-- The fields of `rstate` the reader and the scanner use: the file, the
buffer `buf`, and `z.next_in` (as an offset from `buf`) and `z.avail_in`. -/
structure rstate where
  fd : Source
  buf : List Nat
  next_in : Nat
  avail_in : Nat
deriving DecidableEq

/-- End of a stream's in data, `zsend(rs) = rs->z.next_in + rs->z.avail_in`. -/
def zsend (rs : rstate) : Nat := rs.next_in + rs.avail_in

/-- The buffer after `bytes` are stored at offset `off`. -/
def bufStore (buf : List Nat) (off : Nat) (bytes : List Nat) : List Nat :=
  buf.take off ++ bytes ++ buf.drop (off + bytes.length)

/-- The call `memmove(buf, buf + src, n)`. -/
def memmove (buf : List Nat) (src n : Nat) : List Nat :=
  bufStore buf 0 ((buf.drop src).take n)

/-- The bytes of the valid range, `[next_in, next_in + avail_in)`. -/
def window (rs : rstate) : List Nat := (rs.buf.drop rs.next_in).take rs.avail_in

/-- The function `rsread(rs, start)`; `start` is `none` for a NULL pointer. The
subtractions `zsend(rs) - start` and `BUFSIZE - keep` are taken with
`start <= zsend(rs)` and `keep <= BUFSIZE`, as every caller has them. Returns
the C return value and the state left behind. -/
def rsread (rs : rstate) (start : Option Nat) : Nat × rstate :=
  let keep : Nat := match start with
    | none => 0
    | some s => zsend rs - s
  let buf1 : List Nat :=
    if start.isSome ∧ keep ≠ 0 then memmove rs.buf rs.next_in keep else rs.buf
  match fdRead rs.fd (BUFSIZE - keep) with
  | none => (1, { rs with buf := buf1 })
  | some (bytes, fd1) =>
    (0, { fd := fd1, buf := bufStore buf1 keep bytes, next_in := 0,
          avail_in := keep + bytes.length })

/-! ## The stream scanner -/

/-- The index of the first `c` in a list. -/
def firstIdx (c : Nat) : List Nat → Option Nat
  | [] => none
  | x :: xs => if x = c then some 0 else (firstIdx c xs).map (· + 1)

/-- The call `memchr(buf + p, c, n)`, as an offset from `buf`. -/
def memchr (buf : List Nat) (p c n : Nat) : Option Nat :=
  (firstIdx c ((buf.drop p).take n)).map (p + ·)

/-- The first block of the loop of `gzfind`: refill an empty window. An early
`return` is an `error`; otherwise the state and the scan pointer to go on with. -/
def gzfindFill (rs : rstate) (p : Nat) : Except (Nat × rstate) (rstate × Nat) :=
  if p ≥ zsend rs then
    match rsread rs none with
    | (0, rs1) =>
      if rs1.next_in ≥ zsend rs1 then .error (1, rs1) else .ok (rs1, rs1.next_in)
    | (_, rs1) => .error (1, rs1)
  else .ok (rs, p)

/-- The block of `gzfind` that wants a complete header at the match `p`. -/
def gzfindHeader (rs : rstate) (p : Nat) : Except (Nat × rstate) (rstate × Nat) :=
  if p + GZ_HDR_LEN > zsend rs then
    match rsread rs (some p) with
    | (0, rs1) =>
      if rs1.next_in + GZ_HDR_LEN > zsend rs1 then .error (1, rs1) else .ok (rs1, rs1.next_in)
    | (_, rs1) => .error (1, rs1)
  else .ok (rs, p)

/-- The loop `while (1)` of `gzfind`, with scan pointer `p`; `none` when the
fuel runs out before the loop returns. -/
def gzfindLoop (flags : Nat) (now : Int) : Nat → rstate → Nat → Option (Nat × rstate)
  | 0, _, _ => none
  | fuel + 1, rs, p =>
    match gzfindFill rs p with
    | .error r => some r
    | .ok (rs1, p1) =>
      match memchr rs1.buf p1 0x1f (zsend rs1 - p1) with
      | none => gzfindLoop flags now fuel rs1 (zsend rs1)
      | some q =>
        match gzfindHeader rs1 q with
        | .error r => some r
        | .ok (rs2, p2) =>
          if gzcheck (rs2.buf.drop p2) flags now = 0 then
            some (0, { rs2 with avail_in := rs2.avail_in - (p2 - rs2.next_in), next_in := p2 })
          else gzfindLoop flags now fuel rs2 (p2 + 1)

/-- The number of iterations that suffices for `gzfind` from `rs`: one more
than the bytes still unread plus the bytes still in the window. -/
def gzfindFuel (rs : rstate) : Nat := rs.fd.rest.length + rs.avail_in + 1

/-- The function `gzfind(rs, flags)`. -/
def gzfind (flags : Nat) (now : Int) (rs : rstate) : Option (Nat × rstate) :=
  gzfindLoop flags now (gzfindFuel rs) rs rs.next_in

/-- The state `main` starts from over the input `data`, a regular file (no
`read` is cut short): the file at position 0, `next_in = buf`, `avail_in = 0`;
`buf0` is what the stack array holds. -/
def initState (data buf0 : List Nat) : rstate :=
  { fd := { data := data, pos := 0, failing := false }, buf := buf0, next_in := 0, avail_in := 0 }

/-- The stream offset of the consumption boundary, what `gzlist` computes:
`lseek(fd, 0, SEEK_CUR) - avail_in`. -/
def streamOff (rs : rstate) : Int := (rs.fd.pos : Int) - rs.avail_in

/-! ## The decompression engine and the operating system

zlib and the file system are collaborators of the program, not part of it:
they are parameters of the embedding. -/

/-- The return code `Z_OK`. -/
def Z_OK : Int := 0

/-- The return code `Z_STREAM_END`. -/
def Z_STREAM_END : Int := 1

/-- The return code `Z_BUF_ERROR`. -/
def Z_BUF_ERROR : Int := -5

/-- The flush value `Z_NO_FLUSH`. -/
def Z_NO_FLUSH : Nat := 0

/-- The flush value `Z_BLOCK`. -/
def Z_BLOCK : Nat := 5

/-- What one call `inflate(&rs->z, flush)` does: its return code, how many
input bytes it consumed, the bytes it stored at `next_out`, the engine's new
internal state, and what it left in the header descriptor (`hdr.done` and the
name buffer). -/
structure InflateResult (σ : Type) where
  ret : Int
  consumed : Nat
  output : List Nat
  state : σ
  done : Int
  name : List Nat

/-- The decompression engine, over its internal state `σ`. `inflate` gets the
state, the input available at `next_in`, `avail_out`, the flush value and the
name buffer the header descriptor points to. `inflateInit2` also tells whether
it set `zalloc` and `zfree`. -/
structure Decoder (σ : Type) where
  inflateInit2 : σ → Int × Bool × σ
  inflateReset : σ → Int × σ
  inflateGetHeader : σ → Int × σ
  inflate : σ → List Nat → Nat → Nat → List Nat → InflateResult σ
  inflateEnd : σ → Int

/-- The fields of `rs->z` besides `next_in` and `avail_in`: the engine's state
and whether `zalloc` and `zfree` are set. -/
structure z_stream (σ : Type) where
  state : σ
  zalloc : Bool
  zfree : Bool

/-- The file system as the program sees it: whether `open(name, oflags, 0666)`
succeeds, what `write` returns for a chunk given the chunks written before,
whether closing the output and the input file fails, and whether `lseek` on
the input fails. -/
structure OS where
  openOut : List Nat → Nat → Bool
  write : List (List Nat) → List Nat → Int
  closeOutFails : Bool
  closeInFails : Bool
  lseekFails : Bool

/-- The window after the engine consumed `n` bytes of it (never more than
`avail_in`). -/
def consume (rs : rstate) (n : Nat) : rstate :=
  { rs with next_in := rs.next_in + min n rs.avail_in, avail_in := rs.avail_in - min n rs.avail_in }

/-! ## The decoder adapter -/

/-- What `gzinit` leaves behind: its return value, the window, the stream and
the name buffer. -/
structure InitResult (σ : Type) where
  ret : Nat
  rs : rstate
  z : z_stream σ
  name : List Nat

/-- The loop `while (!hdr.done)` of `gzinit`; `none` when the fuel runs out. -/
def gzinitLoop {σ : Type} (D : Decoder σ) :
    Nat → rstate → z_stream σ → List Nat → Int → Option (InitResult σ)
  | 0, _, _, _, _ => none
  | fuel + 1, rs, z, name, done =>
    if done ≠ 0 then some { ret := 0, rs := rs, z := z, name := name }
    else
      let r := D.inflate z.state (window rs) 0 Z_BLOCK name
      let rs1 := consume rs r.consumed
      let z1 : z_stream σ := { z with state := r.state }
      if r.ret = Z_BUF_ERROR then
        match rsread rs1 (some rs1.next_in) with
        | (0, rs2) => gzinitLoop D fuel rs2 z1 r.name r.done
        | (_, rs2) => some { ret := 1, rs := rs2, z := z1, name := r.name }
      else if r.ret ≠ 0 then some { ret := 1, rs := rs1, z := z1, name := r.name }
      else gzinitLoop D fuel rs1 z1 r.name r.done

/-- The start of `gzinit`: `inflateInit2` on the first use of the stream (when
`zfree` is NULL), `inflateReset` afterwards; the return code and the stream. -/
def gzinitStart {σ : Type} (D : Decoder σ) (z : z_stream σ) : Int × z_stream σ :=
  if z.zfree = false then
    let r := D.inflateInit2 z.state
    (r.1, { state := r.2.2, zalloc := z.zalloc || r.2.1, zfree := z.zfree || r.2.1 })
  else
    let r := D.inflateReset z.state
    (r.1, { z with state := r.2 })

/-- The function `gzinit(rs, name, namelen)`; `none` when the header loop does
not end within `fuel` iterations. -/
def gzinit {σ : Type} (D : Decoder σ) (fuel : Nat) (rs : rstate) (z : z_stream σ)
    (name : List Nat) (namelen : Nat) : Option (InitResult σ) :=
  let start := gzinitStart D z
  if start.1 ≠ 0 then some { ret := 1, rs := rs, z := start.2, name := name }
  else
    let name1 := name.set 0 0
    let h := D.inflateGetHeader start.2.state
    let z2 : z_stream σ := { start.2 with state := h.2 }
    if h.1 ≠ 0 then some { ret := 1, rs := rs, z := z2, name := name1 }
    else
      match gzinitLoop D fuel rs z2 name1 0 with
      | none => none
      | some r =>
        if r.ret ≠ 0 then some r
        else some { r with name := r.name.set (namelen - 1) 0 }

/-- What `gzlist` leaves behind: its return value, the window, the stream and
the line it printed (ordinal, offset, name), if it got that far. -/
structure ListResult (σ : Type) where
  ret : Nat
  rs : rstate
  z : z_stream σ
  line : Option (Nat × Int × List Nat)

/-- The C string held in a buffer: its bytes up to the first NUL. -/
def cstr (buf : List Nat) : List Nat := buf.takeWhile (· ≠ 0)

/-- The function `gzlist(idx, rs)`; `name0` is what the stack array `name`
holds on entry. `none` when `gzinit` runs out of fuel. -/
def gzlist {σ : Type} (D : Decoder σ) (os : OS) (fuel : Nat) (name0 : List Nat)
    (idx : Nat) (rs : rstate) (z : z_stream σ) : Option (ListResult σ) :=
  if os.lseekFails then some { ret := 1, rs := rs, z := z, line := none }
  else
    let off : Int := streamOff rs
    match gzinit D fuel rs z name0 NAMELEN with
    | none => none
    | some r =>
      if r.ret ≠ 0 then some { ret := 1, rs := r.rs, z := r.z, line := none }
      else some { ret := 0, rs := r.rs, z := r.z, line := some (idx, off, cstr r.name) }

/-- The open flag `O_WRONLY` (its Linux value). -/
def O_WRONLY : Nat := 0o1

/-- The open flag `O_CREAT` (its Linux value). -/
def O_CREAT : Nat := 0o100

/-- The open flag `O_EXCL` (its Linux value). -/
def O_EXCL : Nat := 0o200

/-- The open flag `O_TRUNC` (its Linux value). -/
def O_TRUNC : Nat := 0o1000

/-- The name `"gzdetect.out"`. -/
def fallbackName : List Nat := "gzdetect.out".toList.map Char.toNat

/-- The call `strchr(s, c)` for a non-zero `c`: the index of the first `c`
before the terminating NUL. -/
def strchr (s : List Nat) (c : Nat) : Option Nat := firstIdx c (cstr s)

/-- The output file settings of `gzextract`: the name and the flags it passes
to `open`, from the name the user gave (`none` for NULL) and the buffer
`gzname` that `gzinit` filled. -/
def outputSettings (username : Option (List Nat)) (gzname : List Nat) : List Nat × Nat :=
  let oflags : Nat := O_WRONLY ||| O_CREAT ||| O_TRUNC
  match username with
  | some name => (name, oflags)
  | none =>
    if byteAt gzname 0 ≠ 0 ∧ strchr gzname 47 = none then (cstr gzname, oflags ||| O_EXCL)
    else (fallbackName, oflags ||| O_EXCL)

/-- What `gzextract` leaves behind: its return value, the window, the stream,
the name and flags it opened the output with (if it got that far) and the
chunks it wrote in full. -/
structure ExtractResult (σ : Type) where
  ret : Nat
  rs : rstate
  z : z_stream σ
  opened : Option (List Nat × Nat)
  written : List (List Nat)

/-- The inflate loop of `gzextract`, one pass of the body of the `do` loop per
step, up to the label `cleanup`; the first component is the value of `err`
there. `none` when the fuel runs out. -/
def gzextractLoop {σ : Type} (D : Decoder σ) (os : OS) (gzname : List Nat) :
    Nat → rstate → z_stream σ → List (List Nat) → Option (Nat × rstate × z_stream σ × List (List Nat))
  | 0, _, _, _ => none
  | fuel + 1, rs, z, written =>
    let r := D.inflate z.state (window rs) BUFSIZE Z_NO_FLUSH gzname
    let rs1 := consume rs r.consumed
    let z1 : z_stream σ := { z with state := r.state }
    let out := r.output.take BUFSIZE
    if r.ret ≠ Z_OK ∧ r.ret ≠ Z_BUF_ERROR ∧ r.ret ≠ Z_STREAM_END then some (1, rs1, z1, written)
    else if os.write written out ≠ (out.length : Int) then some (1, rs1, z1, written)
    else if BUFSIZE - out.length = 0 then gzextractLoop D os gzname fuel rs1 z1 (written ++ [out])
    else if r.ret = Z_STREAM_END then some (0, rs1, z1, written ++ [out])
    else
      match rsread rs1 (some rs1.next_in) with
      | (0, rs2) =>
        if rs2.avail_in = 0 then some (1, rs2, z1, written ++ [out])
        else gzextractLoop D os gzname fuel rs2 z1 (written ++ [out])
      | (_, rs2) => some (1, rs2, z1, written ++ [out])

/-- The function `gzextract(username, rs)`; `name0` is what the stack array
`gzname` holds on entry. `none` when a loop runs out of fuel. -/
def gzextract {σ : Type} (D : Decoder σ) (os : OS) (fuel : Nat) (name0 : List Nat)
    (username : Option (List Nat)) (rs : rstate) (z : z_stream σ) : Option (ExtractResult σ) :=
  match gzinit D fuel rs z name0 NAMELEN with
  | none => none
  | some i =>
    if i.ret ≠ 0 then some { ret := 1, rs := i.rs, z := i.z, opened := none, written := [] }
    else
      let settings := outputSettings username i.name
      if os.openOut settings.1 settings.2 = false then
        some { ret := 1, rs := i.rs, z := i.z, opened := some settings, written := [] }
      else
        match gzextractLoop D os i.name fuel i.rs i.z [] with
        | none => none
        | some (err, rs1, z1, written) =>
          some { ret := if os.closeOutFails then 1 else err, rs := rs1, z := z1,
                 opened := some settings, written := written }

/-! ## The session driver -/

/-- What a run of `main` does that can be seen from outside, in order. -/
inductive Event where
  /-- The call of `gzfind` that raised `found` to `n` returned 0 with the
  consumption boundary at stream offset `off`. -/
  | found (n : Nat) (off : Int)
  /-- The function `gzlist` was called for ordinal `n` with the consumption
  boundary at stream offset `off`. -/
  | gzlistCall (n : Nat) (off : Int)
  /-- The call of `gzlist` returned `ret`, having printed `line` (ordinal,
  offset, name). -/
  | gzlistDone (ret : Nat) (line : Option (Nat × Int × List Nat))
  /-- The function `gzextract` was called with the consumption boundary at
  stream offset `off`. -/
  | gzextractCall (off : Int)
  /-- The call of `gzextract` returned `ret`, having opened and written this. -/
  | gzextractDone (ret : Nat) (opened : Option (List Nat × Nat)) (written : List (List Nat))
  /-- The message "No gzip data found." -/
  | noData
  /-- The message "Less than idx sections of gzip data." -/
  | lessThan (idx : Nat)
deriving DecidableEq

/-- A run of `main`: what it did, and its exit status (`none` when a loop ran
out of fuel before `main` returned). -/
structure Run where
  log : List Event
  exit : Option Nat
deriving DecidableEq

/-- The code of `main` from the label `err` on, entered with `err`. -/
def mainExit {σ : Type} (D : Decoder σ) (os : OS) (z : z_stream σ) (err : Nat) : Nat :=
  let err1 : Nat := if z.zalloc then (if D.inflateEnd z.state ≠ 0 then 1 else err) else err
  err1 ||| (if os.closeInFails then 1 else 0)

/-- The code of `main` after its loop: the two checks of `found`, then the
label `err`. -/
def mainEnd {σ : Type} (D : Decoder σ) (os : OS) (idx : Nat) (z : z_stream σ) (found : Nat)
    (log : List Event) : Run :=
  if found = 0 then { log := log ++ [Event.noData], exit := some (mainExit D os z 1) }
  else if idx > found then { log := log ++ [Event.lessThan idx], exit := some (mainExit D os z 1) }
  else { log := log, exit := some (mainExit D os z 0) }

/-- The one-byte skip of `main`, `++rs.z.next_in; --rs.z.avail_in;`, on the
32-bit unsigned `avail_in`. -/
def skipByte (rs : rstate) : rstate :=
  { rs with next_in := rs.next_in + 1, avail_in := (rs.avail_in + 2 ^ 32 - 1) % 2 ^ 32 }

/-- The branch `idx == found` of the loop of `main`: `gzextract` is called on
`rs`, then `main` leaves its loop, by `goto err` or by `break`. -/
def extractBranch {σ : Type} (D : Decoder σ) (os : OS) (cf : Nat) (name0 : List Nat)
    (idx : Nat) (outfile : Option (List Nat)) (rs : rstate) (z : z_stream σ)
    (log : List Event) : Run :=
  let log2 := log ++ [Event.gzextractCall (streamOff rs)]
  match gzextract D os cf name0 outfile rs z with
  | none => { log := log2, exit := none }
  | some e =>
    let log3 := log2 ++ [Event.gzextractDone e.ret e.opened e.written]
    if e.ret ≠ 0 then { log := log3, exit := some (mainExit D os e.z 1) }
    else mainEnd D os idx e.z idx log3

/-- The loop `while (gzfind(&rs, GZ_FIND_STRICT) == 0)` of `main` and what follows
it. `cf` is the fuel handed to the loops of `gzinit` and `gzextract`, `name0`
what their stack arrays hold on entry. -/
def mainLoop {σ : Type} (D : Decoder σ) (os : OS) (now : Int) (cf : Nat) (name0 : List Nat)
    (idx : Nat) (outfile : Option (List Nat)) :
    Nat → rstate → z_stream σ → Nat → List Event → Run
  | 0, _, _, _, log => { log := log, exit := none }
  | fuel + 1, rs, z, found, log =>
    match gzfind GZ_FIND_STRICT now rs with
    | none => { log := log, exit := none }
    | some (r, rs1) =>
      if r ≠ 0 then mainEnd D os idx z found log
      else
        let found1 := found + 1
        let log1 := log ++ [Event.found found1 (streamOff rs1)]
        if idx = found1 then extractBranch D os cf name0 idx outfile rs1 z log1
        else if idx ≠ 0 then
          mainLoop D os now cf name0 idx outfile fuel (skipByte rs1) z found1 log1
        else
          let log2 := log1 ++ [Event.gzlistCall found1 (streamOff rs1)]
          match gzlist D os cf name0 found1 rs1 z with
          | none => { log := log2, exit := none }
          | some l =>
            let log3 := log2 ++ [Event.gzlistDone l.ret l.line]
            if l.ret ≠ 0 then { log := log3, exit := some (mainExit D os l.z 1) }
            else mainLoop D os now cf name0 idx outfile fuel l.rs l.z found1 log3

/-- The function `main`, once the input file is open, with `idx` and `outfile`
as `parse_args` set them (`idx = 0` lists, `idx >= 1` extracts); `s0` is the
engine's state before its first use. -/
def main {σ : Type} (D : Decoder σ) (os : OS) (now : Int) (fuel : Nat) (idx : Nat)
    (outfile : Option (List Nat)) (data buf0 name0 : List Nat) (s0 : σ) : Run :=
  mainLoop D os now fuel name0 idx outfile fuel (initState data buf0)
    { state := s0, zalloc := false, zfree := false } 0 []

/-! ## Notions the properties are stated with -/

/-- The candidates the scanner accepts from `rs` on when every accepted
candidate is followed by the one-byte skip: the window states successive calls
of `gzfind` return 0 with. -/
def candidates (now : Int) : Nat → rstate → List rstate
  | 0, _ => []
  | fuel + 1, rs =>
    match gzfind GZ_FIND_STRICT now rs with
    | some (0, rs1) => rs1 :: candidates now fuel (skipByte rs1)
    | _ => []

/-- The candidates of a whole input, scanned from the initial empty window. -/
def inputCandidates (now : Int) (data buf0 : List Nat) : List rstate :=
  candidates now (data.length + 1) (initState data buf0)

/-- The events `found (k + 1)`, `found (k + 2)`, ... for a list of candidates. -/
def foundLog : Nat → List rstate → List Event
  | _, [] => []
  | k, c :: cs => Event.found (k + 1) (streamOff c) :: foundLog (k + 1) cs

/-- Whether an event is a call of `gzextract`. -/
def Event.isExtractCall : Event → Bool
  | .gzextractCall _ => true
  | _ => false

/-- Whether an event is a call of `gzlist`. -/
def Event.isListCall : Event → Bool
  | .gzlistCall _ _ => true
  | _ => false

/-- Whether an event shows that `open` was called on an output file. -/
def Event.opensOutput : Event → Bool
  | .gzextractDone _ (some _) _ => true
  | _ => false

/-- The offsets of the lines a run printed in listing mode, in order. -/
def listedOffsets (log : List Event) : List Int :=
  log.filterMap fun e =>
    match e with
    | .gzlistDone _ (some (_, off, _)) => some off
    | _ => none

/-- The stream offsets at which a run called `gzlist`, in order. -/
def listCallOffsets (log : List Event) : List Int :=
  log.filterMap fun e =>
    match e with
    | .gzlistCall _ off => some off
    | _ => none

/-- The stream offset at which a run called `gzextract`, if it did. -/
def extractOffset (log : List Event) : Option Int :=
  (log.filterMap fun e =>
    match e with
    | .gzextractCall off => some off
    | _ => none).head?

/-! ## A concrete engine and file system for the examples -/

/-- Whether `hb` is a complete gzip header that has at most the name field
(RFC 1952): the ten fixed bytes, then, when bit 3 (FNAME) of the flag byte is
set, the name up to and including its NUL. -/
def headerComplete (hb : List Nat) : Bool :=
  decide (10 ≤ hb.length) && (byteAt hb 3 &&& 8 == 0 || (hb.drop 10).contains 0)

/-- Feed input bytes to the header parse until the header `hb` is complete:
the number of bytes consumed and the header bytes held then. -/
def feedHeader : List Nat → List Nat → Nat × List Nat
  | hb, [] => (0, hb)
  | hb, b :: rest =>
    if headerComplete hb then (0, hb)
    else
      let r := feedHeader (hb ++ [b]) rest
      (r.1 + 1, r.2)

/-- An engine for the examples. It parses gzip headers with at most a name
field the way zlib does: it consumes the header up to its end and no further,
reports `Z_BUF_ERROR` when it has no input to go on with, sets `done` at the
end of the header, and stores the first `name_max = 30` bytes of the name and
its NUL into the name buffer. It rejects every payload with `Z_DATA_ERROR`,
as zlib does the payloads of the examples. Its state is the header bytes
consumed so far. -/
def headerDecoder : Decoder (List Nat) where
  inflateInit2 := fun _ => (0, true, [])
  inflateReset := fun _ => (0, [])
  inflateGetHeader := fun st => (0, st)
  inflate := fun st input _ _ name =>
    if headerComplete st then
      { ret := -3, consumed := 0, output := [], state := st, done := 1, name := name }
    else
      let r := feedHeader st input
      { ret := if r.1 = 0 then Z_BUF_ERROR else Z_OK,
        consumed := r.1,
        output := [],
        state := r.2,
        done := if headerComplete r.2 then 1 else 0,
        name := if byteAt r.2 3 &&& 8 ≠ 0 then bufStore name 0 ((r.2.drop 10).take NAMELEN)
                else name }
  inflateEnd := fun _ => 0

/-- A file system on which every call succeeds. -/
def plainOS : OS where
  openOut := fun _ _ => true
  write := fun _ chunk => chunk.length
  closeOutFails := false
  closeInFails := false
  lseekFails := false

/-- Modelled from the spec: the name buffer after the engine captured the
embedded name `emb` into it (section 4.4, "Requests header capture with a
caller-supplied name buffer of bounded capacity"): the first `NAMELEN` bytes
of the name and its terminating NUL, stored at the start of the buffer `b`. -/
def captureName (emb b : List Nat) : List Nat :=
  bufStore b 0 ((emb ++ [0]).take NAMELEN)

/-! ## Concrete inputs for the examples -/

/-- A ten-byte header that `gzcheck` accepts: magic, deflate, no flags, no
modification time, no extra flags, OS 3 (Unix). -/
def validHeader : List Nat := [0x1f, 0x8b, 8, 0, 0, 0, 0, 0, 0, 3]

/-- A stack buffer of `BUFSIZE` zero bytes. -/
def zeroBuf : List Nat := List.replicate 4096 0

/-- A name array of `NAMELEN` zero bytes. -/
def zeroName : List Nat := List.replicate 30 0

/-- An input whose valid header starts at offset `k`, after `k` zero bytes,
and is followed by three more bytes. -/
def headerAt (k : Nat) : List Nat := List.replicate k 0 ++ validHeader ++ [1, 2, 3]

/-- A member whose header has the name field, the name being ten bytes that
`gzcheck` accepts as a header (flag FTEXT, a modification time in 2020, extra
flags 2, OS 3); a second member's header follows at offset 21. -/
def nestedInput : List Nat :=
  [0x1f, 0x8b, 8, 8, 0, 0, 0, 0, 0, 3] ++ [0x1f, 0x8b, 8, 1, 1, 0xe1, 0x0b, 0x5e, 2, 3] ++ [0] ++
    validHeader

/-- An embedded name of 31 bytes: 29 times `a`, then `/x`. -/
def longName : List Nat := List.replicate 29 97 ++ [47, 120]

/-- A member whose header has the name field with the name `longName`,
followed by two bytes that are no deflate data (block type 3 is reserved). -/
def longNameInput : List Nat := [0x1f, 0x8b, 8, 8, 0, 0, 0, 0, 0, 3] ++ longName ++ [0] ++ [7, 0]

/-- The first 4087 bytes of `decoyInput`: the last nine bytes of a valid
header, then zero bytes. -/
def decoyJunk : List Nat := [0, 0x8b, 8, 0, 0, 0, 0, 0, 0] ++ List.replicate 4078 0

/-- An input of 4099 bytes without a valid header: its first nine bytes are
the last nine bytes of a valid header, its only `0x1f` is at offset 4087, and
the byte at offset 4096 is 3. -/
def decoyInput : List Nat := decoyJunk ++ ([0x1f, 0, 0, 0, 0, 0, 0, 0, 0] ++ [3, 0, 0])

/-! ## Auxiliary notions for the proofs -/

/-- The bytes the next `read` returns when `n` are asked for, on a source
that does not fail. -/
def Source.next (s : Source) (n : Nat) : List Nat := s.rest.take (s.cap n)

/-- The source after a successful `read` of up to `n` bytes. -/
def Source.advance (s : Source) (n : Nat) : Source :=
  { s with pos := s.pos + (s.next n).length, short := s.short.tail }

/-- The measure that bounds the iterations of `gzfind`: the bytes not yet read
plus the bytes of the window at or after the scan pointer. -/
def scanMeasure (rs : rstate) (p : Nat) : Nat := rs.fd.rest.length + (zsend rs - p)

/-- The window after a successful `rsread(rs, NULL)`. -/
def refilled (rs : rstate) : rstate :=
  { fd := rs.fd.advance BUFSIZE,
    buf := bufStore rs.buf 0 (rs.fd.next BUFSIZE),
    next_in := 0,
    avail_in := (rs.fd.next BUFSIZE).length }

/-- The window after a successful `rsread(rs, start)` with a keep-from `s`. -/
def refilledFrom (rs : rstate) (s : Nat) : rstate :=
  { fd := rs.fd.advance (BUFSIZE - (zsend rs - s)),
    buf := bufStore (if zsend rs - s ≠ 0 then memmove rs.buf rs.next_in (zsend rs - s) else rs.buf)
      (zsend rs - s) (rs.fd.next (BUFSIZE - (zsend rs - s))),
    next_in := 0,
    avail_in := (zsend rs - s) + (rs.fd.next (BUFSIZE - (zsend rs - s))).length }

/-- The window starts at the buffer's start and holds the bytes `W`, the
unread input is `R`, and `P` bytes have been read from a file that does not
fail and does not cut its reads short. -/
def Holds (rs : rstate) (W R : List Nat) (P : Nat) : Prop :=
  rs.next_in = 0 ∧ rs.avail_in = W.length ∧ rs.buf.take W.length = W ∧
    rs.fd.failing = false ∧ rs.fd.rest = R ∧ rs.fd.pos = P ∧ rs.fd.short = []

/-! ## Further notions the properties are stated with -/

/-- The index `i` is a candidate of the input `data` that `gzcheck` accepts:
ten bytes are there, the first is `0x1f`, and `gzcheck` returns 0 on them. -/
def validAt (flags : Nat) (now : Int) (data : List Nat) (i : Nat) : Prop :=
  i + 10 ≤ data.length ∧ byteAt data i = 0x1f ∧ gzcheck ((data.drop i).take 10) flags now = 0

/-- The state `main` starts from when the input is a pipe: as `initState`, but
the reads are cut short as `short` says. -/
def initStateShort (data short buf0 : List Nat) : rstate :=
  { fd := { data := data, pos := 0, failing := false, short := short },
    buf := buf0, next_in := 0, avail_in := 0 }

/-- The stream offset of the scan pointer `p` of `gzfind`: the file position
minus the bytes of the window at or after `p`. -/
def scanOff (rs : rstate) (p : Nat) : Int := (rs.fd.pos : Int) + p - zsend rs

/-- The window bounds: the buffer has `BUFSIZE` bytes, and
`buf <= next_in` and `next_in + avail_in <= buf + BUFSIZE`, pointers being
offsets from `buf`. -/
def windowOK (rs : rstate) : Prop :=
  rs.buf.length = BUFSIZE ∧ 0 ≤ rs.next_in ∧ rs.next_in + rs.avail_in ≤ BUFSIZE

/-- The stream offsets of the successful `gzfind` calls of a run, in order. -/
def foundOffsets (log : List Event) : List Int :=
  log.filterMap fun e =>
    match e with
    | .found _ off => some off
    | _ => none

/-- A truncated member: the ten fixed header bytes with the FNAME flag set
(flag byte 8), and no name bytes after them. -/
def truncInput : List Nat := [0x1f, 0x8b, 8, 8, 0, 0, 0, 0, 0, 3]

/-- The stream `main` starts with: the engine's state `s0`, `zalloc` and
`zfree` NULL. -/
def freshStream {σ : Type} (s0 : σ) : z_stream σ := { state := s0, zalloc := false, zfree := false }

/-- Every chunk of `cs` was written in full, one after the other, after the
chunks `w`: each `write` returned the length of its chunk. -/
def WrittenInFull (os : OS) : List (List Nat) → List (List Nat) → Prop
  | _, [] => True
  | w, c :: cs => os.write w c = (c.length : Int) ∧ WrittenInFull os (w ++ [c]) cs

/-- What `inflate(&rs->z, Z_NO_FLUSH)` answers in the pass of the payload loop
of `gzextract` that starts with the window `rs` and the stream `z`. -/
def passResult {σ : Type} (D : Decoder σ) (gzname : List Nat) (rs : rstate) (z : z_stream σ) :
    InflateResult σ :=
  D.inflate z.state (window rs) BUFSIZE Z_NO_FLUSH gzname

/-- The chunk of that pass: the `have = BUFSIZE - avail_out` bytes at `obuf`. -/
def passChunk {σ : Type} (D : Decoder σ) (gzname : List Nat) (rs : rstate) (z : z_stream σ) :
    List Nat :=
  (passResult D gzname rs z).output.take BUFSIZE

/-- The window after the `inflate` call of that pass. -/
def passWindow {σ : Type} (D : Decoder σ) (gzname : List Nat) (rs : rstate) (z : z_stream σ) :
    rstate :=
  consume rs (passResult D gzname rs z).consumed

/-- The stream after the `inflate` call of that pass. -/
def passStream {σ : Type} (D : Decoder σ) (gzname : List Nat) (rs : rstate) (z : z_stream σ) :
    z_stream σ :=
  { z with state := (passResult D gzname rs z).state }

/-- An engine that parses headers as `headerDecoder` does and, like zlib,
answers `Z_BUF_ERROR` when it is called for the payload with no input at all:
no progress is possible. Offered payload bytes it answers as `headerDecoder`
does. -/
def starveDecoder : Decoder (List Nat) where
  inflateInit2 := headerDecoder.inflateInit2
  inflateReset := headerDecoder.inflateReset
  inflateGetHeader := headerDecoder.inflateGetHeader
  inflate := fun st input avail_out flush name =>
    if headerComplete st ∧ input = [] then
      { ret := Z_BUF_ERROR, consumed := 0, output := [], state := st, done := 1, name := name }
    else headerDecoder.inflate st input avail_out flush name
  inflateEnd := headerDecoder.inflateEnd

/-- The window holds the input `data` from offset `k` on, and the file, which
does not fail, has been read to its end: the state of a scan over an input
that fits in the buffer. -/
def Tail (rs : rstate) (data : List Nat) (k : Nat) : Prop :=
  window rs = data.drop k ∧ rs.avail_in = data.length - k ∧ k ≤ data.length ∧
    rs.next_in + rs.avail_in ≤ rs.buf.length ∧
    rs.fd.rest = [] ∧ rs.fd.failing = false ∧ rs.fd.short = [] ∧ rs.fd.pos = data.length

/-- The walk of listing mode: for each successful `gzfind` of the loop of
`main`, the state it returned, paired with the state `gzlist` left when it
returned 0; `none` when `gzlist` failed or did not return, which ends the
walk. `found` is the count before the call. -/
def listSteps {σ : Type} (D : Decoder σ) (os : OS) (now : Int) (cf : Nat) (name0 : List Nat) :
    Nat → rstate → z_stream σ → Nat → List (rstate × Option rstate)
  | 0, _, _, _ => []
  | fuel + 1, rs, z, found =>
    match gzfind GZ_FIND_STRICT now rs with
    | some (0, rs1) =>
      match gzlist D os cf name0 (found + 1) rs1 z with
      | some l =>
        if l.ret = 0 then
          (rs1, some l.rs) :: listSteps D os now cf name0 fuel l.rs l.z (found + 1)
        else [(rs1, none)]
      | none => [(rs1, none)]
    | _ => []

/-- The offsets of the entries a listing walk printed: those of the steps in
which `gzlist` returned 0. -/
def printedOffsets (steps : List (rstate × Option rstate)) : List Int :=
  steps.filterMap fun s => s.2.map fun _ => streamOff s.1

instance validAt_decidable (flags : Nat) (now : Int) (data : List Nat) (i : Nat) :
    Decidable (validAt flags now data i) := by
  unfold validAt
  infer_instance

/-- No header start that `gzcheck` accepts lies inside the bytes listing mode
consumed for an entry: for every step of the walk, from an entry at offset `a`
to the boundary `gzlist` left at offset `b`, `a + 1 <= b` and no index `j`
with `a + 1 <= j < b` is a candidate `gzcheck` accepts. -/
def noNested (now : Int) (data : List Nat) (steps : List (rstate × Option rstate)) : Prop :=
  ∀ s ∈ steps, ∀ b ∈ s.2, streamOff s.1 + 1 ≤ streamOff b ∧
    ∀ j, j < data.length → streamOff s.1 + 1 ≤ (j : Int) → (j : Int) < streamOff b →
      ¬ validAt GZ_FIND_STRICT now data j

instance noNested_decidable (now : Int) (data : List Nat)
    (steps : List (rstate × Option rstate)) : Decidable (noNested now data steps) := by
  unfold noNested
  infer_instance

/-- Two members back to back, each a header without optional fields and no
payload. -/
def twoHeaders : List Nat := validHeader ++ validHeader

/-- The same buffer and file with the window stretched back to the start of
the buffer. -/
def rebase (rs : rstate) : rstate := { rs with next_in := 0, avail_in := zsend rs }

/-! ## Facts about the reader -/

theorem cap_nil (s : Source) (n : Nat) (h : s.short = []) : s.cap n = n := by
  simp [Source.cap, h]

theorem cap_le (s : Source) (n : Nat) : s.cap n ≤ n := by
  unfold Source.cap
  split
  · exact Nat.le_refl _
  · exact Nat.min_le_left _ _

/-- A `read` that is asked for a byte is allowed one: it returns 0 only at the
end of the file. -/
theorem cap_pos (s : Source) (n : Nat) (h : 0 < n) : 0 < s.cap n := by
  unfold Source.cap
  split
  · exact h
  · exact Nat.lt_min.mpr ⟨h, Nat.succ_pos _⟩

theorem next_nil (s : Source) (n : Nat) (h : s.short = []) : s.next n = s.rest.take n := by
  rw [Source.next, cap_nil s n h]

theorem next_length (s : Source) (n : Nat) : (s.next n).length = min (s.cap n) s.rest.length := by
  simp [Source.next, List.length_take]

theorem next_length_le (s : Source) (n : Nat) : (s.next n).length ≤ n := by
  rw [next_length]
  exact Nat.le_trans (Nat.min_le_left _ _) (cap_le s n)

theorem next_eof (s : Source) (n : Nat) (h : s.rest = []) : s.next n = [] := by
  simp [Source.next, h]

/-- What `read` returns on a file that does not fail. -/
theorem fdRead_ok (s : Source) (n : Nat) (h : s.failing = false) :
    fdRead s n = some (s.next n, s.advance n) := by
  simp [fdRead, h, Source.rest, Source.advance, Source.next]

theorem fdRead_failing (s : Source) (n : Nat) (h : s.failing = true) : fdRead s n = none := by
  simp [fdRead, h]

theorem advance_rest (s : Source) (n : Nat) : (s.advance n).rest = s.rest.drop (s.cap n) := by
  have h1 : ∀ k t, ({ s with pos := s.pos + k, short := t } : Source).rest = s.rest.drop k := by
    intro k t; simp [Source.rest, List.drop_drop, Nat.add_comm]
  simp only [Source.advance, h1, Source.next]
  rw [List.length_take]
  rcases Nat.le_total (s.cap n) s.rest.length with h | h
  · rw [Nat.min_eq_left h]
  · rw [Nat.min_eq_right h, List.drop_of_length_le h, List.drop_of_length_le (le_refl _)]

theorem advance_rest_nil (s : Source) (n : Nat) (h : s.short = []) :
    (s.advance n).rest = s.rest.drop n := by
  rw [advance_rest, cap_nil s n h]

theorem advance_rest_length (s : Source) (n : Nat) :
    (s.advance n).rest.length + (s.next n).length = s.rest.length := by
  rw [advance_rest, next_length, List.length_drop]
  omega

theorem advance_failing (s : Source) (n : Nat) : (s.advance n).failing = s.failing := rfl

theorem advance_data (s : Source) (n : Nat) : (s.advance n).data = s.data := rfl

theorem advance_short (s : Source) (n : Nat) : (s.advance n).short = s.short.tail := rfl

theorem advance_short_nil (s : Source) (n : Nat) (h : s.short = []) :
    (s.advance n).short = [] := by
  rw [advance_short, h]
  rfl

theorem advance_pos (s : Source) (n : Nat) :
    (s.advance n).pos = s.pos + min (s.cap n) s.rest.length := by
  simp [Source.advance, Source.next, List.length_take]

theorem advance_pos_nil (s : Source) (n : Nat) (h : s.short = []) :
    (s.advance n).pos = s.pos + min n s.rest.length := by
  rw [advance_pos, cap_nil s n h]

theorem rsread_failing (rs : rstate) (start : Option Nat) (h : rs.fd.failing = true) :
    (rsread rs start).1 = 1 := by
  simp [rsread, fdRead_failing _ _ h]

theorem rsread_none_ok (rs : rstate) (h : rs.fd.failing = false) :
    rsread rs none = (0, refilled rs) := by
  simp [rsread, fdRead_ok _ _ h, refilled]

theorem rsread_some_ok (rs : rstate) (s : Nat) (h : rs.fd.failing = false) :
    rsread rs (some s) = (0, refilledFrom rs s) := by
  simp [rsread, fdRead_ok _ _ h, refilledFrom]

theorem rsread_failing_eq (rs : rstate) (start : Option Nat) (h : rs.fd.failing = true) :
    ∃ rs1, rsread rs start = (1, rs1) ∧ rs1.fd = rs.fd ∧ rs1.next_in = rs.next_in ∧
      rs1.avail_in = rs.avail_in := by
  simp [rsread, fdRead_failing _ _ h]

/-! ## Facts about the scanner -/

theorem firstIdx_none (c : Nat) (l : List Nat) (h : ∀ b ∈ l, b ≠ c) : firstIdx c l = none := by
  induction l with
  | nil => rfl
  | cons x xs ih =>
    have hx : x ≠ c := h x (List.mem_cons_self _ _)
    have hxs : ∀ b ∈ xs, b ≠ c := fun b hb => h b (List.mem_cons_of_mem _ hb)
    simp [firstIdx, hx, ih hxs]

theorem firstIdx_lt (c : Nat) (l : List Nat) (i : Nat) (h : firstIdx c l = some i) :
    i < l.length := by
  induction l generalizing i with
  | nil => simp [firstIdx] at h
  | cons x xs ih =>
    simp only [firstIdx] at h
    split at h
    · cases h; simp
    · cases hx : firstIdx c xs with
      | none => simp [hx] at h
      | some j =>
        simp [hx] at h
        have := ih j hx
        simp; omega

theorem memchr_bounds (buf : List Nat) (p c n q : Nat) (h : memchr buf p c n = some q) :
    p ≤ q ∧ q < p + n := by
  unfold memchr at h
  cases hi : firstIdx c ((buf.drop p).take n) with
  | none => simp [hi] at h
  | some i =>
    simp [hi] at h
    have := firstIdx_lt _ _ _ hi
    simp [List.length_take] at this
    omega

theorem fill_lt (rs : rstate) (p : Nat) (h : p < zsend rs) : gzfindFill rs p = .ok (rs, p) := by
  simp [gzfindFill, Nat.not_le.mpr h]

theorem refilled_zsend (rs : rstate) :
    zsend (refilled rs) = min (rs.fd.cap BUFSIZE) rs.fd.rest.length := by
  simp [zsend, refilled, next_length]

theorem fill_ge (rs : rstate) (p : Nat) (h : zsend rs ≤ p) (hf : rs.fd.failing = false)
    (hne : rs.fd.rest ≠ []) : gzfindFill rs p = .ok (refilled rs, 0) := by
  have hl : 0 < rs.fd.rest.length := List.length_pos.mpr hne
  have hz := refilled_zsend rs
  have hn : (refilled rs).next_in = 0 := rfl
  simp only [gzfindFill, ge_iff_le, h, if_true, rsread_none_ok _ hf, hn, hz]
  have hc := cap_pos rs.fd BUFSIZE (by decide)
  have : ¬ (min (rs.fd.cap BUFSIZE) rs.fd.rest.length ≤ 0) := by omega
  rw [if_neg this]

theorem fill_eof (rs : rstate) (p : Nat) (h : zsend rs ≤ p) (hf : rs.fd.failing = false)
    (he : rs.fd.rest = []) : gzfindFill rs p = .error (1, refilled rs) := by
  have hz := refilled_zsend rs
  have hn : (refilled rs).next_in = 0 := rfl
  simp only [gzfindFill, ge_iff_le, h, if_true, rsread_none_ok _ hf, hn, hz]
  simp [he]

theorem fill_failing (rs : rstate) (p : Nat) (h : zsend rs ≤ p) (hf : rs.fd.failing = true) :
    ∃ rs1, gzfindFill rs p = .error (1, rs1) := by
  obtain ⟨rs1, h1, -⟩ := rsread_failing_eq rs none hf
  exact ⟨rs1, by simp [gzfindFill, h, h1]⟩

theorem header_fit (rs : rstate) (q : Nat) (h : q + GZ_HDR_LEN ≤ zsend rs) :
    gzfindHeader rs q = .ok (rs, q) := by
  simp [gzfindHeader, Nat.not_lt.mpr h]

theorem header_refill (rs : rstate) (q : Nat) (h : zsend rs < q + GZ_HDR_LEN)
    (hf : rs.fd.failing = false) :
    gzfindHeader rs q =
      if GZ_HDR_LEN ≤ (refilledFrom rs q).avail_in then .ok (refilledFrom rs q, 0)
      else .error (1, refilledFrom rs q) := by
  have hn : (refilledFrom rs q).next_in = 0 := rfl
  have hz : zsend (refilledFrom rs q) = (refilledFrom rs q).avail_in := by simp [zsend, hn]
  simp only [gzfindHeader, gt_iff_lt, h, if_true, rsread_some_ok _ _ hf, hn, hz, Nat.zero_add]
  by_cases h10 : GZ_HDR_LEN ≤ (refilledFrom rs q).avail_in
  · simp [h10, Nat.not_lt.mpr h10]
  · simp [h10, Nat.not_le.mp h10]

theorem header_failing (rs : rstate) (q : Nat) (h : zsend rs < q + GZ_HDR_LEN)
    (hf : rs.fd.failing = true) : ∃ rs1, gzfindHeader rs q = .error (1, rs1) := by
  obtain ⟨rs1, h1, -⟩ := rsread_failing_eq rs (some q) hf
  exact ⟨rs1, by simp [gzfindHeader, h, h1]⟩

/-- The first block of the loop either returns 1 or goes on with a pointer
inside the window, the measure unchanged. -/
theorem fill_cases (rs : rstate) (p : Nat) :
    (∃ rs1, gzfindFill rs p = .error (1, rs1)) ∨
    (∃ rs1 p1, gzfindFill rs p = .ok (rs1, p1) ∧ p1 < zsend rs1 ∧
      scanMeasure rs1 p1 = scanMeasure rs p ∧ (rs.next_in ≤ p → rs1.next_in ≤ p1) ∧
      (rs.avail_in ≤ BUFSIZE → rs1.avail_in ≤ BUFSIZE) ∧ rs1.fd.data = rs.fd.data ∧
      rs1.fd.failing = rs.fd.failing) := by
  by_cases hp : p < zsend rs
  · exact Or.inr ⟨rs, p, fill_lt rs p hp, hp, rfl, id, id, rfl, rfl⟩
  · have hp1 : zsend rs ≤ p := Nat.not_lt.mp hp
    cases hf : rs.fd.failing with
    | true => exact Or.inl (fill_failing rs p hp1 hf)
    | false =>
      by_cases he : rs.fd.rest = []
      · exact Or.inl ⟨_, fill_eof rs p hp1 hf he⟩
      · refine Or.inr ⟨refilled rs, 0, fill_ge rs p hp1 hf he, ?_, ?_, ?_, ?_, rfl, ?_⟩
        · rw [refilled_zsend]
          have := List.length_pos.mpr he
          have := cap_pos rs.fd BUFSIZE (by decide)
          omega
        · simp only [scanMeasure, refilled_zsend]
          have h1 : (refilled rs).fd.rest.length = rs.fd.rest.length - rs.fd.cap BUFSIZE := by
            simp [refilled, advance_rest]
          rw [h1]; omega
        · intro _; exact Nat.zero_le _
        · intro _
          exact next_length_le rs.fd BUFSIZE
        · simp [refilled, advance_failing, hf]

/-- The block that completes a header either returns 1 or goes on with ten
bytes at the pointer, the measure not larger. -/
theorem header_cases (rs : rstate) (q : Nat) :
    (∃ rs1, gzfindHeader rs q = .error (1, rs1)) ∨
    (∃ rs2 p2, gzfindHeader rs q = .ok (rs2, p2) ∧ p2 + GZ_HDR_LEN ≤ zsend rs2 ∧
      scanMeasure rs2 p2 = scanMeasure rs q ∧ (rs.next_in ≤ q → rs2.next_in ≤ p2) ∧
      (rs.next_in ≤ q → rs.avail_in ≤ BUFSIZE → rs2.avail_in ≤ BUFSIZE) ∧
      rs2.fd.data = rs.fd.data ∧ rs2.fd.failing = rs.fd.failing) := by
  by_cases hfit : q + GZ_HDR_LEN ≤ zsend rs
  · exact Or.inr ⟨rs, q, header_fit rs q hfit, hfit, rfl, id, fun _ h => h, rfl, rfl⟩
  · have hlt : zsend rs < q + GZ_HDR_LEN := Nat.not_le.mp hfit
    cases hf : rs.fd.failing with
    | true => exact Or.inl (header_failing rs q hlt hf)
    | false =>
      have hr := header_refill rs q hlt hf
      by_cases h10 : GZ_HDR_LEN ≤ (refilledFrom rs q).avail_in
      · rw [if_pos h10] at hr
        have hav : (refilledFrom rs q).avail_in =
            (zsend rs - q) + min (rs.fd.cap (BUFSIZE - (zsend rs - q))) rs.fd.rest.length := by
          simp [refilledFrom, next_length]
        have hrest : (refilledFrom rs q).fd.rest.length =
            rs.fd.rest.length - rs.fd.cap (BUFSIZE - (zsend rs - q)) := by
          simp [refilledFrom, advance_rest]
        have hcap := cap_le rs.fd (BUFSIZE - (zsend rs - q))
        refine Or.inr ⟨refilledFrom rs q, 0, hr, ?_, ?_, ?_, ?_, rfl, ?_⟩
        · simpa [zsend, refilledFrom] using h10
        · have hz : zsend (refilledFrom rs q) = (refilledFrom rs q).avail_in := by
            simp [zsend, refilledFrom]
          simp only [scanMeasure, hrest, hz, hav]
          generalize rs.fd.cap (BUFSIZE - (zsend rs - q)) = c
          generalize zsend rs - q = k
          generalize rs.fd.rest.length = n
          omega
        · intro _; exact Nat.zero_le _
        · intro h1 h2
          rw [hav]
          have hk : zsend rs - q ≤ BUFSIZE := by unfold zsend; omega
          generalize rs.fd.cap (BUFSIZE - (zsend rs - q)) = c at hcap
          generalize zsend rs - q = k at hk hcap
          omega
        · simp [refilledFrom, advance_failing, hf]
      · rw [if_neg h10] at hr
        exact Or.inl ⟨_, hr⟩

/-- One unfolding of the loop of `gzfind`. -/
theorem gzfindLoop_succ (flags : Nat) (now : Int) (fuel : Nat) (rs : rstate) (p : Nat) :
    gzfindLoop flags now (fuel + 1) rs p =
      match gzfindFill rs p with
      | .error r => some r
      | .ok (rs1, p1) =>
        match memchr rs1.buf p1 0x1f (zsend rs1 - p1) with
        | none => gzfindLoop flags now fuel rs1 (zsend rs1)
        | some q =>
          match gzfindHeader rs1 q with
          | .error r => some r
          | .ok (rs2, p2) =>
            if gzcheck (rs2.buf.drop p2) flags now = 0 then
              some (0, { rs2 with avail_in := rs2.avail_in - (p2 - rs2.next_in), next_in := p2 })
            else gzfindLoop flags now fuel rs2 (p2 + 1) := by
  rfl

/-- The loop of `gzfind` returns within `scanMeasure + 1` iterations. -/
theorem gzfindLoop_total (flags : Nat) (now : Int) :
    ∀ (fuel : Nat) (rs : rstate) (p : Nat), scanMeasure rs p < fuel →
      ∃ r, gzfindLoop flags now fuel rs p = some r := by
  intro fuel
  induction fuel with
  | zero => intro rs p h; omega
  | succ fuel ih =>
    intro rs p h
    rw [gzfindLoop_succ]
    rcases fill_cases rs p with ⟨rs1, h1⟩ | ⟨rs1, p1, h1, hp1, hm1, -⟩
    · rw [h1]; exact ⟨_, rfl⟩
    · rw [h1]
      simp only
      cases hmem : memchr rs1.buf p1 0x1f (zsend rs1 - p1) with
      | none =>
        simp only
        apply ih
        simp only [scanMeasure] at hm1 h ⊢
        omega
      | some q =>
        simp only
        have hb := memchr_bounds _ _ _ _ _ hmem
        rcases header_cases rs1 q with ⟨rs2, h2⟩ | ⟨rs2, p2, h2, hp2, hm2, -⟩
        · rw [h2]; exact ⟨_, rfl⟩
        · rw [h2]
          simp only
          split
          · exact ⟨_, rfl⟩
          · apply ih
            simp only [scanMeasure, GZ_HDR_LEN] at hm1 hm2 h hp2 ⊢
            omega

/-- What holds when the loop of `gzfind` returns: the value is 0 or 1, and on
0 at least ten bytes are valid at `next_in`, the window is within the buffer's
size, the file is the same one, and the measure has not grown. -/
theorem gzfindLoop_post (flags : Nat) (now : Int) :
    ∀ (fuel : Nat) (rs : rstate) (p : Nat) (r : Nat) (rs' : rstate),
      rs.next_in ≤ p → rs.avail_in ≤ BUFSIZE →
      gzfindLoop flags now fuel rs p = some (r, rs') →
      (r = 0 ∨ r = 1) ∧
      (r = 0 → GZ_HDR_LEN ≤ rs'.avail_in ∧ rs'.avail_in ≤ BUFSIZE ∧
        rs'.fd.rest.length + rs'.avail_in ≤ scanMeasure rs p ∧
        rs'.fd.data = rs.fd.data ∧ rs'.fd.failing = rs.fd.failing) := by
  intro fuel
  induction fuel with
  | zero => intro rs p r rs' _ _ h; simp [gzfindLoop] at h
  | succ fuel ih =>
    intro rs p r rs' hp hav h
    rw [gzfindLoop_succ] at h
    rcases fill_cases rs p with ⟨rs1, h1⟩ | ⟨rs1, p1, h1, hp1, hm1, hn1, ha1, hd1, hf1⟩
    · rw [h1] at h
      simp only [Option.some.injEq, Prod.mk.injEq] at h
      refine ⟨Or.inr h.1.symm, fun h0 => ?_⟩
      omega
    · rw [h1] at h
      simp only at h
      cases hmem : memchr rs1.buf p1 0x1f (zsend rs1 - p1) with
      | none =>
        rw [hmem] at h
        simp only at h
        obtain ⟨hr, hs⟩ := ih rs1 (zsend rs1) r rs' (by unfold zsend; omega) (ha1 hav) h
        refine ⟨hr, fun h0 => ?_⟩
        obtain ⟨a, b, c, d, e⟩ := hs h0
        refine ⟨a, b, ?_, d.trans hd1, e.trans hf1⟩
        simp only [scanMeasure] at hm1 c ⊢
        omega
      | some q =>
        rw [hmem] at h
        simp only at h
        have hb := memchr_bounds _ _ _ _ _ hmem
        have hq : rs1.next_in ≤ q := le_trans (hn1 hp) hb.1
        rcases header_cases rs1 q with ⟨rs2, h2⟩ | ⟨rs2, p2, h2, hp2, hm2, hn2, ha2, hd2, hf2⟩
        · rw [h2] at h
          simp only [Option.some.injEq, Prod.mk.injEq] at h
          refine ⟨Or.inr h.1.symm, fun h0 => ?_⟩
          omega
        · rw [h2] at h
          simp only at h
          have hn2' := hn2 hq
          have ha2' := ha2 hq (ha1 hav)
          split at h
          · simp only [Option.some.injEq, Prod.mk.injEq] at h
            obtain ⟨hr, hs⟩ := h
            subst hs
            refine ⟨Or.inl hr.symm, fun _ => ?_⟩
            simp only [scanMeasure, zsend, GZ_HDR_LEN] at *
            refine ⟨by omega, by omega, by omega, hd2.trans hd1, hf2.trans hf1⟩
          · obtain ⟨hr, hs⟩ := ih rs2 (p2 + 1) r rs' (by omega) ha2' h
            refine ⟨hr, fun h0 => ?_⟩
            obtain ⟨a, b, c, d, e⟩ := hs h0
            refine ⟨a, b, ?_, d.trans (hd2.trans hd1), e.trans (hf2.trans hf1)⟩
            simp only [scanMeasure] at hm1 hm2 c ⊢
            omega

/-! ## Running the scanner on a described window -/

/-- More fuel does not change what the loop of `gzfind` returns. -/
theorem gzfindLoop_mono (flags : Nat) (now : Int) :
    ∀ (f : Nat) (rs : rstate) (p : Nat) (r : Nat × rstate),
      gzfindLoop flags now f rs p = some r →
      ∀ f', f ≤ f' → gzfindLoop flags now f' rs p = some r := by
  intro f
  induction f with
  | zero => intro rs p r h; simp [gzfindLoop] at h
  | succ f ih =>
    intro rs p r h f' hf
    cases f' with
    | zero => omega
    | succ f' =>
      have hf' : f ≤ f' := by omega
      rw [gzfindLoop_succ] at h ⊢
      cases h1 : gzfindFill rs p with
      | error e => rw [h1] at h; exact h
      | ok v =>
        obtain ⟨rs1, p1⟩ := v
        rw [h1] at h
        simp only at h ⊢
        cases hm : memchr rs1.buf p1 0x1f (zsend rs1 - p1) with
        | none =>
          rw [hm] at h
          exact ih _ _ _ h _ hf'
        | some q =>
          rw [hm] at h
          simp only at h ⊢
          cases h2 : gzfindHeader rs1 q with
          | error e => rw [h2] at h; exact h
          | ok v2 =>
            obtain ⟨rs2, p2⟩ := v2
            rw [h2] at h
            simp only at h ⊢
            split
            · rename_i hc; rw [if_pos hc] at h; exact h
            · rename_i hc; rw [if_neg hc] at h; exact ih _ _ _ h _ hf'

theorem bufStore_zero (buf bytes : List Nat) :
    bufStore buf 0 bytes = bytes ++ buf.drop bytes.length := by
  simp [bufStore]

theorem Holds.zsend {rs : rstate} {W R : List Nat} {P : Nat} (h : Holds rs W R P) :
    zsend rs = W.length := by
  obtain ⟨h1, h2, -⟩ := h
  simp [Gzdetect.zsend, h1, h2]

theorem Holds.le_buf {rs : rstate} {W R : List Nat} {P : Nat} (h : Holds rs W R P) :
    W.length ≤ rs.buf.length := by
  obtain ⟨-, -, h3, -⟩ := h
  have := congrArg List.length h3
  simp [List.length_take] at this
  omega

theorem Holds.window {rs : rstate} {W R : List Nat} {P : Nat} (h : Holds rs W R P) :
    window rs = W := by
  obtain ⟨h1, h2, h3, -⟩ := h
  simp [Gzdetect.window, h1, h2, h3]

/-- After `rsread(rs, NULL)` on a file that does not fail, the window holds
the next `BUFSIZE` bytes of the input. -/
theorem holds_refilled (rs : rstate) (R : List Nat) (P : Nat) (hf : rs.fd.failing = false)
    (hR : rs.fd.rest = R) (hP : rs.fd.pos = P) (hs : rs.fd.short = []) :
    Holds (refilled rs) (R.take BUFSIZE) (R.drop BUFSIZE) (P + min BUFSIZE R.length) := by
  subst hR hP
  have hn := next_nil rs.fd BUFSIZE hs
  refine ⟨rfl, ?_, ?_, ?_, ?_, ?_, ?_⟩
  · simp [refilled, hn]
  · simp [refilled, bufStore_zero, hn]
  · simp [refilled, advance_failing, hf]
  · simp [refilled, advance_rest_nil _ _ hs]
  · simp [refilled, advance_pos_nil _ _ hs]
  · exact advance_short_nil _ _ hs

/-- What `rsread(rs, buf + q)` keeps: after it the window holds the first
`W.length - q` bytes of the old window (the bytes that were at `next_in`),
followed by the bytes newly read. -/
theorem holds_refilledFrom (rs : rstate) (W R : List Nat) (P q : Nat) (h : Holds rs W R P) :
    Holds (refilledFrom rs q)
      (W.take (W.length - q) ++ R.take (BUFSIZE - (W.length - q)))
      (R.drop (BUFSIZE - (W.length - q)))
      (P + min (BUFSIZE - (W.length - q)) R.length) := by
  have hz := h.zsend
  have hle := h.le_buf
  obtain ⟨h1, h2, h3, h4, h5, h6, hs⟩ := h
  have hn := next_nil rs.fd (BUFSIZE - (W.length - q)) hs
  rw [h5] at hn
  have hk : W.length - q ≤ rs.buf.length := by omega
  have hmove : (if zsend rs - q ≠ 0 then memmove rs.buf rs.next_in (zsend rs - q) else rs.buf)
      = rs.buf := by
    split
    · simp [memmove, h1, bufStore_zero, List.length_take, Nat.min_eq_left (hz ▸ hk)]
    · rfl
  have htk : (W.take (W.length - q)).length = W.length - q := by
    simp [List.length_take]
  have hWk : rs.buf.take (W.length - q) = W.take (W.length - q) := by
    rw [← h3, List.take_take]
    simp
  have hbuf : (refilledFrom rs q).buf =
      (W.take (W.length - q) ++ R.take (BUFSIZE - (W.length - q))) ++
        rs.buf.drop (W.length - q + (R.take (BUFSIZE - (W.length - q))).length) := by
    unfold refilledFrom
    simp only [hmove]
    simp only [bufStore, hz, hn, hWk]
  refine ⟨rfl, ?_, ?_, ?_, ?_, ?_, ?_⟩
  · simp only [refilledFrom, hz, hn, List.length_append, htk]
  · rw [hbuf, List.take_left]
  · simp [refilledFrom, advance_failing, h4]
  · simp [refilledFrom, advance_rest_nil _ _ hs, hz, h5]
  · simp [refilledFrom, advance_pos_nil _ _ hs, hz, h5, h6]
  · exact advance_short_nil _ _ hs

theorem holds_memchr (rs : rstate) (W R : List Nat) (P p c : Nat) (h : Holds rs W R P) :
    memchr rs.buf p c (zsend rs - p) = (firstIdx c (W.drop p)).map (p + ·) := by
  have hz := h.zsend
  obtain ⟨-, -, h3, -⟩ := h
  unfold memchr
  rw [hz, ← List.drop_take, h3]

/-- The verdict of `gzcheck` depends on the first ten bytes only. -/
theorem gzcheck_take (l : List Nat) (flags : Nat) (now : Int) :
    gzcheck l flags now = gzcheck (l.take 10) flags now := by
  have hb : ∀ i, i < 10 → byteAt (l.take 10) i = byteAt l i := by
    intro i hi
    simp only [byteAt, List.getD_eq_getElem?_getD, List.getElem?_take, hi, if_true]
  unfold gzcheck mtimeOf
  simp only [hb 1 (by omega), hb 2 (by omega), hb 3 (by omega), hb 4 (by omega), hb 5 (by omega),
    hb 6 (by omega), hb 7 (by omega), hb 8 (by omega), hb 9 (by omega)]

theorem holds_gzcheck (rs : rstate) (W R : List Nat) (P p flags : Nat) (now : Int)
    (h : Holds rs W R P) (hp : p + 10 ≤ W.length) :
    gzcheck (rs.buf.drop p) flags now = gzcheck ((W.drop p).take 10) flags now := by
  obtain ⟨-, -, h3, -⟩ := h
  rw [gzcheck_take, ← h3, List.drop_take]
  congr 1
  rw [List.take_take, Nat.min_eq_left (by omega)]

theorem firstIdx_append (c : Nat) (A B : List Nat) (h : ∀ b ∈ A, b ≠ c) :
    firstIdx c (A ++ B) = (firstIdx c B).map (A.length + ·) := by
  induction A with
  | nil => simp
  | cons a A ih =>
    have ha : a ≠ c := h a (List.mem_cons_self _ _)
    have hA : ∀ b ∈ A, b ≠ c := fun b hb => h b (List.mem_cons_of_mem _ hb)
    simp only [List.cons_append, firstIdx, ha, if_false]
    have ih' := ih hA
    simp only [HAppend.hAppend, Append.append] at ih'
    rw [ih']
    cases firstIdx c B with
    | none => rfl
    | some i =>
      simp only [Option.map_some', List.length_cons, Option.some.injEq]
      omega

/-! ## One iteration of the scanner, by cases -/

/-- An empty window at the end of the input: `gzfind` returns 1. -/
theorem scan_eof (flags : Nat) (now : Int) (f : Nat) (rs : rstate) (p : Nat)
    (hf : rs.fd.failing = false) (hR : rs.fd.rest = []) (hp : zsend rs ≤ p) :
    gzfindLoop flags now (f + 1) rs p = some (1, refilled rs) := by
  rw [gzfindLoop_succ, fill_eof rs p hp hf hR]

/-- An empty window with input left: the iteration goes on as from the start
of the refilled window. -/
theorem scan_fill (flags : Nat) (now : Int) (f : Nat) (rs : rstate) (p : Nat)
    (hf : rs.fd.failing = false) (hR : rs.fd.rest ≠ []) (hp : zsend rs ≤ p) :
    gzfindLoop flags now (f + 1) rs p = gzfindLoop flags now (f + 1) (refilled rs) 0 := by
  have h0 : 0 < zsend (refilled rs) := by
    rw [refilled_zsend]
    have := List.length_pos.mpr hR
    have := cap_pos rs.fd BUFSIZE (by decide)
    omega
  rw [gzfindLoop_succ, gzfindLoop_succ, fill_ge rs p hp hf hR, fill_lt _ 0 h0]

/-- No `0x1f` from the scan pointer to the end of the window: the pointer
moves to the end of the window. -/
theorem scan_none (flags : Nat) (now : Int) (f : Nat) (rs : rstate) (W R : List Nat) (P p : Nat)
    (h : Holds rs W R P) (hp : p < W.length) (hm : firstIdx 0x1f (W.drop p) = none) :
    gzfindLoop flags now (f + 1) rs p = gzfindLoop flags now f rs W.length := by
  have hz := h.zsend
  rw [gzfindLoop_succ, fill_lt rs p (by omega)]
  simp only
  rw [holds_memchr rs W R P p 0x1f h, hm]
  simp only [Option.map_none', hz]

/-- A `0x1f` with ten bytes at it inside the window: `gzcheck` decides, and a
rejection moves the pointer one byte past it. -/
theorem scan_hit (flags : Nat) (now : Int) (f : Nat) (rs : rstate) (W R : List Nat)
    (P p i : Nat) (h : Holds rs W R P) (hp : p < W.length)
    (hm : firstIdx 0x1f (W.drop p) = some i) (hfit : p + i + 10 ≤ W.length) :
    gzfindLoop flags now (f + 1) rs p =
      if gzcheck ((W.drop (p + i)).take 10) flags now = 0 then
        some (0, { rs with avail_in := W.length - (p + i), next_in := p + i })
      else gzfindLoop flags now f rs (p + i + 1) := by
  have hz := h.zsend
  rw [gzfindLoop_succ, fill_lt rs p (by omega)]
  simp only
  rw [holds_memchr rs W R P p 0x1f h, hm]
  simp only [Option.map_some']
  rw [header_fit rs (p + i) (by rw [hz]; simpa [GZ_HDR_LEN] using hfit)]
  simp only
  rw [holds_gzcheck rs W R P (p + i) flags now h hfit]
  have h1 := h.1
  have h2 := h.2.1
  simp only [h1, h2, Nat.sub_zero]

/-- A `0x1f` with fewer than ten bytes left in the window: the window is
refilled with the match as keep-from, and `gzcheck` decides on the first ten
bytes of what the refill left. -/
theorem scan_straddle (flags : Nat) (now : Int) (f : Nat) (rs : rstate) (W R : List Nat)
    (P p i : Nat) (h : Holds rs W R P) (hp : p < W.length)
    (hm : firstIdx 0x1f (W.drop p) = some i) (hcut : W.length < p + i + 10)
    (W' : List Nat)
    (hW' : W.take (W.length - (p + i)) ++ R.take (BUFSIZE - (W.length - (p + i))) = W')
    (h10 : 10 ≤ W'.length) :
    Holds (refilledFrom rs (p + i)) W' (R.drop (BUFSIZE - (W.length - (p + i))))
      (P + min (BUFSIZE - (W.length - (p + i))) R.length) ∧
    gzfindLoop flags now (f + 1) rs p =
      if gzcheck (W'.take 10) flags now = 0 then
        some (0, { refilledFrom rs (p + i) with avail_in := W'.length, next_in := 0 })
      else gzfindLoop flags now f (refilledFrom rs (p + i)) 1 := by
  have hz := h.zsend
  have H2 := holds_refilledFrom rs W R P (p + i) h
  rw [hW'] at H2
  refine ⟨H2, ?_⟩
  rw [gzfindLoop_succ, fill_lt rs p (by omega)]
  simp only
  rw [holds_memchr rs W R P p 0x1f h, hm]
  simp only [Option.map_some']
  rw [header_refill rs (p + i) (by rw [hz]; simpa [GZ_HDR_LEN] using hcut) h.2.2.2.1]
  have hav : (refilledFrom rs (p + i)).avail_in = W'.length := H2.2.1
  rw [if_pos (by rw [hav]; simpa [GZ_HDR_LEN] using h10)]
  simp only
  have hg := holds_gzcheck _ W' _ _ 0 flags now H2 (by omega)
  rw [hg, List.drop_zero]
  have hn : (refilledFrom rs (p + i)).next_in = 0 := rfl
  simp only [hn, hav, Nat.sub_zero, Nat.zero_add]

/-! ## The scanner on the concrete inputs -/

theorem take_append_len (A B : List Nat) (n a : Nat) (ha : A.length = a) (h : a ≤ n) :
    (A ++ B).take n = A ++ B.take (n - a) := by
  subst ha
  rw [List.take_append_eq_append_take, List.take_of_length_le h]

theorem drop_append_len (A B : List Nat) (n a : Nat) (ha : A.length = a) (h : a ≤ n) :
    (A ++ B).drop n = B.drop (n - a) := by
  subst ha
  rw [List.drop_append_eq_append_drop, List.drop_of_length_le h, List.nil_append]

theorem no_magic_replicate (k : Nat) : ∀ b ∈ List.replicate k 0, b ≠ 0x1f := by
  intro b hb
  rw [List.eq_of_mem_replicate hb]
  decide

theorem gzfind_of_loop (flags : Nat) (now : Int) (rs : rstate) (f : Nat) (r : Nat × rstate)
    (h : gzfindLoop flags now f rs rs.next_in = some r) (hf : f ≤ gzfindFuel rs) :
    gzfind flags now rs = some r :=
  gzfindLoop_mono flags now f rs rs.next_in r h _ hf

theorem initState_rest (data buf0 : List Nat) : (initState data buf0).fd.rest = data := by
  simp [initState, Source.rest]

theorem initState_fuel (data buf0 : List Nat) :
    gzfindFuel (initState data buf0) = data.length + 1 := by
  simp [gzfindFuel, initState, Source.rest]

theorem headerAt_length (k : Nat) : (headerAt k).length = k + 13 := by
  simp only [headerAt, validHeader, List.length_append, List.length_replicate, List.length_cons,
    List.length_nil]

/-- The first window over `headerAt 4087`. -/
theorem headerAt_4087_first (buf0 : List Nat) :
    Holds (refilled (initState (headerAt 4087) buf0))
      (List.replicate 4087 0 ++ [0x1f, 0x8b, 8, 0, 0, 0, 0, 0, 0]) [3, 1, 2, 3] 4096 := by
  have H := holds_refilled (initState (headerAt 4087) buf0) (headerAt 4087) 0 rfl
    (initState_rest _ _) rfl rfl
  have ht : (headerAt 4087).take BUFSIZE =
      List.replicate 4087 0 ++ [0x1f, 0x8b, 8, 0, 0, 0, 0, 0, 0] := by
    unfold headerAt
    rw [List.append_assoc, take_append_len _ _ BUFSIZE 4087 (List.length_replicate _ _)
      (by decide)]
    rfl
  have hd : (headerAt 4087).drop BUFSIZE = [3, 1, 2, 3] := by
    unfold headerAt
    rw [List.append_assoc, drop_append_len _ _ BUFSIZE 4087 (List.length_replicate _ _)
      (by decide)]
    rfl
  rw [ht, hd, headerAt_length] at H
  exact H

theorem straddle_window_length :
    (List.replicate 4087 0 ++ [0x1f, 0x8b, 8, 0, 0, 0, 0, 0, 0]).length = 4096 := by
  rw [List.length_append, List.length_replicate]
  rfl

/-- The window the straddling refill leaves over `headerAt 4087`: the nine
bytes that were at `next_in`, then the four new bytes. -/
theorem headerAt_4087_second (buf0 : List Nat) :
    Holds (refilledFrom (refilled (initState (headerAt 4087) buf0)) 4087)
      [0, 0, 0, 0, 0, 0, 0, 0, 0, 3, 1, 2, 3] [] 4100 := by
  have H := holds_refilledFrom _ _ _ _ 4087 (headerAt_4087_first buf0)
  rw [straddle_window_length] at H
  have hW : (List.replicate 4087 0 ++ [0x1f, 0x8b, 8, 0, 0, 0, 0, 0, 0]).take (4096 - 4087) =
      [0, 0, 0, 0, 0, 0, 0, 0, 0] := by
    rw [List.take_append_of_le_length (by rw [List.length_replicate]; decide),
      List.take_replicate]
    rfl
  rw [hW] at H
  exact H

/-- The run of `gzfind` on `headerAt 4087`: the refill at the straddling match
leaves nine zero bytes and the four new bytes in the window; `gzcheck` rejects
them, nothing else matches, and the input is at its end. -/
theorem headerAt_4087_run (flags : Nat) (now : Int) (buf0 : List Nat) :
    gzfind flags now (initState (headerAt 4087) buf0) =
      some (1, refilled (refilledFrom (refilled (initState (headerAt 4087) buf0)) 4087)) := by
  have H1 := headerAt_4087_first buf0
  have H2 := headerAt_4087_second buf0
  have hne : (initState (headerAt 4087) buf0).fd.rest ≠ [] := by
    rw [initState_rest]
    intro h
    have := congrArg List.length h
    rw [headerAt_length] at this
    simp at this
  have hm : firstIdx 0x1f ((List.replicate 4087 0 ++ [0x1f, 0x8b, 8, 0, 0, 0, 0, 0, 0]).drop 0)
      = some 4087 := by
    rw [List.drop_zero, firstIdx_append _ _ _ (no_magic_replicate 4087), List.length_replicate]
    rfl
  have s1 := scan_fill flags now 2 (initState (headerAt 4087) buf0) 0 rfl hne (Nat.le_refl _)
  have s2 := (scan_straddle flags now 2 _ _ _ _ 0 4087 H1
    (by rw [straddle_window_length]; decide) hm (by rw [straddle_window_length]; decide)
    [0, 0, 0, 0, 0, 0, 0, 0, 0, 3, 1, 2, 3]
    (by
      rw [straddle_window_length, Nat.zero_add,
        List.take_append_of_le_length (by rw [List.length_replicate]; decide),
        List.take_replicate]
      rfl)
    (by decide)).2
  have hc : gzcheck (List.take 10 [0, 0, 0, 0, 0, 0, 0, 0, 0, 3, 1, 2, 3]) flags now ≠ 0 := by
    simp [gzcheck, byteAt]
  rw [if_neg hc] at s2
  have s3 := scan_none flags now 1 _ _ _ _ 1 H2 (by decide) (by decide)
  have s4 := scan_eof flags now 0 (refilledFrom (refilled (initState (headerAt 4087) buf0)) 4087)
    [0, 0, 0, 0, 0, 0, 0, 0, 0, 3, 1, 2, 3].length H2.2.2.2.1 H2.2.2.2.2.1
    (by rw [H2.zsend])
  apply gzfind_of_loop flags now _ 3
  · exact s1.trans (s2.trans (s3.trans s4))
  · rw [initState_fuel, headerAt_length]
    omega

/-- The first window over `headerAt 4086`. -/
theorem headerAt_4086_first (buf0 : List Nat) :
    Holds (refilled (initState (headerAt 4086) buf0))
      (List.replicate 4086 0 ++ validHeader) [1, 2, 3] 4096 := by
  have H := holds_refilled (initState (headerAt 4086) buf0) (headerAt 4086) 0 rfl
    (initState_rest _ _) rfl rfl
  have ht : (headerAt 4086).take BUFSIZE = List.replicate 4086 0 ++ validHeader := by
    unfold headerAt
    rw [List.append_assoc, take_append_len _ _ BUFSIZE 4086 (List.length_replicate _ _)
      (by decide)]
    rfl
  have hd : (headerAt 4086).drop BUFSIZE = [1, 2, 3] := by
    unfold headerAt
    rw [List.append_assoc, drop_append_len _ _ BUFSIZE 4086 (List.length_replicate _ _)
      (by decide)]
    rfl
  rw [ht, hd, headerAt_length] at H
  exact H

theorem gzcheck_validHeader (flags : Nat) (now : Int) : gzcheck validHeader flags now = 0 := by
  simp [gzcheck, byteAt, validHeader, mtimeOf]

/-- The run of `gzfind` on `headerAt 4086`: the header lies inside the first
window and is accepted there. -/
theorem headerAt_4086_run (flags : Nat) (now : Int) (buf0 : List Nat) :
    gzfind flags now (initState (headerAt 4086) buf0) =
      some (0, { refilled (initState (headerAt 4086) buf0) with
                 avail_in := 10, next_in := 4086 }) := by
  have H1 := headerAt_4086_first buf0
  have hlen : (List.replicate 4086 0 ++ validHeader).length = 4096 := by
    rw [List.length_append, List.length_replicate]
    rfl
  have hne : (initState (headerAt 4086) buf0).fd.rest ≠ [] := by
    rw [initState_rest]
    intro h
    have := congrArg List.length h
    rw [headerAt_length] at this
    simp at this
  have hm : firstIdx 0x1f ((List.replicate 4086 0 ++ validHeader).drop 0) = some 4086 := by
    rw [List.drop_zero, firstIdx_append _ _ _ (no_magic_replicate 4086), List.length_replicate]
    rfl
  have s1 := scan_fill flags now 0 (initState (headerAt 4086) buf0) 0 rfl hne (Nat.le_refl _)
  have s2 := scan_hit flags now 0 _ _ _ _ 0 4086 H1 (by rw [hlen]; decide) hm
    (by rw [hlen])
  have hw : ((List.replicate 4086 0 ++ validHeader).drop (0 + 4086)).take 10 = validHeader := by
    rw [drop_append_len _ _ (0 + 4086) 4086 (List.length_replicate _ _) (by decide)]
    rfl
  rw [hw, if_pos (gzcheck_validHeader flags now), hlen] at s2
  apply gzfind_of_loop flags now _ 1
  · exact s1.trans s2
  · rw [initState_fuel, headerAt_length]
    omega

theorem decoyJunk_length : decoyJunk.length = 4087 := by
  unfold decoyJunk
  rw [List.length_append, List.length_replicate]
  rfl

theorem decoyJunk_no_magic : ∀ b ∈ decoyJunk, b ≠ 0x1f := by
  intro b hb
  unfold decoyJunk at hb
  rcases List.mem_append.mp hb with h | h
  · have small : ∀ c ∈ [0, 0x8b, 8, 0, 0, 0, 0, 0, 0], c ≠ 0x1f := by decide
    exact small b h
  · exact no_magic_replicate _ b h

theorem decoyInput_length : decoyInput.length = 4099 := by
  unfold decoyInput
  rw [List.length_append, decoyJunk_length]
  rfl

/-- The first window over `decoyInput`. -/
theorem decoy_first (buf0 : List Nat) :
    Holds (refilled (initState decoyInput buf0))
      (decoyJunk ++ [0x1f, 0, 0, 0, 0, 0, 0, 0, 0]) [3, 0, 0] 4096 := by
  have H := holds_refilled (initState decoyInput buf0) decoyInput 0 rfl (initState_rest _ _) rfl rfl
  have ht : decoyInput.take BUFSIZE = decoyJunk ++ [0x1f, 0, 0, 0, 0, 0, 0, 0, 0] := by
    unfold decoyInput
    rw [take_append_len _ _ BUFSIZE 4087 decoyJunk_length (by decide)]
    rfl
  have hd : decoyInput.drop BUFSIZE = [3, 0, 0] := by
    unfold decoyInput
    rw [drop_append_len _ _ BUFSIZE 4087 decoyJunk_length (by decide)]
    rfl
  rw [ht, hd, decoyInput_length] at H
  exact H

theorem decoy_window_length : (decoyJunk ++ [0x1f, 0, 0, 0, 0, 0, 0, 0, 0]).length = 4096 := by
  rw [List.length_append, decoyJunk_length]
  rfl

theorem decoy_kept :
    (decoyJunk ++ [0x1f, 0, 0, 0, 0, 0, 0, 0, 0]).take (4096 - (0 + 4087)) =
      [0, 0x8b, 8, 0, 0, 0, 0, 0, 0] := by
  unfold decoyJunk
  rw [List.append_assoc, List.take_append_of_le_length (by decide)]
  rfl

/-- The run of `gzfind` on `decoyInput`: the refill at the straddling `0x1f`
leaves the first nine bytes of the input and the three new bytes in the
window, and `gzcheck` accepts them. -/
theorem decoy_run (flags : Nat) (now : Int) (buf0 : List Nat) :
    Holds (refilledFrom (refilled (initState decoyInput buf0)) 4087)
      [0, 0x8b, 8, 0, 0, 0, 0, 0, 0, 3, 0, 0] [] 4099 ∧
    gzfind flags now (initState decoyInput buf0) =
      some (0, { refilledFrom (refilled (initState decoyInput buf0)) 4087 with
                 avail_in := 12, next_in := 0 }) := by
  have H1 := decoy_first buf0
  have hne : (initState decoyInput buf0).fd.rest ≠ [] := by
    rw [initState_rest]
    intro h
    have := congrArg List.length h
    rw [decoyInput_length] at this
    simp at this
  have hm : firstIdx 0x1f ((decoyJunk ++ [0x1f, 0, 0, 0, 0, 0, 0, 0, 0]).drop 0)
      = some 4087 := by
    rw [List.drop_zero, firstIdx_append _ _ _ decoyJunk_no_magic, decoyJunk_length]
    rfl
  have s1 := scan_fill flags now 0 (initState decoyInput buf0) 0 rfl hne (Nat.le_refl _)
  have s2 := scan_straddle flags now 0 _ _ _ _ 0 4087 H1
    (by rw [decoy_window_length]; decide) hm (by rw [decoy_window_length]; decide)
    [0, 0x8b, 8, 0, 0, 0, 0, 0, 0, 3, 0, 0]
    (by rw [decoy_window_length, decoy_kept]; rfl)
    (by decide)
  have hc : gzcheck (List.take 10 [0, 0x8b, 8, 0, 0, 0, 0, 0, 0, 3, 0, 0]) flags now = 0 := by
    simp [gzcheck, byteAt, mtimeOf]
  have H2 := holds_refilledFrom _ _ _ _ 4087 H1
  rw [decoy_window_length, decoy_kept] at H2
  refine ⟨H2, ?_⟩
  have s3 := s1.trans (s2.2.trans (if_pos hc))
  apply gzfind_of_loop flags now _ 1
  · exact s3
  · rw [initState_fuel, decoyInput_length]
    omega

/-! ## Inputs without the magic byte -/

theorem refilled_window (rs : rstate) :
    ((refilled rs).buf.drop 0).take (zsend (refilled rs) - 0) = rs.fd.next BUFSIZE := by
  have h : zsend (refilled rs) = (rs.fd.next BUFSIZE).length := by simp [zsend, refilled]
  rw [h]
  simp [refilled, bufStore]

/-- With no `0x1f` in the window from the scan pointer on nor in the unread
input, the loop of `gzfind` returns 1. -/
theorem gzfindLoop_no_magic (flags : Nat) (now : Int) :
    ∀ (fuel : Nat) (rs : rstate) (p : Nat), scanMeasure rs p < fuel →
      (∀ b ∈ rs.fd.rest, b ≠ 0x1f) →
      (∀ b ∈ (rs.buf.drop p).take (zsend rs - p), b ≠ 0x1f) →
      ∃ rs', gzfindLoop flags now fuel rs p = some (1, rs') := by
  intro fuel
  induction fuel with
  | zero => intro rs p h; omega
  | succ fuel ih =>
    intro rs p h hrest hwin
    rw [gzfindLoop_succ]
    by_cases hp : p < zsend rs
    · rw [fill_lt rs p hp]
      simp only
      have hm : memchr rs.buf p 0x1f (zsend rs - p) = none := by
        simp [memchr, firstIdx_none _ _ hwin]
      rw [hm]
      simp only
      apply ih
      · simp only [scanMeasure] at h ⊢; omega
      · exact hrest
      · simp
    · have hp1 : zsend rs ≤ p := Nat.not_lt.mp hp
      cases hf : rs.fd.failing with
      | true =>
        obtain ⟨rs1, h1⟩ := fill_failing rs p hp1 hf
        rw [h1]; exact ⟨_, rfl⟩
      | false =>
        by_cases he : rs.fd.rest = []
        · rw [fill_eof rs p hp1 hf he]; exact ⟨_, rfl⟩
        · rw [fill_ge rs p hp1 hf he]
          simp only
          have hw := refilled_window rs
          have hm : memchr (refilled rs).buf 0 0x1f (zsend (refilled rs) - 0) = none := by
            unfold memchr
            rw [hw, firstIdx_none]
            · rfl
            · intro b hb; exact hrest b (List.mem_of_mem_take hb)
          rw [hm]
          simp only
          apply ih
          · have hl := List.length_pos.mpr he
            have h1 : (refilled rs).fd.rest.length = rs.fd.rest.length - rs.fd.cap BUFSIZE := by
              simp [refilled, advance_rest]
            have hc := cap_pos rs.fd BUFSIZE (by decide)
            simp only [scanMeasure, h1] at h ⊢
            omega
          · intro b hb
            have h1 : (refilled rs).fd.rest = rs.fd.rest.drop (rs.fd.cap BUFSIZE) := by
              simp [refilled, advance_rest]
            rw [h1] at hb
            exact hrest b (List.mem_of_mem_drop hb)
          · simp

theorem initState_measure (data buf0 : List Nat) :
    scanMeasure (initState data buf0) (initState data buf0).next_in = data.length := by
  simp [scanMeasure, initState, zsend, Source.rest]

theorem gzfind_no_magic (flags : Nat) (now : Int) (data buf0 : List Nat)
    (h : ∀ b ∈ data, b ≠ 0x1f) :
    ∃ rs', gzfind flags now (initState data buf0) = some (1, rs') := by
  unfold gzfind
  apply gzfindLoop_no_magic
  · rw [initState_measure]
    simp [gzfindFuel, initState, Source.rest]
  · simpa [initState, Source.rest] using h
  · simp [initState, zsend]

/-! ## Facts about the session driver -/

theorem mainExit_one_ne_zero {σ : Type} (D : Decoder σ) (os : OS) (z : z_stream σ) :
    mainExit D os z 1 ≠ 0 := by
  unfold mainExit
  cases os.closeInFails <;> cases z.zalloc <;> simp

/-- From a window within the buffer's size `gzfind` returns, with 0 or 1; on 0
ten bytes are valid, the window is within the buffer's size and the bytes
still to scan are no more than before. -/
theorem gzfind_cases (flags : Nat) (now : Int) (rs : rstate) (hav : rs.avail_in ≤ BUFSIZE) :
    ∃ r rs1, gzfind flags now rs = some (r, rs1) ∧ (r = 0 ∨ r = 1) ∧
      (r = 0 → GZ_HDR_LEN ≤ rs1.avail_in ∧ rs1.avail_in ≤ BUFSIZE ∧
        rs1.fd.rest.length + rs1.avail_in ≤ rs.fd.rest.length + rs.avail_in ∧
        rs1.fd.data = rs.fd.data ∧ rs1.fd.failing = rs.fd.failing) := by
  obtain ⟨⟨r, rs1⟩, h⟩ := gzfindLoop_total flags now (gzfindFuel rs) rs rs.next_in
    (by simp [scanMeasure, gzfindFuel, zsend])
  obtain ⟨h1, h2⟩ := gzfindLoop_post flags now _ rs rs.next_in r rs1 (le_refl _) hav h
  refine ⟨r, rs1, h, h1, fun h0 => ?_⟩
  have := h2 h0
  simpa [scanMeasure, zsend] using this

theorem skipByte_avail (rs : rstate) (h1 : GZ_HDR_LEN ≤ rs.avail_in) (h2 : rs.avail_in ≤ BUFSIZE) :
    (skipByte rs).avail_in = rs.avail_in - 1 := by
  simp only [skipByte, GZ_HDR_LEN, BUFSIZE] at *
  omega

theorem skipByte_fd (rs : rstate) : (skipByte rs).fd = rs.fd := rfl

theorem foundLog_append (k : Nat) (c : rstate) (cs : List rstate) (L : List Event) :
    L ++ foundLog k (c :: cs) = (L ++ [Event.found (k + 1) (streamOff c)]) ++ foundLog (k + 1) cs := by
  simp [foundLog]

/-- In selection mode the loop of `main` walks the candidates: it calls
`gzextract` on the one that raises `found` to `n` if there is one, and
otherwise leaves the loop with `found` the number of candidates. -/
theorem mainLoop_select {σ : Type} (D : Decoder σ) (os : OS) (now : Int) (cf : Nat)
    (name0 : List Nat) (n : Nat) (outfile : Option (List Nat)) (z : z_stream σ) :
    ∀ (fuel F : Nat) (rs : rstate) (k : Nat) (L : List Event), k < n →
      rs.avail_in ≤ BUFSIZE → rs.fd.rest.length + rs.avail_in < fuel →
      rs.fd.rest.length + rs.avail_in < F →
      mainLoop D os now cf name0 n outfile fuel rs z k L =
        match (candidates now F rs).get? (n - k - 1) with
        | some c => extractBranch D os cf name0 n outfile c z
            (L ++ foundLog k ((candidates now F rs).take (n - k)))
        | none => mainEnd D os n z (k + (candidates now F rs).length)
            (L ++ foundLog k (candidates now F rs)) := by
  intro fuel
  induction fuel with
  | zero => intro F rs k L _ _ h; omega
  | succ fuel ih =>
    intro F rs k L hk hav hfuel hF
    cases F with
    | zero => omega
    | succ F =>
      obtain ⟨r, rs1, hg, hr, hpost⟩ := gzfind_cases GZ_FIND_STRICT now rs hav
      rw [mainLoop, candidates, hg]
      rcases hr with rfl | rfl
      · obtain ⟨h10, hB, hm, -, -⟩ := hpost rfl
        have hsk := skipByte_avail rs1 h10 hB
        simp only [ne_eq, not_true_eq_false, if_false]
        by_cases hnk : n = k + 1
        · subst hnk
          simp [foundLog]
        · rw [if_neg hnk, if_pos (by omega : n ≠ 0)]
          have h1 : n - k - 1 = (n - (k + 1) - 1) + 1 := by omega
          have h2 : n - k = (n - (k + 1)) + 1 := by omega
          rw [h1, h2, List.get?_cons_succ, List.take_succ_cons, foundLog_append, foundLog_append,
            List.length_cons, ← Nat.add_assoc k, Nat.add_right_comm k _ 1]
          simp only [GZ_HDR_LEN] at h10
          exact ih F (skipByte rs1) (k + 1) _ (by omega) (by rw [hsk]; omega)
            (by rw [hsk, skipByte_fd]; omega) (by rw [hsk, skipByte_fd]; omega)
      · simp [foundLog]

theorem foundLog_countP_extract (k : Nat) (cs : List rstate) :
    (foundLog k cs).countP Event.isExtractCall = 0 := by
  induction cs generalizing k with
  | nil => rfl
  | cons c cs ih => simp [foundLog, Event.isExtractCall, ih]

theorem foundLog_countP_opens (k : Nat) (cs : List rstate) :
    (foundLog k cs).countP Event.opensOutput = 0 := by
  induction cs generalizing k with
  | nil => rfl
  | cons c cs ih => simp [foundLog, Event.opensOutput, ih]

/-- The log of the branch that calls `gzextract`: what was logged before, the
call, and at most the return of that call. -/
theorem extractBranch_log {σ : Type} (D : Decoder σ) (os : OS) (cf : Nat) (name0 : List Nat)
    (n : Nat) (hn : n ≠ 0) (outfile : Option (List Nat)) (rs : rstate) (z : z_stream σ)
    (L : List Event) :
    ∃ tail, (extractBranch D os cf name0 n outfile rs z L).log =
        L ++ Event.gzextractCall (streamOff rs) :: tail ∧
      (∀ e ∈ tail, ∃ r o w, e = Event.gzextractDone r o w) := by
  unfold extractBranch
  cases hg : gzextract D os cf name0 outfile rs z with
  | none => exact ⟨[], by simp, by simp⟩
  | some e =>
    refine ⟨[Event.gzextractDone e.ret e.opened e.written], ?_, ?_⟩
    · simp only
      split
      · simp
      · simp [mainEnd, hn]
    · intro e' he'
      simp at he'
      exact ⟨_, _, _, he'⟩

/-- The list of candidates does not depend on the fuel, once there is enough. -/
theorem candidates_fuel (now : Int) :
    ∀ (F F' : Nat) (rs : rstate), rs.avail_in ≤ BUFSIZE →
      rs.fd.rest.length + rs.avail_in < F → rs.fd.rest.length + rs.avail_in < F' →
      candidates now F rs = candidates now F' rs := by
  intro F
  induction F with
  | zero => intro F' rs _ h; omega
  | succ F ih =>
    intro F' rs hav hF hF'
    cases F' with
    | zero => omega
    | succ F' =>
      obtain ⟨r, rs1, hg, hr, hpost⟩ := gzfind_cases GZ_FIND_STRICT now rs hav
      rw [candidates, candidates, hg]
      rcases hr with rfl | rfl
      · obtain ⟨h10, hB, hm, -, -⟩ := hpost rfl
        have hsk := skipByte_avail rs1 h10 hB
        simp only [GZ_HDR_LEN] at h10
        simp only
        rw [ih F' (skipByte rs1) (by rw [hsk]; omega) (by rw [hsk, skipByte_fd]; omega)
          (by rw [hsk, skipByte_fd]; omega)]
      · rfl

theorem mainEnd_log_extends {σ : Type} (D : Decoder σ) (os : OS) (idx : Nat) (z : z_stream σ)
    (found : Nat) (L : List Event) :
    ∃ T, (mainEnd D os idx z found L).log = L ++ T ∧ listCallOffsets T = [] ∧
      listedOffsets T = [] ∧ extractOffset T = none := by
  unfold mainEnd
  split
  · exact ⟨[Event.noData], rfl, rfl, rfl, rfl⟩
  · split
    · exact ⟨[Event.lessThan idx], rfl, rfl, rfl, rfl⟩
    · exact ⟨[], by simp, rfl, rfl, rfl⟩

/-- Whatever `main` logged before an iteration of its loop stays at the front
of the log. -/
theorem mainLoop_log_extends {σ : Type} (D : Decoder σ) (os : OS) (now : Int) (cf : Nat)
    (name0 : List Nat) (idx : Nat) (outfile : Option (List Nat)) :
    ∀ (fuel : Nat) (rs : rstate) (z : z_stream σ) (k : Nat) (L : List Event),
      ∃ T, (mainLoop D os now cf name0 idx outfile fuel rs z k L).log = L ++ T := by
  intro fuel
  induction fuel with
  | zero => intro rs z k L; exact ⟨[], by simp [mainLoop]⟩
  | succ fuel ih =>
    intro rs z k L
    rw [mainLoop]
    cases hg : gzfind GZ_FIND_STRICT now rs with
    | none => exact ⟨[], by simp⟩
    | some v =>
      obtain ⟨r, rs1⟩ := v
      simp only
      split
      · obtain ⟨T, hT, -⟩ := mainEnd_log_extends D os idx z k L
        exact ⟨T, hT⟩
      · split
        · unfold extractBranch
          cases gzextract D os cf name0 outfile rs1 z with
          | none => exact ⟨_, by simp only [List.append_assoc]; rfl⟩
          | some e =>
            simp only
            split
            · exact ⟨_, by simp only [List.append_assoc]; rfl⟩
            · obtain ⟨T, hT, -⟩ := mainEnd_log_extends D os idx e.z idx
                (L ++ [Event.found (k + 1) (streamOff rs1)] ++
                  [Event.gzextractCall (streamOff rs1)] ++
                  [Event.gzextractDone e.ret e.opened e.written])
              exact ⟨_, by rw [hT]; simp only [List.append_assoc]; rfl⟩
        · split
          · obtain ⟨T, hT⟩ := ih (skipByte rs1) z (k + 1)
              (L ++ [Event.found (k + 1) (streamOff rs1)])
            exact ⟨_, by rw [hT]; simp only [List.append_assoc]; rfl⟩
          · cases gzlist D os cf name0 (k + 1) rs1 z with
            | none => exact ⟨_, by simp only [List.append_assoc]; rfl⟩
            | some l =>
              simp only
              split
              · exact ⟨_, by simp only [List.append_assoc]; rfl⟩
              · obtain ⟨T, hT⟩ := ih l.rs l.z (k + 1)
                  (L ++ [Event.found (k + 1) (streamOff rs1)] ++
                    [Event.gzlistCall (k + 1) (streamOff rs1)] ++
                    [Event.gzlistDone l.ret l.line])
                exact ⟨_, by rw [hT]; simp only [List.append_assoc]; rfl⟩

/-- The line `gzlist` prints carries the ordinal it was given and the stream
offset of the consumption boundary at the call. -/
theorem gzlist_line {σ : Type} (D : Decoder σ) (os : OS) (fuel : Nat) (name0 : List Nat)
    (idx : Nat) (rs : rstate) (z : z_stream σ) (l : ListResult σ)
    (h : gzlist D os fuel name0 idx rs z = some l) :
    (l.ret = 0 → ∃ i, gzinit D fuel rs z name0 NAMELEN = some i ∧ i.ret = 0 ∧ l.rs = i.rs ∧
      l.z = i.z ∧ l.line = some (idx, streamOff rs, cstr i.name)) ∧
    (l.ret ≠ 0 → l.line = none) := by
  unfold gzlist at h
  split at h
  · cases h; simp
  · cases hi : gzinit D fuel rs z name0 NAMELEN with
    | none => simp [hi] at h
    | some i =>
      rw [hi] at h
      simp only at h
      split at h
      · cases h; simp
      · rename_i hr
        cases h
        simp only [ne_eq, not_not] at hr
        exact ⟨fun _ => ⟨i, rfl, hr, rfl, rfl, rfl⟩, fun h => absurd rfl h⟩

/-! ## The properties of the specification -/

theorem mtimeOf_cons (p0 p1 p2 p3 p4 p5 p6 p7 : Nat) (r : List Nat) :
    mtimeOf (p0 :: p1 :: p2 :: p3 :: p4 :: p5 :: p6 :: p7 :: r) = (le32 p4 p5 p6 p7 : Nat) := by
  simp only [mtimeOf, byteAt, le32, List.getD_cons_succ, List.getD_cons_zero, Nat.shiftLeft_eq]
  congr 1; omega

/-- C1, evaluated where the code fails it. The input is 4087 bytes without
`0x1f`, then a header `gzcheck` accepts in strict mode, then three bytes, so
that the header straddles the window boundary: whatever the buffer held and
whatever the time, the first `gzfind` call from the initial empty window
returns 1 (failure) instead of success at offset 4087. One byte earlier, at
offset 4086, the same member is found, with the window holding its bytes. -/
theorem gzfind_misses_straddling_header (now : Int) (buf0 : List Nat) :
    headerAt 4087 = List.replicate 4087 0 ++ validHeader ++ [1, 2, 3] ∧
    (∀ b ∈ List.replicate 4087 0, b ≠ 0x1f) ∧
    gzcheck validHeader GZ_FIND_STRICT now = 0 ∧
    (4087 ≤ 4087 % 4096 ∧ 4087 % 4096 ≤ 4095) ∧
    (∃ rs, gzfind GZ_FIND_STRICT now (initState (headerAt 4087) buf0) = some (1, rs)) ∧
    (∃ rs, gzfind GZ_FIND_STRICT now (initState (headerAt 4086) buf0) = some (0, rs) ∧
      streamOff rs = 4086 ∧ window rs = validHeader) := by
  refine ⟨rfl, no_magic_replicate 4087, gzcheck_validHeader _ _, by decide,
    ⟨_, headerAt_4087_run _ _ _⟩, ⟨_, headerAt_4086_run _ _ _, ?_, ?_⟩⟩
  · have H := headerAt_4086_first buf0
    simp only [streamOff, H.2.2.2.2.2]
    rfl
  · have H := headerAt_4086_first buf0
    have hlen : (List.replicate 4086 0 ++ validHeader).length = 4096 := by
      rw [List.length_append, List.length_replicate]
      rfl
    have h3 := H.2.2.1
    rw [hlen] at h3
    show ((refilled (initState (headerAt 4086) buf0)).buf.drop 4086).take 10 = validHeader
    have h4 : ((refilled (initState (headerAt 4086) buf0)).buf.take 4096).drop 4086 =
        validHeader := by
      rw [h3, drop_append_len _ _ 4086 4086 (List.length_replicate _ _) (Nat.le_refl _)]
      rfl
    rw [List.drop_take] at h4
    exact h4

/-- C2, evaluated where the code fails it. After the first refill over the
input `headerAt 4087` the window holds the first 4096 bytes, the last nine of
them the start of the header. The call `rsread(rs, buf + 4087)` that `gzfind`
makes then succeeds, but the valid range it leaves is the nine bytes that were
at `next_in` followed by the four new bytes, not the nine bytes that were at
the keep-from position followed by them. -/
theorem rsread_keeps_wrong_bytes (buf0 : List Nat) :
    (rsread (initState (headerAt 4087) buf0) none).1 = 0 ∧
    (rsread (initState (headerAt 4087) buf0) none).2.next_in = 0 ∧
    (rsread (initState (headerAt 4087) buf0) none).2.avail_in = 4096 ∧
    (window (rsread (initState (headerAt 4087) buf0) none).2).drop 4087 =
      [0x1f, 0x8b, 8, 0, 0, 0, 0, 0, 0] ∧
    (rsread (rsread (initState (headerAt 4087) buf0) none).2 (some 4087)).1 = 0 ∧
    window (rsread (rsread (initState (headerAt 4087) buf0) none).2 (some 4087)).2 =
      [0, 0, 0, 0, 0, 0, 0, 0, 0] ++ [3, 1, 2, 3] ∧
    window (rsread (rsread (initState (headerAt 4087) buf0) none).2 (some 4087)).2 ≠
      [0x1f, 0x8b, 8, 0, 0, 0, 0, 0, 0] ++ [3, 1, 2, 3] := by
  have H1 := headerAt_4087_first buf0
  have H2 := headerAt_4087_second buf0
  have e1 : rsread (initState (headerAt 4087) buf0) none =
      (0, refilled (initState (headerAt 4087) buf0)) := rsread_none_ok _ rfl
  have e2 : rsread (refilled (initState (headerAt 4087) buf0)) (some 4087) =
      (0, refilledFrom (refilled (initState (headerAt 4087) buf0)) 4087) :=
    rsread_some_ok _ _ H1.2.2.2.1
  rw [e1]
  simp only
  rw [e2]
  simp only
  rw [H1.window, H2.window]
  refine ⟨trivial, rfl, ?_, ?_, trivial, rfl, by decide⟩
  · rw [H1.2.1, straddle_window_length]
  · rw [drop_append_len _ _ 4087 4087 (List.length_replicate _ _) (Nat.le_refl _)]
    rfl

/-- C3, evaluated where the code fails it. On `decoyInput` the first `gzfind`
call returns 0 with 4099 bytes read and `avail_in = 12`, so that `gzlist`
reports offset 4087; but the window's valid bytes are the first nine bytes of
the input followed by its last three, not the input bytes at offsets
[4087, 4099): the window does not start with `0x1f`, and the ten input bytes
at offset 4087 do not pass `gzcheck`. -/
theorem gzfind_reports_false_offset (now : Int) (buf0 : List Nat) :
    ∃ rs, gzfind GZ_FIND_STRICT now (initState decoyInput buf0) = some (0, rs) ∧
      rs.fd.pos = 4099 ∧ rs.avail_in = 12 ∧ streamOff rs = 4087 ∧
      window rs = [0, 0x8b, 8, 0, 0, 0, 0, 0, 0, 3, 0, 0] ∧
      (decoyInput.drop 4087).take 12 = [0x1f, 0, 0, 0, 0, 0, 0, 0, 0, 3, 0, 0] ∧
      window rs ≠ (decoyInput.drop 4087).take 12 ∧
      byteAt (window rs) 0 ≠ 0x1f ∧
      gzcheck (decoyInput.drop 4087) GZ_FIND_STRICT now = 1 := by
  obtain ⟨H2, hrun⟩ := decoy_run GZ_FIND_STRICT now buf0
  have hd : decoyInput.drop 4087 = [0x1f, 0, 0, 0, 0, 0, 0, 0, 0] ++ [3, 0, 0] := by
    unfold decoyInput
    rw [drop_append_len _ _ 4087 4087 decoyJunk_length (Nat.le_refl _)]
    rfl
  have hw : window ({ refilledFrom (refilled (initState decoyInput buf0)) 4087 with
      avail_in := 12, next_in := 0 } : rstate) = [0, 0x8b, 8, 0, 0, 0, 0, 0, 0, 3, 0, 0] := by
    have h3 := H2.2.2.1
    simpa [window] using h3
  refine ⟨_, hrun, H2.2.2.2.2.2.1, rfl, ?_, hw, ?_, ?_, ?_, ?_⟩
  · simp only [streamOff, H2.2.2.2.2.2.1]
    rfl
  · rw [hd]; rfl
  · rw [hw, hd]; decide
  · rw [hw]; decide
  · rw [hd]; simp [gzcheck, byteAt]

/-- C4. In strict mode `gzcheck` accepts ten bytes exactly when `p[1] = 0x8b`,
`p[2] = 0x08`, the top three bits of `p[3]` are zero, `p[8]` is 0, 2 or 4,
`p[9]` is at most 13 or is 255, and the little-endian value of `p[4..7]` is 0
or lies between `AD_1990 = 631170000` and `now + APPROX_YEAR = now + 31556926`.
So it rejects a non-zero time before 1990, a (non-zero) time later than
`now + APPROX_YEAR`, and the OS byte 200; and `p[0]` plays no part. -/
theorem gzcheck_strict_iff (p0 p1 p2 p3 p4 p5 p6 p7 p8 p9 : Nat) (now : Int) :
    (gzcheck [p0, p1, p2, p3, p4, p5, p6, p7, p8, p9] GZ_FIND_STRICT now = 0 ↔
      (p1 = 0x8b ∧ p2 = 0x08 ∧ p3 &&& 0xe0 = 0 ∧ (p8 = 0 ∨ p8 = 2 ∨ p8 = 4) ∧
        (p9 ≤ 13 ∨ p9 = 255) ∧
        (le32 p4 p5 p6 p7 = 0 ∨
          ((631170000 : Int) ≤ le32 p4 p5 p6 p7 ∧
            (le32 p4 p5 p6 p7 : Int) ≤ now + 31556926)))) ∧
    (le32 p4 p5 p6 p7 ≠ 0 ∧ (le32 p4 p5 p6 p7 : Int) < unix1990 →
      gzcheck [p0, p1, p2, p3, p4, p5, p6, p7, p8, p9] GZ_FIND_STRICT now = 1) ∧
    (le32 p4 p5 p6 p7 ≠ 0 ∧ now + 31556926 < (le32 p4 p5 p6 p7 : Int) →
      gzcheck [p0, p1, p2, p3, p4, p5, p6, p7, p8, p9] GZ_FIND_STRICT now = 1) ∧
    (p9 = 200 → gzcheck [p0, p1, p2, p3, p4, p5, p6, p7, p8, p9] GZ_FIND_STRICT now = 1) ∧
    (∀ q0 : Nat, gzcheck [q0, p1, p2, p3, p4, p5, p6, p7, p8, p9] GZ_FIND_STRICT now =
      gzcheck [p0, p1, p2, p3, p4, p5, p6, p7, p8, p9] GZ_FIND_STRICT now) ∧
    AD_1990 = 631170000 ∧ APPROX_YEAR = 31556926 := by
  refine ⟨?_, ?_, ?_, ?_, ?_, rfl, rfl⟩
  · unfold gzcheck
    rw [mtimeOf_cons]
    simp only [byteAt, List.getD_cons_succ, List.getD_cons_zero, GZ_FIND_STRICT, AD_1990,
      APPROX_YEAR]
    split_ifs <;> simp_all <;> omega
  · unfold gzcheck
    rw [mtimeOf_cons]
    simp only [byteAt, List.getD_cons_succ, List.getD_cons_zero, GZ_FIND_STRICT, AD_1990,
      APPROX_YEAR, unix1990]
    intro h
    split_ifs <;> simp_all
    omega
  · unfold gzcheck
    rw [mtimeOf_cons]
    simp only [byteAt, List.getD_cons_succ, List.getD_cons_zero, GZ_FIND_STRICT, AD_1990,
      APPROX_YEAR]
    intro h
    split_ifs <;> simp_all
  · unfold gzcheck
    simp only [byteAt, List.getD_cons_succ, List.getD_cons_zero, GZ_FIND_STRICT]
    intro h
    split_ifs <;> simp_all
  · intro q0
    unfold gzcheck
    rw [mtimeOf_cons, mtimeOf_cons]
    simp only [byteAt, List.getD_cons_succ, List.getD_cons_zero]

/-- C5. In lenient mode `gzcheck` accepts ten bytes exactly when `p[1] = 0x8b`,
`p[2] = 0x08`, the top three bits of `p[3]` are zero and `p[8]` is 0, 2 or 4;
its verdict does not change with `p[4..7]`, `p[9]` (nor `p[0]`) or the current
time; and what strict mode accepts lenient mode accepts. -/
theorem gzcheck_lenient_iff (p0 p1 p2 p3 p4 p5 p6 p7 p8 p9 : Nat) (now : Int) :
    (gzcheck [p0, p1, p2, p3, p4, p5, p6, p7, p8, p9] 0 now = 0 ↔
      (p1 = 0x8b ∧ p2 = 0x08 ∧ p3 &&& 0xe0 = 0 ∧ (p8 = 0 ∨ p8 = 2 ∨ p8 = 4))) ∧
    (∀ (q0 q4 q5 q6 q7 q9 : Nat) (now' : Int),
      gzcheck [q0, p1, p2, p3, q4, q5, q6, q7, p8, q9] 0 now' =
        gzcheck [p0, p1, p2, p3, p4, p5, p6, p7, p8, p9] 0 now) ∧
    (gzcheck [p0, p1, p2, p3, p4, p5, p6, p7, p8, p9] GZ_FIND_STRICT now = 0 →
      gzcheck [p0, p1, p2, p3, p4, p5, p6, p7, p8, p9] 0 now = 0) := by
  refine ⟨?_, ?_, ?_⟩
  · unfold gzcheck
    simp only [byteAt, List.getD_cons_succ, List.getD_cons_zero, GZ_FIND_STRICT]
    split_ifs <;> simp_all <;> omega
  · intro q0 q4 q5 q6 q7 q9 now'
    unfold gzcheck
    simp only [byteAt, List.getD_cons_succ, List.getD_cons_zero, GZ_FIND_STRICT]
    simp
  · unfold gzcheck
    simp only [byteAt, List.getD_cons_succ, List.getD_cons_zero, GZ_FIND_STRICT]
    split_ifs <;> simp_all

/-- C6. On an input without the byte `0x1f`, of any length, the first `gzfind`
call returns 1; so `main`, in listing mode or with any ordinal, with any
decompression engine and file system, does nothing but print "No gzip data
found." and exits with a non-zero status: `found` stays 0, and neither
`gzlist` nor `gzextract` is called. -/
theorem no_magic_no_data {σ : Type} (D : Decoder σ) (os : OS) (now : Int) (fuel idx : Nat)
    (outfile : Option (List Nat)) (data buf0 name0 : List Nat) (s0 : σ)
    (hfuel : 0 < fuel) (h : ∀ b ∈ data, b ≠ 0x1f) :
    (∃ rs, gzfind GZ_FIND_STRICT now (initState data buf0) = some (1, rs)) ∧
    ∃ e, e ≠ 0 ∧ main D os now fuel idx outfile data buf0 name0 s0 =
      { log := [Event.noData], exit := some e } := by
  obtain ⟨rs, hrs⟩ := gzfind_no_magic GZ_FIND_STRICT now data buf0 h
  refine ⟨⟨rs, hrs⟩, mainExit D os { state := s0, zalloc := false, zfree := false } 1,
    mainExit_one_ne_zero _ _ _, ?_⟩
  cases fuel with
  | zero => omega
  | succ f => simp [main, mainLoop, hrs, mainEnd]

/-- C6 at a concrete input: three bytes, none of them `0x1f`, in listing mode. -/
theorem no_magic_no_data_witness :
    (∃ rs, gzfind GZ_FIND_STRICT 1600000000 (initState [1, 2, 3] zeroBuf) = some (1, rs)) ∧
    ∃ e, e ≠ 0 ∧ main headerDecoder plainOS 1600000000 1 0 none [1, 2, 3] zeroBuf zeroName [] =
      { log := [Event.noData], exit := some e } :=
  no_magic_no_data headerDecoder plainOS 1600000000 1 0 none [1, 2, 3] zeroBuf zeroName []
    (by decide) (by decide)

/-- C7. With a requested ordinal `n >= 1`, and `cs` the candidates the scanner
accepts when each is followed by the one-byte skip: `main` calls `gzextract`
if and only if there are at least `n` candidates, then exactly once, on the
`n`-th candidate and with `found` events for the first `n` only before the
call and none after it (scanning stops); with `1 <= m < n` candidates it logs
them and prints "Less than n sections", with none it prints "No gzip data
found.", in both cases exiting non-zero without opening an output file. -/
theorem ordinal_selection {σ : Type} (D : Decoder σ) (os : OS) (now : Int) (fuel n : Nat)
    (outfile : Option (List Nat)) (data buf0 name0 : List Nat) (s0 : σ)
    (hn : 1 ≤ n) (hfuel : data.length < fuel) :
    ((main D os now fuel n outfile data buf0 name0 s0).log.countP Event.isExtractCall =
      if n ≤ (inputCandidates now data buf0).length then 1 else 0) ∧
    (∀ c, (inputCandidates now data buf0).get? (n - 1) = some c →
      main D os now fuel n outfile data buf0 name0 s0 =
        extractBranch D os fuel name0 n outfile c { state := s0, zalloc := false, zfree := false }
          (foundLog 0 ((inputCandidates now data buf0).take n)) ∧
      ∃ tail, (main D os now fuel n outfile data buf0 name0 s0).log =
        foundLog 0 ((inputCandidates now data buf0).take n) ++
          Event.gzextractCall (streamOff c) :: tail ∧
        ∀ e ∈ tail, ∃ r o w, e = Event.gzextractDone r o w) ∧
    ((inputCandidates now data buf0).length < n →
      1 ≤ (inputCandidates now data buf0).length →
      (main D os now fuel n outfile data buf0 name0 s0).log =
        foundLog 0 (inputCandidates now data buf0) ++
          [Event.lessThan n] ∧
      (main D os now fuel n outfile data buf0 name0 s0).log.countP Event.opensOutput = 0 ∧
      ∃ e, e ≠ 0 ∧ (main D os now fuel n outfile data buf0 name0 s0).exit = some e) ∧
    ((inputCandidates now data buf0).length = 0 →
      (main D os now fuel n outfile data buf0 name0 s0).log = [Event.noData] ∧
      ∃ e, e ≠ 0 ∧ (main D os now fuel n outfile data buf0 name0 s0).exit = some e) ∧
    (∀ F, data.length < F →
      candidates now F (initState data buf0) = inputCandidates now data buf0) := by
  unfold inputCandidates
  have hE : ∀ F, data.length < F → candidates now F (initState data buf0) =
      candidates now (data.length + 1) (initState data buf0) :=
    fun F hF => candidates_fuel now F _ _ (by simp [initState])
      (by simpa [initState, Source.rest] using hF) (by simp [initState, Source.rest])
  have hmain := mainLoop_select D os now fuel name0 n outfile
    { state := s0, zalloc := false, zfree := false } fuel (data.length + 1)
    (initState data buf0) 0 [] (by omega) (by simp [initState])
    (by simpa [initState, Source.rest] using hfuel) (by simp [initState, Source.rest])
  simp only [Nat.sub_zero, List.nil_append, Nat.zero_add] at hmain
  have hmain' : main D os now fuel n outfile data buf0 name0 s0 = _ := hmain
  generalize candidates now (data.length + 1) (initState data buf0) = cs at hmain' hE ⊢
  have hn0 : n ≠ 0 := by omega
  cases hget : cs.get? (n - 1) with
  | some c =>
    rw [hget] at hmain'
    simp only at hmain'
    have hlen : n ≤ cs.length := by
      have := List.get?_eq_some.mp hget
      obtain ⟨h1, -⟩ := this
      omega
    obtain ⟨tail, htail, hdone⟩ := extractBranch_log D os fuel name0 n hn0 outfile c
      { state := s0, zalloc := false, zfree := false } (foundLog 0 (cs.take n))
    refine ⟨?_, ?_, ?_, ?_, hE⟩
    · rw [hmain', htail, if_pos hlen, List.countP_append, foundLog_countP_extract,
        List.countP_cons]
      have ht : tail.countP Event.isExtractCall = 0 := by
        rw [List.countP_eq_zero]
        intro e he
        obtain ⟨r, o, w, rfl⟩ := hdone e he
        simp [Event.isExtractCall]
      simp [ht, Event.isExtractCall]
    · intro c' hc'
      cases hc'
      exact ⟨hmain', tail, by rw [hmain', htail], hdone⟩
    · intro h1; omega
    · intro h1; omega
  | none =>
    rw [hget] at hmain'
    simp only at hmain'
    have hlen : cs.length < n := by
      have := List.get?_eq_none.mp hget
      omega
    refine ⟨?_, ?_, ?_, ?_, hE⟩
    · rw [hmain', if_neg (by omega)]
      unfold mainEnd
      split
      · simp [List.countP_append, foundLog_countP_extract, Event.isExtractCall]
      · simp [hlen, List.countP_append, foundLog_countP_extract, Event.isExtractCall]
    · intro c hc; cases hc
    · intro _ h1
      have h2 : ¬ cs.length = 0 := by omega
      rw [hmain']
      simp only [mainEnd, h2, if_false, gt_iff_lt, hlen, if_true]
      refine ⟨trivial, ?_, _, mainExit_one_ne_zero _ _ _, rfl⟩
      simp [List.countP_append, foundLog_countP_opens, Event.opensOutput]
    · intro h0
      have hcs : cs = [] := List.length_eq_zero.mp h0
      subst hcs
      rw [hmain']
      simp only [mainEnd, List.length_nil, if_true, foundLog, List.nil_append]
      exact ⟨trivial, _, mainExit_one_ne_zero _ _ _, rfl⟩

/-- C7 at a concrete input: ordinal 2 on `nestedInput`, which has three
candidates. -/
theorem ordinal_selection_witness :
    1 ≤ 2 ∧ nestedInput.length < 100 ∧
    (inputCandidates 1600000000 nestedInput zeroBuf).length = 3 ∧
    (main headerDecoder plainOS 1600000000 100 2 none nestedInput zeroBuf zeroName
      []).log.countP Event.isExtractCall =
      (if 2 ≤ (inputCandidates 1600000000 nestedInput zeroBuf).length then 1 else 0) :=
  ⟨by decide, by decide, by set_option maxRecDepth 100000 in decide!,
    (ordinal_selection headerDecoder plainOS 1600000000 100 2 none nestedInput zeroBuf zeroName []
      (by decide) (by decide)).1⟩

theorem skipByte_streamOff (rs : rstate) (h1 : 1 ≤ rs.avail_in) (h2 : rs.avail_in < 2 ^ 32) :
    streamOff (skipByte rs) = streamOff rs + 1 ∧ (skipByte rs).next_in = rs.next_in + 1 := by
  have h : (rs.avail_in + 2 ^ 32 - 1) % 2 ^ 32 = rs.avail_in - 1 := by
    norm_num at h2 ⊢
    omega
  have hc : ((rs.avail_in - 1 : Nat) : Int) = (rs.avail_in : Int) - 1 := by omega
  simp only [streamOff, skipByte, h, hc, and_true]
  omega

/-- The first call of `gzlist` in listing mode and the call of `gzextract` for
ordinal 1 happen at the same stream offset, and a first line printed in
listing mode carries that offset. -/
theorem first_entry_agrees {σ : Type} (D : Decoder σ) (os : OS) (now : Int) (fuel : Nat)
    (outfile : Option (List Nat)) (data buf0 name0 : List Nat) (s0 : σ) :
    (listCallOffsets (main D os now fuel 0 outfile data buf0 name0 s0).log).head? =
      extractOffset (main D os now fuel 1 outfile data buf0 name0 s0).log ∧
    (∀ off, (listedOffsets (main D os now fuel 0 outfile data buf0 name0 s0).log).head? = some off →
      extractOffset (main D os now fuel 1 outfile data buf0 name0 s0).log = some off) := by
  unfold main
  cases fuel with
  | zero => simp [mainLoop, listCallOffsets, listedOffsets, extractOffset]
  | succ f =>
    rw [mainLoop, mainLoop]
    cases hg : gzfind GZ_FIND_STRICT now (initState data buf0) with
    | none => simp [listCallOffsets, listedOffsets, extractOffset]
    | some v =>
      obtain ⟨r, rs1⟩ := v
      simp only
      by_cases hr : r = 0
      · subst hr
        simp only [ne_eq, not_true_eq_false, if_false, Nat.zero_add, if_true, List.nil_append]
        obtain ⟨tail, htail, -⟩ := extractBranch_log D os (f + 1) name0 1 (by decide) outfile rs1
          { state := s0, zalloc := false, zfree := false } [Event.found 1 (streamOff rs1)]
        have hsel : extractOffset (extractBranch D os (f + 1) name0 1 outfile rs1
            { state := s0, zalloc := false, zfree := false }
            [Event.found 1 (streamOff rs1)]).log = some (streamOff rs1) := by
          rw [htail]
          simp [extractOffset]
        rw [hsel]
        simp only [show (0 : Nat) ≠ 1 from by decide, if_false]
        cases hl : gzlist D os (f + 1) name0 1 rs1 { state := s0, zalloc := false, zfree := false } with
        | none => simp [listCallOffsets, listedOffsets]
        | some l =>
          obtain ⟨hok, hbad⟩ := gzlist_line D os (f + 1) name0 1 rs1 _ l hl
          simp only
          by_cases hret : l.ret = 0
          · obtain ⟨i, -, -, -, -, hline⟩ := hok hret
            obtain ⟨T, hT⟩ := mainLoop_log_extends D os now (f + 1) name0 0 outfile f l.rs l.z 1
              ([Event.found 1 (streamOff rs1)] ++ [Event.gzlistCall 1 (streamOff rs1)] ++
                [Event.gzlistDone l.ret l.line])
            simp only [hret, ne_eq, not_true_eq_false, if_false]
            rw [hret] at hT
            rw [hT, hline]
            simp [listCallOffsets, listedOffsets]
          · simp only [hret, ne_eq, not_false_eq_true, if_true]
            rw [hbad hret]
            simp [listCallOffsets, listedOffsets]
      · simp only [ne_eq, hr, not_false_eq_true, if_true]
        obtain ⟨T0, hT0, h0a, h0b, -⟩ := mainEnd_log_extends D os 0
          { state := s0, zalloc := false, zfree := false } 0 []
        obtain ⟨T1, hT1, -, -, h1c⟩ := mainEnd_log_extends D os 1
          { state := s0, zalloc := false, zfree := false } 0 []
        rw [hT0, hT1]
        simp only [List.nil_append, h0a, h0b, h1c]
        simp

/-- C8, counterexample. In `nestedInput` the name of the first
member is itself ten bytes `gzcheck` accepts. Listing mode parses the first
header, name included, and resumes after it: its second entry is the member
at offset 21. Selection mode resumes one byte past offset 0 and counts the
bytes of the name as candidate 2: extraction with ordinal 2 starts decoding at
offset 10. -/
theorem listing_and_selection_differ :
    listedOffsets (main headerDecoder plainOS 1600000000 100 0 none nestedInput zeroBuf
      zeroName []).log = [0, 21] ∧
    extractOffset (main headerDecoder plainOS 1600000000 100 2 none nestedInput zeroBuf
      zeroName []).log = some 10 ∧
    (listedOffsets (main headerDecoder plainOS 1600000000 100 0 none nestedInput zeroBuf
      zeroName []).log).get? (2 - 1) ≠
      extractOffset (main headerDecoder plainOS 1600000000 100 2 none nestedInput zeroBuf
        zeroName []).log := by
  set_option maxRecDepth 100000 in decide!

/-! ## The output name -/

theorem cstr_nil_iff (g : List Nat) : cstr g = [] ↔ byteAt g 0 = 0 := by
  cases g with
  | nil => simp [cstr, byteAt]
  | cons x xs =>
    by_cases hx : x = 0
    · simp [cstr, byteAt, hx]
    · simp [cstr, byteAt, hx, List.takeWhile]

theorem firstIdx_eq_none_iff (c : Nat) (l : List Nat) : firstIdx c l = none ↔ c ∉ l := by
  induction l with
  | nil => simp [firstIdx]
  | cons x xs ih =>
    by_cases hx : x = c
    · simp [firstIdx, hx]
    · have hx' : ¬ c = x := fun h => hx h.symm
      simp [firstIdx, hx, hx', ih]

/-- The name `gzextract` chooses when the user gave none. -/
theorem outputSettings_none (g : List Nat) :
    outputSettings none g =
      (if cstr g ≠ [] ∧ 47 ∉ cstr g then cstr g else fallbackName,
        O_WRONLY ||| O_CREAT ||| O_TRUNC ||| O_EXCL) := by
  unfold outputSettings strchr
  simp only [firstIdx_eq_none_iff, ne_eq, cstr_nil_iff]
  split <;> rfl

theorem fallbackName_ok : fallbackName ≠ [] ∧ 47 ∉ fallbackName := by decide

/-- What `gzextract` passes to `open` is what `outputSettings` gives for the
name buffer `gzinit` filled. -/
theorem gzextract_opened {σ : Type} (D : Decoder σ) (os : OS) (fuel : Nat) (name0 : List Nat)
    (username : Option (List Nat)) (rs : rstate) (z : z_stream σ) (e : ExtractResult σ)
    (s : List Nat × Nat) (h : gzextract D os fuel name0 username rs z = some e)
    (hs : e.opened = some s) :
    ∃ i, gzinit D fuel rs z name0 NAMELEN = some i ∧ i.ret = 0 ∧
      s = outputSettings username i.name := by
  unfold gzextract at h
  cases hi : gzinit D fuel rs z name0 NAMELEN with
  | none => simp [hi] at h
  | some i =>
    rw [hi] at h
    simp only at h
    split at h
    · cases h; simp at hs
    · rename_i hr
      simp only [ne_eq, not_not] at hr
      split at h
      · cases h
        simp only [Option.some.injEq] at hs
        exact ⟨i, rfl, hr, hs.symm⟩
      · cases hl : gzextractLoop D os i.name fuel i.rs i.z [] with
        | none => simp [hl] at h
        | some v =>
          obtain ⟨err, rs1, z1, written⟩ := v
          rw [hl] at h
          simp only [Option.some.injEq] at h
          subst h
          simp only [Option.some.injEq] at hs
          exact ⟨i, rfl, hr, hs.symm⟩

/-- C9. With an explicit destination name `gzextract` uses it unchanged, with
the flags `O_WRONLY | O_CREAT | O_TRUNC`, which have `O_CREAT` and `O_TRUNC` and
not `O_EXCL`. With none, `O_EXCL` is set as well, and the name is the C string
in `gzname` when that is not empty and has no `/` (byte 47), otherwise
"gzdetect.out"; so the implicit name is never empty and never has a `/`. What
`gzextract` passes to `open` is `outputSettings` of the buffer `gzinit` left. -/
theorem output_name_selection (gzname : List Nat) :
    (∀ name : List Nat,
      outputSettings (some name) gzname = (name, O_WRONLY ||| O_CREAT ||| O_TRUNC)) ∧
    ((O_WRONLY ||| O_CREAT ||| O_TRUNC) &&& O_CREAT ≠ 0 ∧
      (O_WRONLY ||| O_CREAT ||| O_TRUNC) &&& O_TRUNC ≠ 0 ∧
      (O_WRONLY ||| O_CREAT ||| O_TRUNC) &&& O_EXCL = 0) ∧
    (outputSettings none gzname).2 = O_WRONLY ||| O_CREAT ||| O_TRUNC ||| O_EXCL ∧
    (outputSettings none gzname).2 &&& O_EXCL ≠ 0 ∧
    (outputSettings none gzname).1 =
      (if cstr gzname ≠ [] ∧ 47 ∉ cstr gzname then cstr gzname else fallbackName) ∧
    fallbackName = [103, 122, 100, 101, 116, 101, 99, 116, 46, 111, 117, 116] ∧
    ((outputSettings none gzname).1 ≠ [] ∧ 47 ∉ (outputSettings none gzname).1) ∧
    (∀ {σ : Type} (D : Decoder σ) (os : OS) (fuel : Nat) (name0 : List Nat)
      (username : Option (List Nat)) (rs : rstate) (z : z_stream σ) (e : ExtractResult σ)
      (s : List Nat × Nat),
      gzextract D os fuel name0 username rs z = some e → e.opened = some s →
      ∃ i, gzinit D fuel rs z name0 NAMELEN = some i ∧ i.ret = 0 ∧
        s = outputSettings username i.name) := by
  refine ⟨fun name => rfl, by decide, ?_, ?_, ?_, by decide, ?_, ?_⟩
  · rw [outputSettings_none]
  · rw [outputSettings_none]
    show (O_WRONLY ||| O_CREAT ||| O_TRUNC ||| O_EXCL) &&& O_EXCL ≠ 0
    decide
  · rw [outputSettings_none]
  · rw [outputSettings_none]
    simp only
    split
    · rename_i h; exact h
    · exact fallbackName_ok
  · intro σ D os fuel name0 username rs z e s h hs
    exact gzextract_opened D os fuel name0 username rs z e s h hs

theorem cstr_append_zero (X Y : List Nat) (h : ∀ x ∈ X, x ≠ 0) : cstr (X ++ 0 :: Y) = X := by
  unfold cstr
  rw [List.takeWhile_append_of_pos (by simpa using h)]
  simp

theorem set_zero_head (t : List Nat) (j : Nat) : ∃ Y, (0 :: t).set j 0 = 0 :: Y := by
  cases j with
  | zero => exact ⟨t, rfl⟩
  | succ j => exact ⟨t.set j 0, rfl⟩

/-- The buffer after the capture and the final `name[NAMELEN - 1] = 0` starts
with the first 29 bytes of the embedded name, followed by a NUL. -/
theorem capture_shape (emb b : List Nat) (hb : b.length = NAMELEN) :
    ∃ Y, (captureName emb b).set (NAMELEN - 1) 0 = emb.take 29 ++ 0 :: Y := by
  unfold captureName
  rw [bufStore_zero]
  by_cases hlen : emb.length ≤ 29
  · have h1 : (emb ++ [0]).take NAMELEN = emb ++ [0] := by
      apply List.take_of_length_le
      simp [NAMELEN]; omega
    rw [h1, List.append_assoc, List.set_append_right _ _ (by simp [NAMELEN]; omega),
      List.take_of_length_le hlen]
    obtain ⟨Y, hY⟩ := set_zero_head (b.drop (emb ++ [0]).length) (NAMELEN - 1 - emb.length)
    exact ⟨Y, by rw [← hY]; rfl⟩
  · have hlen' : 30 ≤ emb.length := by omega
    have h1 : (emb ++ [0]).take NAMELEN = emb.take 30 := by
      rw [List.take_append_of_le_length (by simpa [NAMELEN] using hlen')]
      rfl
    have h2 : (emb.take 30).length = 30 := by
      rw [List.length_take]; omega
    have h3 : b.drop (emb.take 30).length = [] := by
      rw [h2]; apply List.drop_of_length_le; rw [hb]; decide
    have h4 : emb.take 30 = emb.take 29 ++ [emb.getD 29 0] := by
      rw [List.take_succ]
      congr 1
      have : 29 < emb.length := by omega
      simp [List.getElem?_eq_getElem this, List.getD_eq_getElem?_getD]
    have h5 : (emb.take 29).length = 29 := by
      rw [List.length_take]; omega
    rw [h1, h3, List.append_nil, h4, List.set_append_right _ _ (by rw [h5]; decide), h5]
    exact ⟨[], rfl⟩

theorem cstr_capture (emb b : List Nat) (hb : b.length = NAMELEN) (h0 : ∀ x ∈ emb, x ≠ 0) :
    cstr ((captureName emb b).set (NAMELEN - 1) 0) = emb.take 29 := by
  obtain ⟨Y, hY⟩ := capture_shape emb b hb
  rw [hY]
  exact cstr_append_zero _ _ (fun x hx => h0 x (List.mem_of_mem_take hx))

/-- The name buffer `gzinit` returns with 0 is the buffer the header loop left,
with a NUL stored at index `namelen - 1`. -/
theorem gzinit_name {σ : Type} (D : Decoder σ) (fuel : Nat) (rs : rstate) (z : z_stream σ)
    (name0 : List Nat) (namelen : Nat) (i : InitResult σ)
    (h : gzinit D fuel rs z name0 namelen = some i) (hr : i.ret = 0) :
    ∃ rs1 z1 r, gzinitLoop D fuel rs1 z1 (name0.set 0 0) 0 = some r ∧ r.ret = 0 ∧
      i.name = r.name.set (namelen - 1) 0 := by
  unfold gzinit at h
  simp only at h
  generalize gzinitStart D z = start at h
  by_cases h1 : start.1 ≠ 0
  · rw [if_pos h1] at h
    cases h
    simp at hr
  · rw [if_neg h1] at h
    by_cases h2 : (D.inflateGetHeader start.2.state).1 ≠ 0
    · rw [if_pos h2] at h
      cases h
      simp at hr
    · rw [if_neg h2] at h
      cases hloop : gzinitLoop D fuel rs
          { state := (D.inflateGetHeader start.2.state).2, zalloc := start.2.zalloc,
            zfree := start.2.zfree } (name0.set 0 0) 0 with
      | none => rw [hloop] at h; cases h
      | some r =>
        rw [hloop] at h
        simp only at h
        by_cases h3 : r.ret ≠ 0
        · rw [if_pos h3] at h
          cases h
          exact absurd hr h3
        · rw [if_neg h3] at h
          cases h
          simp only [ne_eq, not_not] at h3
          exact ⟨_, _, r, hloop, h3, rfl⟩

/-- C10, at an input where it fails. The embedded name `longName` is 29 times
`a` followed by `/x`: it contains `/`, but `gzinit` cuts the captured name at
index 29, before the `/`, and `gzextract` opens the file named by the 29 `a`s,
not "gzdetect.out"; so does a whole run of `main` on a member with that name. -/
theorem long_name_with_slash_is_used :
    47 ∈ longName ∧
    (outputSettings none ((captureName longName zeroName).set (NAMELEN - 1) 0)).1 =
      List.replicate 29 97 ∧
    (outputSettings none ((captureName longName zeroName).set (NAMELEN - 1) 0)).1 ≠
      fallbackName ∧
    (main headerDecoder plainOS 1600000000 100 1 none longNameInput zeroBuf zeroName []).log =
      [Event.found 1 0, Event.gzextractCall 0,
        Event.gzextractDone 1
          (some (List.replicate 29 97, O_WRONLY ||| O_CREAT ||| O_TRUNC ||| O_EXCL)) []] := by
  set_option maxRecDepth 100000 in decide!

/-- C10, amended. When the embedded name has a `/` (byte 47) among its first
29 bytes, or is empty, extraction without an explicit destination opens
"gzdetect.out"; otherwise it opens the file named by the first 29 bytes of the
embedded name, whatever follows them. Here `b` is the name array before the
capture and `captureName emb b` the array after it, to which `gzinit` then
stores a NUL at index `NAMELEN - 1`. -/
theorem slash_in_captured_name (emb b : List Nat) (hb : b.length = NAMELEN)
    (h0 : ∀ x ∈ emb, x ≠ 0) :
    (47 ∈ emb.take 29 ∨ emb = [] →
      (outputSettings none ((captureName emb b).set (NAMELEN - 1) 0)).1 = fallbackName) ∧
    (47 ∉ emb.take 29 → emb ≠ [] →
      (outputSettings none ((captureName emb b).set (NAMELEN - 1) 0)).1 = emb.take 29) ∧
    (∀ {σ : Type} (D : Decoder σ) (fuel : Nat) (rs : rstate) (z : z_stream σ) (name0 : List Nat)
      (i : InitResult σ), gzinit D fuel rs z name0 NAMELEN = some i → i.ret = 0 →
      ∃ rs1 z1 r, gzinitLoop D fuel rs1 z1 (name0.set 0 0) 0 = some r ∧ r.ret = 0 ∧
        i.name = r.name.set (NAMELEN - 1) 0) := by
  have hc := cstr_capture emb b hb h0
  refine ⟨?_, ?_, ?_⟩
  · intro h
    rw [outputSettings_none, hc]
    simp only
    rw [if_neg]
    intro hcon
    rcases h with h | h
    · exact hcon.2 h
    · subst h; exact hcon.1 rfl
  · intro h1 h2
    rw [outputSettings_none, hc]
    simp only
    rw [if_pos]
    refine ⟨?_, h1⟩
    cases emb with
    | nil => exact absurd rfl h2
    | cons x xs => simp
  · intro σ D fuel rs z name0 i h hr
    exact gzinit_name D fuel rs z name0 NAMELEN i h hr

/-- C10, amended, at concrete inputs: the name `a/b` gives "gzdetect.out". -/
theorem slash_in_captured_name_witness :
    zeroName.length = NAMELEN ∧ (∀ x ∈ [97, 47, 98], x ≠ 0) ∧
    (outputSettings none ((captureName [97, 47, 98] zeroName).set (NAMELEN - 1) 0)).1 =
      fallbackName :=
  ⟨by decide, by decide,
    (slash_in_captured_name [97, 47, 98] zeroName (by decide) (by decide)).1
      (Or.inl (by decide))⟩

/-! ## The scanner inside one window -/

theorem firstIdx_byteAt (c : Nat) (l : List Nat) (i : Nat) (h : firstIdx c l = some i) :
    byteAt l i = c ∧ ∀ k, k < i → byteAt l k ≠ c := by
  induction l generalizing i with
  | nil => simp [firstIdx] at h
  | cons x xs ih =>
    simp only [firstIdx] at h
    by_cases hx : x = c
    · rw [if_pos hx] at h
      cases h
      exact ⟨by simp [byteAt, hx], fun k hk => absurd hk (Nat.not_lt_zero k)⟩
    · rw [if_neg hx] at h
      cases hj : firstIdx c xs with
      | none => simp [hj] at h
      | some j =>
        simp [hj] at h
        subst h
        obtain ⟨h1, h2⟩ := ih j hj
        refine ⟨by simpa [byteAt] using h1, fun k hk => ?_⟩
        cases k with
        | zero => simpa [byteAt] using hx
        | succ k => simpa [byteAt] using h2 k (by omega)

theorem byteAt_drop (l : List Nat) (p i : Nat) : byteAt (l.drop p) i = byteAt l (p + i) := by
  simp [byteAt, List.getD_eq_getElem?_getD, List.getElem?_drop]

theorem firstIdx_none_byteAt (l : List Nat) (h : firstIdx 0x1f l = none) (k : Nat) :
    byteAt l k ≠ 0x1f := by
  induction l generalizing k with
  | nil => simp [byteAt]
  | cons x xs ih =>
    simp only [firstIdx] at h
    by_cases hx : x = 0x1f
    · rw [if_pos hx] at h; cases h
    · rw [if_neg hx] at h
      have hxs : firstIdx 0x1f xs = none := by
        cases hj : firstIdx 0x1f xs with
        | none => rfl
        | some j => simp [hj] at h
      cases k with
      | zero => simpa [byteAt] using hx
      | succ k => simpa [byteAt] using ih hxs k

/-- A `0x1f` with fewer than ten bytes left in the window and nothing left to
read: the refill cannot complete the header and `gzfind` returns 1. -/
theorem scan_short (flags : Nat) (now : Int) (f : Nat) (rs : rstate) (W : List Nat)
    (P p i : Nat) (h : Holds rs W [] P) (hp : p < W.length)
    (hm : firstIdx 0x1f (W.drop p) = some i) (hcut : W.length < p + i + 10) :
    gzfindLoop flags now (f + 1) rs p = some (1, refilledFrom rs (p + i)) := by
  have hz := h.zsend
  have H2 := holds_refilledFrom rs W [] P (p + i) h
  rw [gzfindLoop_succ, fill_lt rs p (by omega)]
  simp only
  rw [holds_memchr rs W [] P p 0x1f h, hm]
  simp only [Option.map_some']
  rw [header_refill rs (p + i) (by rw [hz]; simpa [GZ_HDR_LEN] using hcut) h.2.2.2.1]
  have hi := firstIdx_lt _ _ _ hm
  simp only [List.length_drop] at hi
  have hav : (refilledFrom rs (p + i)).avail_in < GZ_HDR_LEN := by
    rw [H2.2.1]
    simp only [List.take_nil, List.append_nil, List.length_take, GZ_HDR_LEN]
    omega
  rw [if_neg (by omega)]

/-- The scan of a window that holds the rest of the input, from the pointer
`p`: `gzfind` returns 0 at the first candidate at or after `p` that `gzcheck`
accepts, and 1 when there is none. -/
theorem window_scan (flags : Nat) (now : Int) :
    ∀ (fuel : Nat) (rs : rstate) (W : List Nat) (P p : Nat) (r : Nat × rstate),
      Holds rs W [] P → p ≤ W.length → gzfindLoop flags now fuel rs p = some r →
      (∃ i, p ≤ i ∧ validAt flags now W i ∧ (∀ j, p ≤ j → j < i → ¬ validAt flags now W j) ∧
        r = (0, { rs with avail_in := W.length - i, next_in := i })) ∨
      (r.1 = 1 ∧ ∀ j, p ≤ j → ¬ validAt flags now W j) := by
  intro fuel
  induction fuel with
  | zero => intro rs W P p r _ _ h; simp [gzfindLoop] at h
  | succ f ih =>
    intro rs W P p r H hp h
    have hz := H.zsend
    by_cases hlt : p < W.length
    · cases hm : firstIdx 0x1f (W.drop p) with
      | none =>
        rw [scan_none flags now f rs W [] P p H hlt hm] at h
        have hno : ∀ j, p ≤ j → ¬ validAt flags now W j := by
          intro j hj hv
          have := firstIdx_none_byteAt _ hm (j - p)
          rw [byteAt_drop, Nat.add_sub_cancel' hj] at this
          exact this hv.2.1
        rcases ih rs W P W.length r H (Nat.le_refl _) h with ⟨i, hi, hv, -⟩ | ⟨h1, -⟩
        · exact absurd hv (hno i (by omega))
        · exact Or.inr ⟨h1, hno⟩
      | some i =>
        obtain ⟨hb, hbefore⟩ := firstIdx_byteAt _ _ _ hm
        rw [byteAt_drop] at hb
        have hskip : ∀ j, p ≤ j → j < p + i → ¬ validAt flags now W j := by
          intro j hj hji hv
          have := hbefore (j - p) (by omega)
          rw [byteAt_drop, Nat.add_sub_cancel' hj] at this
          exact this hv.2.1
        by_cases hfit : p + i + 10 ≤ W.length
        · rw [scan_hit flags now f rs W [] P p i H hlt hm hfit] at h
          by_cases hc : gzcheck ((W.drop (p + i)).take 10) flags now = 0
          · rw [if_pos hc] at h
            cases h
            exact Or.inl ⟨p + i, by omega, ⟨hfit, hb, hc⟩, hskip, rfl⟩
          · rw [if_neg hc] at h
            have hrej : ∀ j, p ≤ j → j < p + i + 1 → ¬ validAt flags now W j := by
              intro j hj hji hv
              by_cases hje : j = p + i
              · subst hje; exact hc hv.2.2
              · exact hskip j hj (by omega) hv
            rcases ih rs W P (p + i + 1) r H (by omega) h with ⟨k, hk, hv, hmin, hr⟩ | ⟨h1, hno⟩
            · refine Or.inl ⟨k, by omega, hv, fun j hj hjk => ?_, hr⟩
              by_cases hj2 : j < p + i + 1
              · exact hrej j hj hj2
              · exact hmin j (by omega) hjk
            · refine Or.inr ⟨h1, fun j hj => ?_⟩
              by_cases hj2 : j < p + i + 1
              · exact hrej j hj hj2
              · exact hno j (by omega)
        · rw [scan_short flags now f rs W P p i H hlt hm (by omega)] at h
          cases h
          refine Or.inr ⟨rfl, fun j hj hv => ?_⟩
          by_cases hj2 : j < p + i
          · exact hskip j hj hj2 hv
          · have := hv.1
            omega
    · have hpe : zsend rs ≤ p := by omega
      rw [scan_eof flags now f rs p H.2.2.2.1 H.2.2.2.2.1 hpe] at h
      cases h
      refine Or.inr ⟨rfl, fun j hj hv => ?_⟩
      have := hv.1
      omega

theorem gzcheck_magic (l : List Nat) (flags : Nat) (now : Int) (h : gzcheck l flags now = 0) :
    byteAt l 1 = 0x8b := by
  unfold gzcheck at h
  by_cases h1 : byteAt l 1 ≠ 0x8b ∨ byteAt l 2 ≠ 0x08
  · rw [if_pos h1] at h; cases h
  · by_contra hne
    exact h1 (Or.inl hne)

/-- The first `gzfind` call over an input that fits in one window: it returns,
with 0 at the least index that is a candidate `gzcheck` accepts, the window
then holding the input from there on, and with 1 when there is no such index. -/
theorem gzfind_one_window (flags : Nat) (now : Int) (data buf0 : List Nat)
    (hlen : data.length ≤ BUFSIZE) :
    ∃ r, gzfind flags now (initState data buf0) = some r ∧
      ((∃ i, validAt flags now data i ∧ (∀ j, j < i → ¬ validAt flags now data j) ∧
          r.1 = 0 ∧ r.2.next_in = i ∧ r.2.avail_in = data.length - i ∧ streamOff r.2 = i ∧
          window r.2 = data.drop i) ∨
        (r.1 = 1 ∧ ∀ j, ¬ validAt flags now data j)) := by
  obtain ⟨r, hr⟩ := gzfindLoop_total flags now (gzfindFuel (initState data buf0))
    (initState data buf0) (initState data buf0).next_in
    (by simp [scanMeasure, gzfindFuel, zsend])
  refine ⟨r, hr, ?_⟩
  rw [initState_fuel] at hr
  have hnext : (initState data buf0).next_in = 0 := rfl
  rw [hnext] at hr
  by_cases hd : data = []
  · subst hd
    rw [scan_eof flags now ([] : List Nat).length _ 0 rfl (initState_rest _ _)
      (by simp [zsend, initState])] at hr
    cases hr
    refine Or.inr ⟨rfl, fun j hv => ?_⟩
    have := hv.1
    simp at this
  · have hne : (initState data buf0).fd.rest ≠ [] := by rw [initState_rest]; exact hd
    rw [scan_fill flags now data.length _ 0 rfl hne (by simp [zsend, initState])] at hr
    have H := holds_refilled (initState data buf0) data 0 rfl (initState_rest _ _) rfl rfl
    rw [List.take_of_length_le hlen, List.drop_of_length_le hlen, Nat.zero_add,
      Nat.min_eq_right hlen] at H
    rcases window_scan flags now _ _ data _ 0 r H (Nat.zero_le _) hr with
      ⟨i, -, hv, hmin, hres⟩ | ⟨h1, hno⟩
    · refine Or.inl ⟨i, hv, fun j hj => hmin j (Nat.zero_le _) hj, ?_⟩
      subst hres
      have hi := hv.1
      refine ⟨rfl, rfl, rfl, ?_, ?_⟩
      · simp only [streamOff, H.2.2.2.2.2]
        omega
      · show ((refilled (initState data buf0)).buf.drop i).take (data.length - i) = data.drop i
        rw [← List.drop_take, H.2.2.1]
    · exact Or.inr ⟨h1, fun j => hno j (Nat.zero_le _)⟩

/-- C11, amended. For an input of at most 4096 bytes that the first `read`
delivers whole, as a regular file does (the source of `initState` does not
cut its reads short), the first `gzfind` call returns 0 if and only if some
index `i` has `0x1f`, ten bytes from it inside the input and `gzcheck`
accepting them; it then returns with the consumption boundary at
the least such `i`, `avail_in` the length minus `i`, and the window holding the
input from `i` on; otherwise it returns 1. On an input that starts with `0x1f`
followed by a header `gzcheck` accepts, the result is offset 1. -/
theorem first_candidate_in_window (flags : Nat) (now : Int) (data buf0 : List Nat)
    (hlen : data.length ≤ BUFSIZE) :
    ((∃ rs, gzfind flags now (initState data buf0) = some (0, rs)) ↔
      ∃ i, validAt flags now data i) ∧
    (∀ rs, gzfind flags now (initState data buf0) = some (0, rs) →
      validAt flags now data rs.next_in ∧ (∀ j, j < rs.next_in → ¬ validAt flags now data j) ∧
      rs.avail_in = data.length - rs.next_in ∧ streamOff rs = rs.next_in ∧
      window rs = data.drop rs.next_in) ∧
    ((¬ ∃ i, validAt flags now data i) →
      ∃ rs, gzfind flags now (initState data buf0) = some (1, rs)) ∧
    (∀ hdr T : List Nat, hdr.length = 10 → byteAt hdr 0 = 0x1f → gzcheck hdr flags now = 0 →
      data = 0x1f :: hdr ++ T →
      ∃ rs, gzfind flags now (initState data buf0) = some (0, rs) ∧ rs.next_in = 1 ∧
        streamOff rs = 1) := by
  obtain ⟨r, hr, hcase⟩ := gzfind_one_window flags now data buf0 hlen
  have key : ∀ rs, gzfind flags now (initState data buf0) = some (0, rs) →
      validAt flags now data rs.next_in ∧ (∀ j, j < rs.next_in → ¬ validAt flags now data j) ∧
      rs.avail_in = data.length - rs.next_in ∧ streamOff rs = rs.next_in ∧
      window rs = data.drop rs.next_in := by
    intro rs hrs
    rw [hr] at hrs
    cases hrs
    rcases hcase with ⟨i, hv, hmin, -, hn, ha, ho, hw⟩ | ⟨h1, -⟩
    · simp only at hn ha ho hw
      subst hn
      exact ⟨hv, hmin, ha, ho, hw⟩
    · simp at h1
  have found : (∃ i, validAt flags now data i) →
      ∃ rs, gzfind flags now (initState data buf0) = some (0, rs) := by
    intro ⟨i, hv⟩
    rcases hcase with ⟨k, -, -, h0, -⟩ | ⟨-, hno⟩
    · obtain ⟨r1, r2⟩ := r
      simp only at h0
      subst h0
      exact ⟨r2, hr⟩
    · exact absurd hv (hno i)
  refine ⟨⟨fun ⟨rs, hrs⟩ => ⟨rs.next_in, (key rs hrs).1⟩, found⟩, key, ?_, ?_⟩
  · intro hno
    rcases hcase with ⟨i, hv, -⟩ | ⟨h1, -⟩
    · exact absurd ⟨i, hv⟩ hno
    · obtain ⟨r1, r2⟩ := r
      simp only at h1
      subst h1
      exact ⟨r2, hr⟩
  · intro hdr T hl h0 hc hdata
    have hx : ∃ xs, hdr = 0x1f :: xs := by
      cases hdr with
      | nil => simp at hl
      | cons x xs => exact ⟨xs, by simp [byteAt] at h0; rw [h0]⟩
    obtain ⟨xs, hxs⟩ := hx
    have hv1 : validAt flags now data 1 := by
      subst hdata
      refine ⟨by simp [hl], by simp [byteAt, hxs], ?_⟩
      simp only [List.cons_append, List.drop_succ_cons, List.drop_zero]
      rw [List.take_left' hl]
      exact hc
    have hv0 : ¬ validAt flags now data 0 := by
      intro hv
      have hm := gzcheck_magic _ _ _ hv.2.2
      subst hdata
      simp [byteAt, hxs] at hm
    obtain ⟨rs, hrs⟩ := found ⟨1, hv1⟩
    obtain ⟨hv, hmin, -, ho, -⟩ := key rs hrs
    have h1 : rs.next_in = 1 := by
      by_contra hne
      by_cases hz : rs.next_in = 0
      · rw [hz] at hv; exact hv0 hv
      · exact hmin 1 (by omega) hv1
    exact ⟨rs, hrs, h1, by rw [ho, h1]; rfl⟩

/-- C11 at a concrete input: `0x1f`, then a valid header, then three bytes. -/
theorem first_candidate_in_window_witness :
    (0x1f :: validHeader ++ [1, 2, 3]).length ≤ BUFSIZE ∧
    ∃ rs, gzfind GZ_FIND_STRICT 1600000000 (initState (0x1f :: validHeader ++ [1, 2, 3]) zeroBuf) =
      some (0, rs) ∧ rs.next_in = 1 ∧ streamOff rs = 1 :=
  ⟨by decide,
    (first_candidate_in_window GZ_FIND_STRICT 1600000000 (0x1f :: validHeader ++ [1, 2, 3]) zeroBuf
      (by decide)).2.2.2 validHeader [1, 2, 3] rfl rfl (gzcheck_validHeader _ _) rfl⟩

/-- C11, counterexample. The input `validHeader ++ [1, 2, 3]` has 13 bytes and a
header `gzcheck` accepts at index 0. When it comes through a pipe whose first
`read` returns five bytes and whose second returns three, the first `gzfind`
call returns 1: the `0x1f` at index 0 has only five bytes after the first
refill, `rsread(rs, p)` brings the window to eight bytes, which is still less
than `GZ_HDR_LEN`, and `gzfind` gives up. Read whole, the same input is
accepted at offset 0. -/
theorem short_read_hides_header :
    (validHeader ++ [1, 2, 3]).length ≤ BUFSIZE ∧
    byteAt (validHeader ++ [1, 2, 3]) 0 = 0x1f ∧
    gzcheck (((validHeader ++ [1, 2, 3]).drop 0).take 10) GZ_FIND_STRICT 1600000000 = 0 ∧
    (gzfind GZ_FIND_STRICT 1600000000
      (initStateShort (validHeader ++ [1, 2, 3]) [4, 2] zeroBuf)).map Prod.fst = some 1 ∧
    ((gzfind GZ_FIND_STRICT 1600000000
      (initStateShort (validHeader ++ [1, 2, 3]) [4, 2] zeroBuf)).map
        fun r => (r.2.fd.pos, r.2.avail_in)) = some (8, 8) ∧
    ((gzfind GZ_FIND_STRICT 1600000000
      (initState (validHeader ++ [1, 2, 3]) zeroBuf)).map
        fun r => (r.1, r.2.next_in, r.2.avail_in)) = some (0, 0, 13) := by
  set_option maxRecDepth 100000 in decide!

/-! ## What a successful scan leaves -/

/-- When the loop of `gzfind` returns 0, `gzcheck` has accepted the bytes at the
`next_in` it leaves. -/
theorem gzfindLoop_accepts (flags : Nat) (now : Int) :
    ∀ (fuel : Nat) (rs : rstate) (p : Nat) (rs' : rstate),
      gzfindLoop flags now fuel rs p = some (0, rs') →
      gzcheck (rs'.buf.drop rs'.next_in) flags now = 0 := by
  intro fuel
  induction fuel with
  | zero => intro rs p rs' h; simp [gzfindLoop] at h
  | succ f ih =>
    intro rs p rs' h
    rw [gzfindLoop_succ] at h
    rcases fill_cases rs p with ⟨rs1, h1⟩ | ⟨rs1, p1, h1, -⟩
    · rw [h1] at h; simp at h
    · rw [h1] at h
      simp only at h
      cases hm : memchr rs1.buf p1 0x1f (zsend rs1 - p1) with
      | none => rw [hm] at h; exact ih _ _ _ h
      | some q =>
        rw [hm] at h
        simp only at h
        rcases header_cases rs1 q with ⟨rs2, h2⟩ | ⟨rs2, p2, h2, -⟩
        · rw [h2] at h; simp at h
        · rw [h2] at h
          simp only at h
          by_cases hc : gzcheck (rs2.buf.drop p2) flags now = 0
          · rw [if_pos hc] at h
            simp only [Option.some.injEq, Prod.mk.injEq, true_and] at h
            subst h
            exact hc
          · rw [if_neg hc] at h
            exact ih _ _ _ h

/-- C12, evaluated where the code fails it. On `decoyInput` the first `gzfind`
call returns 0 with twelve bytes valid at `next_in` and `gzcheck` accepting
the first ten of them, but the byte at `next_in` is 0, not `0x1f`: the refill
at the straddling `0x1f` kept the first bytes of the window instead of the
bytes at the match. What holds from every window within the buffer's size:
after a return of 0 at least ten bytes are valid, `gzcheck` accepts the bytes
at `next_in`, and the one-byte skip takes one off `avail_in` without wrapping. -/
theorem gzfind_success_without_magic (now : Int) (buf0 : List Nat) :
    (∃ rs, gzfind GZ_FIND_STRICT now (initState decoyInput buf0) = some (0, rs) ∧
      GZ_HDR_LEN ≤ rs.avail_in ∧ gzcheck (rs.buf.drop rs.next_in) GZ_FIND_STRICT now = 0 ∧
      byteAt (window rs) 0 = 0 ∧ byteAt (window rs) 0 ≠ 0x1f) ∧
    (∀ (flags : Nat) (rs rs' : rstate), rs.avail_in ≤ BUFSIZE →
      gzfind flags now rs = some (0, rs') →
      GZ_HDR_LEN ≤ rs'.avail_in ∧ gzcheck (rs'.buf.drop rs'.next_in) flags now = 0 ∧
      (skipByte rs').avail_in = rs'.avail_in - 1) := by
  constructor
  · obtain ⟨H2, hrun⟩ := decoy_run GZ_FIND_STRICT now buf0
    have hw : window ({ refilledFrom (refilled (initState decoyInput buf0)) 4087 with
        avail_in := 12, next_in := 0 } : rstate) = [0, 0x8b, 8, 0, 0, 0, 0, 0, 0, 3, 0, 0] := by
      have h3 := H2.2.2.1
      simpa [window] using h3
    refine ⟨_, hrun, (by decide : GZ_HDR_LEN ≤ 12), gzfindLoop_accepts _ _ _ _ _ _ hrun, ?_, ?_⟩
    · rw [hw]; rfl
    · rw [hw]; decide
  · intro flags rs rs' hav hg
    obtain ⟨r, rs1, hg1, -, hpost⟩ := gzfind_cases flags now rs hav
    rw [hg] at hg1
    cases hg1
    obtain ⟨h10, hB, -⟩ := hpost rfl
    exact ⟨h10, gzfindLoop_accepts _ _ _ _ _ _ hg, skipByte_avail rs' h10 hB⟩

/-! ## Termination of the scanner -/

/-- One iteration of the loop of `gzfind` either returns or goes on from a
state with a smaller measure: the scan pointer has moved forward in the
window, or bytes were read from the source. -/
theorem gzfindLoop_step (flags : Nat) (now : Int) (rs : rstate) (p : Nat) :
    (∃ r, ∀ f, gzfindLoop flags now (f + 1) rs p = some r) ∨
    (∃ rs' p', scanMeasure rs' p' < scanMeasure rs p ∧
      ∀ f, gzfindLoop flags now (f + 1) rs p = gzfindLoop flags now f rs' p') := by
  rcases fill_cases rs p with ⟨rs1, h1⟩ | ⟨rs1, p1, h1, hp1, hm1, -⟩
  · exact Or.inl ⟨_, fun f => by rw [gzfindLoop_succ, h1]⟩
  · cases hmem : memchr rs1.buf p1 0x1f (zsend rs1 - p1) with
    | none =>
      refine Or.inr ⟨rs1, zsend rs1, ?_, fun f => by rw [gzfindLoop_succ, h1]; simp only [hmem]⟩
      simp only [scanMeasure] at hm1 ⊢
      omega
    | some q =>
      have hb := memchr_bounds _ _ _ _ _ hmem
      rcases header_cases rs1 q with ⟨rs2, h2⟩ | ⟨rs2, p2, h2, hp2, hm2, -⟩
      · exact Or.inl ⟨(1, rs2), fun f => by rw [gzfindLoop_succ, h1]; simp only [hmem, h2]⟩
      · by_cases hc : gzcheck (rs2.buf.drop p2) flags now = 0
        · refine Or.inl ⟨(0, rstate.mk rs2.fd rs2.buf p2 (rs2.avail_in - (p2 - rs2.next_in))),
            fun f => ?_⟩
          rw [gzfindLoop_succ, h1]
          simp only [hmem, h2, hc, if_true]
        · refine Or.inr ⟨rs2, p2 + 1, ?_, fun f => by
            rw [gzfindLoop_succ, h1]; simp only [hmem, h2, hc, if_false]⟩
          simp only [scanMeasure, GZ_HDR_LEN] at hm1 hm2 hp2 ⊢
          omega

/-- C14. From every window state, over every finite source (failing or not)
and with every flag, `gzfind` returns: the loop returns within
`scanMeasure + 1` iterations, whatever larger bound is allowed, because each
iteration either returns or strictly decreases the number of bytes not yet
read plus the bytes of the window at or after the scan pointer. -/
theorem gzfind_terminates (flags : Nat) (now : Int) (rs : rstate) :
    (∃ r rs', gzfind flags now rs = some (r, rs')) ∧
    (∀ fuel p, scanMeasure rs p < fuel →
      ∃ r, gzfindLoop flags now fuel rs p = some r ∧
        ∀ fuel', fuel ≤ fuel' → gzfindLoop flags now fuel' rs p = some r) ∧
    (∀ p, (∃ r, ∀ f, gzfindLoop flags now (f + 1) rs p = some r) ∨
      (∃ rs' p', scanMeasure rs' p' < scanMeasure rs p ∧
        ∀ f, gzfindLoop flags now (f + 1) rs p = gzfindLoop flags now f rs' p')) := by
  refine ⟨?_, ?_, gzfindLoop_step flags now rs⟩
  · obtain ⟨⟨r, rs'⟩, h⟩ := gzfindLoop_total flags now (gzfindFuel rs) rs rs.next_in
      (by simp [scanMeasure, gzfindFuel, zsend])
    exact ⟨r, rs', h⟩
  · intro fuel p hf
    obtain ⟨r, h⟩ := gzfindLoop_total flags now fuel rs p hf
    exact ⟨r, h, fun fuel' hle => gzfindLoop_mono flags now fuel rs p r h fuel' hle⟩

/-! ## The lower time bound of the strict mode -/

/-- In strict mode `gzcheck` rejects every header whose modification time is
not zero and lies below `AD_1990`, whatever the other fields are. -/
theorem gzcheck_strict_early (p : List Nat) (flags : Nat) (now : Int)
    (hs : flags &&& GZ_FIND_STRICT ≠ 0) (h0 : mtimeOf p ≠ 0) (hlt : mtimeOf p < AD_1990) :
    gzcheck p flags now = 1 := by
  unfold gzcheck
  by_cases h1 : byteAt p 1 ≠ 0x8b ∨ byteAt p 2 ≠ 0x08
  · rw [if_pos h1]
  · rw [if_neg h1]
    by_cases h2 : byteAt p 3 &&& 0xe0 ≠ 0
    · rw [if_pos h2]
    · rw [if_neg h2, if_pos ⟨hs, h0, Or.inl hlt⟩]

/-- C18, counterexample. The constant `AD_1990` is not the Unix time of 1990-01-01T00:00:00
UTC: it is 18000 seconds (five hours) later. The header
`1f 8b 08 00 80 9d 9e 25 00 03`, whose other fields are valid and whose
modification time is 631152000, the first second of 1990, is rejected in
strict mode at every current time, and so is every header whose time lies
in the first five hours of 1990; the same header is accepted once its
time is `AD_1990`. -/
theorem strict_bound_five_hours_late :
    unix1990 = 631152000 ∧ AD_1990 = unix1990 + 18000 ∧
    mtimeOf [0x1f, 0x8b, 0x08, 0x00, 0x80, 0x9d, 0x9e, 0x25, 0x00, 0x03] = unix1990 ∧
    (∀ now : Int,
      gzcheck [0x1f, 0x8b, 0x08, 0x00, 0x80, 0x9d, 0x9e, 0x25, 0x00, 0x03] GZ_FIND_STRICT now = 1) ∧
    (∀ now : Int,
      gzcheck [0x1f, 0x8b, 0x08, 0x00, 0x80, 0x9d, 0x9e, 0x25, 0x00, 0x03] 0 now = 0) ∧
    (∀ now : Int, AD_1990 ≤ now + APPROX_YEAR →
      gzcheck [0x1f, 0x8b, 0x08, 0x00, 0xd0, 0xe3, 0x9e, 0x25, 0x00, 0x03] GZ_FIND_STRICT now = 0) ∧
    (∀ (p : List Nat) (now : Int), unix1990 ≤ mtimeOf p → mtimeOf p < unix1990 + 18000 →
      gzcheck p GZ_FIND_STRICT now = 1) := by
  have hm : mtimeOf [0x1f, 0x8b, 0x08, 0x00, 0x80, 0x9d, 0x9e, 0x25, 0x00, 0x03] = 631152000 := by
    decide
  have hm2 : mtimeOf [0x1f, 0x8b, 0x08, 0x00, 0xd0, 0xe3, 0x9e, 0x25, 0x00, 0x03] = 631170000 := by
    decide
  have hu : unix1990 = 631152000 := by decide
  have ha : AD_1990 = 631170000 := rfl
  refine ⟨hu, by rw [ha, hu]; decide, by rw [hm, hu], ?_, ?_, ?_, ?_⟩
  · intro now
    exact gzcheck_strict_early _ _ _ (by decide) (by rw [hm]; decide) (by rw [hm, ha]; decide)
  · intro now
    unfold gzcheck
    simp [byteAt]
  · intro now hnow
    unfold gzcheck
    rw [hm2]
    rw [ha] at hnow ⊢
    have h1 : ¬ ((631170000 : Int) > now + APPROX_YEAR) := by omega
    simp [byteAt, h1]
  · intro p now h1 h2
    rw [hu] at h1 h2
    exact gzcheck_strict_early _ _ _ (by decide) (by omega) (by rw [ha]; omega)

/-- C18, amended. The lower time bound of the strict mode is the constant
`AD_1990 = 631170000`, five hours after the start of 1990-01-01 in UTC: for
every header whose other fields are valid, `gzcheck` in strict mode accepts
exactly the modification time zero and the times from `AD_1990` up to
`now + APPROX_YEAR`, both inclusive. -/
theorem strict_time_window (p : List Nat) (now : Int)
    (h1 : byteAt p 1 = 0x8b) (h2 : byteAt p 2 = 0x08) (h3 : byteAt p 3 &&& 0xe0 = 0)
    (h8 : byteAt p 8 = 0 ∨ byteAt p 8 = 2 ∨ byteAt p 8 = 4)
    (h9 : byteAt p 9 ≤ 13 ∨ byteAt p 9 = 255) :
    (gzcheck p GZ_FIND_STRICT now = 0 ↔
      mtimeOf p = 0 ∨ (AD_1990 ≤ mtimeOf p ∧ mtimeOf p ≤ now + APPROX_YEAR)) ∧
    AD_1990 = 631170000 ∧ AD_1990 = unix1990 + 5 * 3600 := by
  have hs : GZ_FIND_STRICT &&& GZ_FIND_STRICT ≠ 0 := by decide
  have c1 : ¬ (byteAt p 1 ≠ 0x8b ∨ byteAt p 2 ≠ 0x08) := by
    rw [h1, h2]; decide
  have c2 : ¬ (byteAt p 3 &&& 0xe0 ≠ 0) := fun h => h h3
  have c4 : ¬ (byteAt p 8 ≠ 2 ∧ byteAt p 8 ≠ 4 ∧ byteAt p 8 ≠ 0) := by
    rcases h8 with h | h | h <;> rw [h] <;> decide
  have c5 : ¬ (GZ_FIND_STRICT &&& GZ_FIND_STRICT ≠ 0 ∧ (byteAt p 9 > 13 ∧ byteAt p 9 ≠ 255)) := by
    rintro ⟨-, h, h'⟩
    rcases h9 with h9 | h9
    · omega
    · exact h' h9
  refine ⟨?_, rfl, by decide⟩
  unfold gzcheck
  rw [if_neg c1, if_neg c2]
  by_cases c3 : GZ_FIND_STRICT &&& GZ_FIND_STRICT ≠ 0 ∧
      (mtimeOf p ≠ 0 ∧ (mtimeOf p < AD_1990 ∨ mtimeOf p > now + APPROX_YEAR))
  · rw [if_pos c3]
    obtain ⟨-, hne, hor⟩ := c3
    constructor
    · intro h; cases h
    · rintro (h | ⟨ha, hb⟩)
      · exact absurd h hne
      · omega
  · rw [if_neg c3, if_neg c4, if_neg c5]
    constructor
    · intro _
      by_cases h0 : mtimeOf p = 0
      · exact Or.inl h0
      · right
        constructor
        · by_contra hlt
          exact c3 ⟨hs, h0, Or.inl (by omega)⟩
        · by_contra hgt
          exact c3 ⟨hs, h0, Or.inr (by omega)⟩
    · intro _; rfl

/-- C18, amended, at a concrete header: the time `AD_1990` itself is accepted
in September 2020. -/
theorem strict_time_window_witness :
    gzcheck [0x1f, 0x8b, 0x08, 0x00, 0xd0, 0xe3, 0x9e, 0x25, 0x00, 0x03] GZ_FIND_STRICT
      1600000000 = 0 :=
  ((strict_time_window [0x1f, 0x8b, 0x08, 0x00, 0xd0, 0xe3, 0x9e, 0x25, 0x00, 0x03] 1600000000
    rfl rfl (by decide) (Or.inl rfl) (Or.inl (by decide))).1).mpr
    (Or.inr ⟨by decide, by decide⟩)

/-! ## The header loop of `gzinit` at the end of the input -/

/-- A refill at the end of a source that does not fail, with an empty window:
`rsread(rs, rs->z.next_in)` succeeds, reads nothing and leaves the window
empty. -/
theorem rsread_starved (rs : rstate) (ha : rs.avail_in = 0) (hR : rs.fd.rest = [])
    (hf : rs.fd.failing = false) :
    ∃ rs2, rsread rs (some rs.next_in) = (0, rs2) ∧ rs2.avail_in = 0 ∧ rs2.fd.rest = [] ∧
      rs2.fd.failing = false := by
  refine ⟨refilledFrom rs rs.next_in, rsread_some_ok rs _ hf, ?_, ?_, ?_⟩
  · simp [refilledFrom, zsend, ha, next_eof _ _ hR]
  · simp [refilledFrom, advance_rest, hR]
  · simp [refilledFrom, advance_failing, hf]

/-- When the engine answers an empty input with `Z_BUF_ERROR`, leaves the
header unfinished and stays in its state, the loop of `gzinit` over an empty
window at the end of the source does not end within any number of
iterations. -/
theorem gzinitLoop_starved {σ : Type} (D : Decoder σ) (s : σ)
    (hD : ∀ name, (D.inflate s [] 0 Z_BLOCK name).ret = Z_BUF_ERROR ∧
      (D.inflate s [] 0 Z_BLOCK name).done = 0 ∧ (D.inflate s [] 0 Z_BLOCK name).state = s) :
    ∀ (fuel : Nat) (rs : rstate) (z : z_stream σ) (name : List Nat),
      z.state = s → rs.avail_in = 0 → rs.fd.rest = [] → rs.fd.failing = false →
      gzinitLoop D fuel rs z name 0 = none := by
  intro fuel
  induction fuel with
  | zero => intro rs z name _ _ _ _; rfl
  | succ n ih =>
    intro rs z name hz ha hR hf
    have hw : window rs = [] := by simp [window, ha]
    obtain ⟨h1, h2, h3⟩ := hD name
    have hc : ∀ k, consume rs k = rs := by
      intro k
      cases rs
      simp only [consume] at ha ⊢
      subst ha
      simp
    obtain ⟨rs2, e1, e2, e3, e4⟩ := rsread_starved rs ha hR hf
    simp only [gzinitLoop, hw, hz, hc, h1, h2, e1, ne_eq, not_true_eq_false, if_false, if_true]
    exact ih rs2 _ _ h3 e2 e3 e4

/-- An input that fits in the window and starts with a header `gzcheck`
accepts: the first `gzfind` call returns 0 with the whole input in the
window, and nothing left to read. -/
theorem header_at_start (flags : Nat) (now : Int) (data buf0 : List Nat)
    (h10 : 10 ≤ data.length) (hB : data.length ≤ BUFSIZE) (h0 : byteAt data 0 = 0x1f)
    (hc : gzcheck (data.take 10) flags now = 0) :
    gzfind flags now (initState data buf0) = some (0, refilled (initState data buf0)) ∧
    Holds (refilled (initState data buf0)) data [] data.length := by
  have H := holds_refilled (initState data buf0) data 0 rfl (initState_rest _ _) rfl rfl
  have ht : data.take BUFSIZE = data := List.take_of_length_le hB
  have hd : data.drop BUFSIZE = [] := List.drop_eq_nil_of_le hB
  rw [ht, hd, Nat.zero_add, Nat.min_eq_right hB] at H
  refine ⟨?_, H⟩
  have hne : (initState data buf0).fd.rest ≠ [] := by
    rw [initState_rest]
    intro h
    rw [h] at h10
    simp at h10
  have hm : firstIdx 0x1f (data.drop 0) = some 0 := by
    cases data with
    | nil => simp at h10
    | cons x xs =>
      have hx : x = 0x1f := by simpa [byteAt] using h0
      simp [firstIdx, hx]
  have s1 := scan_fill flags now 0 (initState data buf0) 0 rfl hne (Nat.le_refl _)
  have s2 := scan_hit flags now 0 _ _ _ _ 0 0 H (by omega) hm (by omega)
  rw [show (0 : Nat) + 0 = 0 from rfl, List.drop_zero, if_pos hc] at s2
  have he : ({ refilled (initState data buf0) with
      avail_in := data.length - 0, next_in := 0 } : rstate) =
      refilled (initState data buf0) := by
    have h1 := H.1
    have h2 := H.2.1
    generalize refilled (initState data buf0) = r at h1 h2 ⊢
    cases r
    simp only at h1 h2
    subst h1 h2
    rfl
  rw [he] at s2
  apply gzfind_of_loop flags now _ 1
  · exact s1.trans s2
  · rw [initState_fuel]; omega

/-- The state the scanner hands on over such an input: the window holds the
whole input, nothing is left to read, and the offset is 0. -/
theorem header_at_start_state (data buf0 : List Nat)
    (H : Holds (refilled (initState data buf0)) data [] data.length) :
    window (refilled (initState data buf0)) = data ∧
    (refilled (initState data buf0)).avail_in = data.length ∧
    (refilled (initState data buf0)).fd.rest = [] ∧
    (refilled (initState data buf0)).fd.failing = false ∧
    streamOff (refilled (initState data buf0)) = 0 := by
  have hw := H.window
  obtain ⟨h1, h2, h3, h4, h5, h6, -⟩ := H
  refine ⟨hw, h2, h5, h4, ?_⟩
  rw [streamOff, h6, h2]
  omega

/-- The scanner accepts the truncated member at offset 0. -/
theorem truncInput_found (now : Int) (buf0 : List Nat) :
    gzfind GZ_FIND_STRICT now (initState truncInput buf0) =
      some (0, refilled (initState truncInput buf0)) := by
  have h8 : (8 &&& 224 : Nat) = 0 := by decide
  exact (header_at_start GZ_FIND_STRICT now truncInput buf0 (by decide) (by decide) rfl
    (by simp [gzcheck, byteAt, truncInput, mtimeOf, h8])).1

/-- The state the scanner hands to `gzinit` over the truncated member: the
window holds the ten bytes, nothing is left to read. -/
theorem truncInput_state (buf0 : List Nat) :
    window (refilled (initState truncInput buf0)) = truncInput ∧
    (refilled (initState truncInput buf0)).avail_in = 10 ∧
    (refilled (initState truncInput buf0)).fd.rest = [] ∧
    (refilled (initState truncInput buf0)).fd.failing = false ∧
    streamOff (refilled (initState truncInput buf0)) = 0 := by
  have h8 : (8 &&& 224 : Nat) = 0 := by decide
  exact header_at_start_state truncInput buf0
    (header_at_start GZ_FIND_STRICT 0 truncInput buf0 (by decide) (by decide) rfl
      (by simp [gzcheck, byteAt, truncInput, mtimeOf, h8])).2

/-- Over the truncated member `gzinit` does not return: the engine takes the
ten header bytes, then every call finds the window empty and answers
`Z_BUF_ERROR`, and every refill succeeds without reading a byte. -/
theorem gzinit_truncInput (buf0 name0 : List Nat) (fuel : Nat) :
    gzinit headerDecoder fuel (refilled (initState truncInput buf0)) (freshStream []) name0
      NAMELEN = none := by
  obtain ⟨hw, ha, hR, hf, -⟩ := truncInput_state buf0
  have hloop : ∀ z name, z.state = [] →
      gzinitLoop headerDecoder fuel (refilled (initState truncInput buf0)) z name 0 = none := by
    intro z name hz
    cases fuel with
    | zero => rfl
    | succ n =>
      have hi : headerDecoder.inflate [] truncInput 0 Z_BLOCK name =
          { ret := Z_OK, consumed := 10, output := [], state := truncInput, done := 0,
            name := bufStore name 0 [] } := rfl
      simp only [gzinitLoop, hw, hz, hi, ne_eq, not_true_eq_false, if_false]
      rw [if_neg (by decide), if_neg (by decide)]
      apply gzinitLoop_starved headerDecoder truncInput (fun nm => ⟨rfl, rfl, rfl⟩)
      · rfl
      · simp [consume, ha]
      · exact hR
      · exact hf
  have e1 : gzinitStart headerDecoder (freshStream ([] : List Nat)) =
      (0, { state := [], zalloc := true, zfree := true }) := rfl
  have e2 : headerDecoder.inflateGetHeader [] = (0, []) := rfl
  simp only [gzinit, e1, e2, ne_eq, not_true_eq_false, if_false]
  rw [hloop _ _ rfl]

/-- C13. Over the truncated member `1f 8b 08 08 00 00 00 00 00 03` (ten header
bytes with the FNAME flag set, no name bytes) `gzinit` does not return a
failure: the scanner accepts the header at offset 0 with nothing left to
read, and then the header loop does not end within any number of iterations,
so neither the listing run nor the extraction run of `main` ever exits. The
same holds for every engine that answers an empty input with `Z_BUF_ERROR`
and an unfinished header: at the end of the source the refill succeeds with
zero bytes and the loop repeats. -/
theorem gzinit_spins_on_truncated_header (now : Int) (buf0 name0 : List Nat) :
    gzfind GZ_FIND_STRICT now (initState truncInput buf0) =
      some (0, refilled (initState truncInput buf0)) ∧
    window (refilled (initState truncInput buf0)) = truncInput ∧
    (refilled (initState truncInput buf0)).fd.rest = [] ∧
    (∀ fuel, gzinit headerDecoder fuel (refilled (initState truncInput buf0)) (freshStream [])
      name0 NAMELEN = none) ∧
    (∀ fuel, main headerDecoder plainOS now (fuel + 1) 0 none truncInput buf0 name0 [] =
      { log := [Event.found 1 0, Event.gzlistCall 1 0], exit := none }) ∧
    (∀ fuel, main headerDecoder plainOS now (fuel + 1) 1 none truncInput buf0 name0 [] =
      { log := [Event.found 1 0, Event.gzextractCall 0], exit := none }) ∧
    (∀ (σ : Type) (D : Decoder σ) (s : σ),
      (∀ name, (D.inflate s [] 0 Z_BLOCK name).ret = Z_BUF_ERROR ∧
        (D.inflate s [] 0 Z_BLOCK name).done = 0 ∧ (D.inflate s [] 0 Z_BLOCK name).state = s) →
      ∀ (fuel : Nat) (rs : rstate) (z : z_stream σ) (name : List Nat),
        z.state = s → rs.avail_in = 0 → rs.fd.rest = [] → rs.fd.failing = false →
        (rsread rs (some rs.next_in)).1 = 0 ∧ gzinitLoop D fuel rs z name 0 = none) := by
  obtain ⟨hw, ha, hR, hf, ho⟩ := truncInput_state buf0
  refine ⟨truncInput_found now buf0, hw, hR, gzinit_truncInput buf0 name0, ?_, ?_, ?_⟩
  · intro fuel
    have hg := gzinit_truncInput buf0 name0 (fuel + 1)
    simp only [freshStream] at hg
    simp only [main, mainLoop, truncInput_found, gzlist, plainOS, hg, ho]
    simp
  · intro fuel
    have hg := gzinit_truncInput buf0 name0 (fuel + 1)
    simp only [freshStream] at hg
    simp only [main, mainLoop, truncInput_found, extractBranch, gzextract, hg, ho]
    simp
  · intro σ D s hD fuel rs z name hz ha2 hR2 hf2
    obtain ⟨rs2, e1, -⟩ := rsread_starved rs ha2 hR2 hf2
    exact ⟨by rw [e1], gzinitLoop_starved D s hD fuel rs z name hz ha2 hR2 hf2⟩

/-! ## The window stays inside the buffer -/

theorem bufStore_length (buf : List Nat) (off : Nat) (bytes : List Nat)
    (h : off + bytes.length ≤ buf.length) : (bufStore buf off bytes).length = buf.length := by
  simp only [bufStore, List.length_append, List.length_take, List.length_drop]
  omega

theorem memmove_length (buf : List Nat) (src n : Nat) : (memmove buf src n).length = buf.length := by
  unfold memmove
  apply bufStore_length
  simp only [List.length_take, List.length_drop]
  omega

theorem fdRead_length (s : Source) (n : Nat) (bytes : List Nat) (s1 : Source)
    (h : fdRead s n = some (bytes, s1)) : bytes.length ≤ n := by
  unfold fdRead at h
  by_cases hf : s.failing = true
  · simp [hf] at h
  · simp only [hf, Bool.false_eq_true, if_false, Option.some.injEq, Prod.mk.injEq] at h
    rw [← h.1, List.length_take]
    have := cap_le s n
    omega

/-- A refill keeps the window bounds when its keep-from lies in the valid
range: the kept suffix is at most `BUFSIZE` bytes, it is copied from inside
the window, and the bytes read fit after it. -/
theorem rsread_bounds (rs : rstate) (start : Option Nat) (hok : windowOK rs)
    (hs : ∀ s, start = some s → rs.next_in ≤ s ∧ s ≤ zsend rs) :
    windowOK (rsread rs start).2 ∧
    ((rsread rs start).1 = 0 → (rsread rs start).2.next_in = 0) := by
  obtain ⟨hl, -, hz⟩ := hok
  cases hf : rs.fd.failing with
  | true =>
    have h1 : (rsread rs start).1 = 1 := rsread_failing rs start hf
    refine ⟨?_, fun h => by rw [h1] at h; cases h⟩
    cases start with
    | none =>
      simp only [rsread, fdRead_failing _ _ hf]
      exact ⟨by simpa using hl, Nat.zero_le _, hz⟩
    | some s =>
      simp only [rsread, fdRead_failing _ _ hf]
      refine ⟨?_, Nat.zero_le _, hz⟩
      show (if _ then _ else _ : List Nat).length = BUFSIZE
      split_ifs
      · rw [memmove_length, hl]
      · exact hl
  | false =>
    cases start with
    | none =>
      rw [rsread_none_ok rs hf]
      refine ⟨⟨?_, Nat.zero_le _, ?_⟩, fun _ => rfl⟩
      · show (bufStore _ _ _).length = BUFSIZE
        have hn := next_length_le rs.fd BUFSIZE
        rw [bufStore_length _ _ _ (by rw [hl]; omega), hl]
      · show 0 + (rs.fd.next BUFSIZE).length ≤ BUFSIZE
        have hn := next_length_le rs.fd BUFSIZE
        omega
    | some s =>
      obtain ⟨h1, h2⟩ := hs s rfl
      rw [rsread_some_ok rs s hf]
      have hb1 : (if zsend rs - s ≠ 0 then memmove rs.buf rs.next_in (zsend rs - s)
          else rs.buf).length = BUFSIZE := by
        split_ifs
        · rw [memmove_length, hl]
        · exact hl
      have hk : zsend rs - s ≤ BUFSIZE := by simp only [zsend]; omega
      refine ⟨⟨?_, Nat.zero_le _, ?_⟩, fun _ => rfl⟩
      · show (bufStore _ _ _).length = BUFSIZE
        have hn := next_length_le rs.fd (BUFSIZE - (zsend rs - s))
        rw [bufStore_length _ _ _ (by rw [hb1]; omega), hb1]
      · show 0 + (_ + (rs.fd.next (BUFSIZE - (zsend rs - s))).length) ≤ BUFSIZE
        have hn := next_length_le rs.fd (BUFSIZE - (zsend rs - s))
        omega

/-- The first block of the loop of `gzfind` keeps the window bounds, and
goes on with a scan pointer inside the window. -/
theorem gzfindFill_bounds (rs : rstate) (p : Nat) (hok : windowOK rs) (hp : rs.next_in ≤ p) :
    (∀ r, gzfindFill rs p = .error r → windowOK r.2) ∧
    (∀ rs1 p1, gzfindFill rs p = .ok (rs1, p1) →
      windowOK rs1 ∧ rs1.next_in ≤ p1 ∧ p1 < zsend rs1) := by
  have hb := (rsread_bounds rs none hok (fun s h => by cases h)).1
  by_cases hz : p ≥ zsend rs
  · rcases hrr : rsread rs none with ⟨c, rs1⟩
    rw [hrr] at hb
    cases c with
    | zero =>
      by_cases hn : rs1.next_in ≥ zsend rs1
      · simp only [gzfindFill, hz, if_true, hrr, hn]
        exact ⟨fun r h => by cases h; exact hb, fun _ _ h => by cases h⟩
      · simp only [gzfindFill, hz, if_true, hrr, hn, if_false]
        refine ⟨fun r h => (by cases h), fun a b h => ?_⟩
        cases h
        exact ⟨hb, Nat.le_refl _, Nat.not_le.mp hn⟩
    | succ c =>
      simp only [gzfindFill, hz, if_true, hrr]
      exact ⟨fun r h => by cases h; exact hb, fun _ _ h => by cases h⟩
  · simp only [gzfindFill, hz, if_false]
    refine ⟨fun r h => (by cases h), fun a b h => ?_⟩
    cases h
    exact ⟨hok, hp, Nat.not_le.mp hz⟩

/-- The header block of the loop of `gzfind` keeps the window bounds, and
goes on with ten bytes of the window at the scan pointer. -/
theorem gzfindHeader_bounds (rs : rstate) (q : Nat) (hok : windowOK rs) (hq : rs.next_in ≤ q)
    (hq2 : q ≤ zsend rs) :
    (∀ r, gzfindHeader rs q = .error r → windowOK r.2) ∧
    (∀ rs2 p2, gzfindHeader rs q = .ok (rs2, p2) →
      windowOK rs2 ∧ rs2.next_in ≤ p2 ∧ p2 + GZ_HDR_LEN ≤ zsend rs2) := by
  have hb := (rsread_bounds rs (some q) hok (fun s h => by cases h; exact ⟨hq, hq2⟩)).1
  by_cases hz : q + GZ_HDR_LEN > zsend rs
  · rcases hrr : rsread rs (some q) with ⟨c, rs1⟩
    rw [hrr] at hb
    cases c with
    | zero =>
      by_cases hn : rs1.next_in + GZ_HDR_LEN > zsend rs1
      · simp only [gzfindHeader, hz, if_true, hrr, hn]
        exact ⟨fun r h => by cases h; exact hb, fun _ _ h => by cases h⟩
      · simp only [gzfindHeader, hz, if_true, hrr, hn, if_false]
        refine ⟨fun r h => (by cases h), fun a b h => ?_⟩
        cases h
        exact ⟨hb, Nat.le_refl _, Nat.not_lt.mp hn⟩
    | succ c =>
      simp only [gzfindHeader, hz, if_true, hrr]
      exact ⟨fun r h => by cases h; exact hb, fun _ _ h => by cases h⟩
  · simp only [gzfindHeader, hz, if_false]
    refine ⟨fun r h => (by cases h), fun a b h => ?_⟩
    cases h
    exact ⟨hok, hq, Nat.not_lt.mp hz⟩

/-- The one-byte skip after a successful `gzfind` keeps the window bounds. -/
theorem skipByte_bounds (rs : rstate) (hok : windowOK rs) (h1 : GZ_HDR_LEN ≤ rs.avail_in) :
    windowOK (skipByte rs) ∧ (skipByte rs).avail_in = rs.avail_in - 1 := by
  obtain ⟨hl, -, hz⟩ := hok
  have ha : (skipByte rs).avail_in = rs.avail_in - 1 :=
    skipByte_avail rs h1 (by omega)
  refine ⟨⟨hl, Nat.zero_le _, ?_⟩, ha⟩
  rw [ha]
  show rs.next_in + 1 + (rs.avail_in - 1) ≤ BUFSIZE
  simp only [GZ_HDR_LEN] at h1
  omega

/-- The loop of `gzfind` keeps the window bounds, whatever it returns, and on
success leaves at least ten bytes in the window. -/
theorem gzfindLoop_bounds (flags : Nat) (now : Int) :
    ∀ (fuel : Nat) (rs : rstate) (p : Nat) (r : Nat × rstate),
      windowOK rs → rs.next_in ≤ p → gzfindLoop flags now fuel rs p = some r →
      windowOK r.2 ∧ (r.1 = 0 → GZ_HDR_LEN ≤ r.2.avail_in) := by
  intro fuel
  induction fuel with
  | zero => intro rs p r _ _ h; simp [gzfindLoop] at h
  | succ n ih =>
    intro rs p r hok hp h
    rw [gzfindLoop_succ] at h
    obtain ⟨fe, fo⟩ := gzfindFill_bounds rs p hok hp
    cases h1 : gzfindFill rs p with
    | error e =>
      have h1e := h1
      simp only [h1] at h
      cases h
      rcases fill_cases rs p with ⟨rs1', h1'⟩ | ⟨_, _, h1', -⟩
      · rw [h1e] at h1'
        cases h1'
        exact ⟨fe _ h1e, fun h0 => by cases h0⟩
      · rw [h1e] at h1'; cases h1'
    | ok v =>
      obtain ⟨rs1, p1⟩ := v
      simp only [h1] at h
      obtain ⟨ok1, hp1, hlt1⟩ := fo rs1 p1 h1
      cases hmem : memchr rs1.buf p1 0x1f (zsend rs1 - p1) with
      | none =>
        simp only [hmem] at h
        exact ih rs1 (zsend rs1) r ok1 (by simp only [zsend]; omega) h
      | some q =>
        simp only [hmem] at h
        have hb := memchr_bounds _ _ _ _ _ hmem
        obtain ⟨he, ho⟩ := gzfindHeader_bounds rs1 q ok1 (by omega) (by omega)
        cases h2 : gzfindHeader rs1 q with
        | error e =>
          have h2e := h2
          simp only [h2] at h
          cases h
          rcases header_cases rs1 q with ⟨rs2', h2'⟩ | ⟨_, _, h2', -⟩
          · rw [h2e] at h2'
            cases h2'
            exact ⟨he _ h2e, fun h0 => by cases h0⟩
          · rw [h2e] at h2'; cases h2'
        | ok w =>
          obtain ⟨rs2, p2⟩ := w
          simp only [h2] at h
          obtain ⟨ok2, hp2, hfit⟩ := ho rs2 p2 h2
          by_cases hc : gzcheck (rs2.buf.drop p2) flags now = 0
          · rw [if_pos hc] at h
            cases h
            obtain ⟨hl, -, hz⟩ := ok2
            simp only [zsend] at hfit
            refine ⟨⟨hl, Nat.zero_le _, ?_⟩, fun _ => ?_⟩
            · show p2 + (rs2.avail_in - (p2 - rs2.next_in)) ≤ BUFSIZE
              omega
            · show GZ_HDR_LEN ≤ rs2.avail_in - (p2 - rs2.next_in)
              omega
          · rw [if_neg hc] at h
            exact ih rs2 (p2 + 1) r ok2 (by omega) h

/-- Every `gzfind` call from a state within the bounds returns a state within
the bounds. -/
theorem gzfind_bounds (flags : Nat) (now : Int) (rs : rstate) (hok : windowOK rs) :
    ∃ r rs1, gzfind flags now rs = some (r, rs1) ∧ windowOK rs1 ∧
      (r = 0 → GZ_HDR_LEN ≤ rs1.avail_in ∧ windowOK (skipByte rs1)) := by
  obtain ⟨⟨r, rs1⟩, h⟩ := gzfindLoop_total flags now (gzfindFuel rs) rs rs.next_in
    (by simp [scanMeasure, gzfindFuel, zsend])
  obtain ⟨h1, h2⟩ := gzfindLoop_bounds flags now _ rs rs.next_in (r, rs1) hok (Nat.le_refl _) h
  exact ⟨r, rs1, h, h1, fun h0 => ⟨h2 h0, (skipByte_bounds rs1 h1 (h2 h0)).1⟩⟩

/-- Every candidate of a run that alternates `gzfind` and the one-byte skip
is within the bounds, before and after the skip. -/
theorem candidates_bounds (now : Int) :
    ∀ (fuel : Nat) (rs : rstate), windowOK rs →
      ∀ c ∈ candidates now fuel rs, windowOK c ∧ GZ_HDR_LEN ≤ c.avail_in ∧ windowOK (skipByte c) := by
  intro fuel
  induction fuel with
  | zero => intro rs _ c hc; simp [candidates] at hc
  | succ n ih =>
    intro rs hok c hc
    obtain ⟨r, rs1, hg, h1, h2⟩ := gzfind_bounds GZ_FIND_STRICT now rs hok
    rw [candidates, hg] at hc
    cases r with
    | zero =>
      simp only [List.mem_cons] at hc
      rcases hc with rfl | hc
      · exact ⟨h1, (h2 rfl).1, (h2 rfl).2⟩
      · exact ih (skipByte rs1) (h2 rfl).2 c hc
    | succ k => simp at hc

/-- C15. The window bounds `buf <= next_in` and
`next_in + avail_in <= buf + BUFSIZE` hold in the initial state over a buffer
of `BUFSIZE` bytes and, from any state `rs` in which they hold, after every
`rsread` whose keep-from lies in the valid range (and after
`rsread(rs, NULL)`), after every `gzfind` call, whatever it returns, and after
the one-byte skip that follows a successful `gzfind`; so they hold for every
candidate of a run. The kept suffix is at most `BUFSIZE` bytes and is copied
from inside the window, the bytes `read` returns fit in the buffer after it,
and wherever the loop of `gzfind` calls `gzcheck` the ten bytes at the scan
pointer lie inside the window, and they alone decide the verdict. -/
theorem window_bounds_invariant (flags : Nat) (now : Int) (rs : rstate) (hok : windowOK rs) :
    (∀ data buf0, buf0.length = BUFSIZE →
      windowOK (initState data buf0) ∧
      ∀ c ∈ inputCandidates now data buf0, windowOK c ∧ windowOK (skipByte c)) ∧
    (∀ s, rs.next_in ≤ s → s ≤ zsend rs →
      windowOK (rsread rs (some s)).2 ∧ zsend rs - s ≤ BUFSIZE ∧
      rs.next_in + (zsend rs - s) ≤ zsend rs ∧
      ∀ bytes fd1, fdRead rs.fd (BUFSIZE - (zsend rs - s)) = some (bytes, fd1) →
        (zsend rs - s) + bytes.length ≤ rs.buf.length) ∧
    (windowOK (rsread rs none).2 ∧
      ∀ bytes fd1, fdRead rs.fd (BUFSIZE - 0) = some (bytes, fd1) →
        0 + bytes.length ≤ rs.buf.length) ∧
    (∃ r rs1, gzfind flags now rs = some (r, rs1) ∧ windowOK rs1 ∧
      (r = 0 → GZ_HDR_LEN ≤ rs1.avail_in ∧ windowOK (skipByte rs1) ∧
        (skipByte rs1).avail_in = rs1.avail_in - 1)) ∧
    (∀ q rs2 p2, rs.next_in ≤ q → q ≤ zsend rs → gzfindHeader rs q = .ok (rs2, p2) →
      windowOK rs2 ∧ rs2.next_in ≤ p2 ∧ p2 + GZ_HDR_LEN ≤ zsend rs2 ∧
      zsend rs2 ≤ rs2.buf.length ∧
      gzcheck (rs2.buf.drop p2) flags now =
        gzcheck ((rs2.buf.drop p2).take GZ_HDR_LEN) flags now ∧
      ((rs2.buf.drop p2).take GZ_HDR_LEN).length = GZ_HDR_LEN) := by
  have hok0 := hok
  obtain ⟨hl, -, hz⟩ := hok
  refine ⟨?_, ?_, ?_, ?_, ?_⟩
  · intro data buf0 hb
    have hi : windowOK (initState data buf0) := ⟨hb, Nat.zero_le _, Nat.zero_le _⟩
    exact ⟨hi, fun c hc =>
      have h := candidates_bounds now _ _ hi c hc
      ⟨h.1, h.2.2⟩⟩
  · intro s h1 h2
    have hk : zsend rs - s ≤ BUFSIZE := by simp only [zsend] at h2 ⊢; omega
    refine ⟨(rsread_bounds rs (some s) hok0 (fun t ht => by cases ht; exact ⟨h1, h2⟩)).1, hk,
      by omega, fun bytes fd1 hr => ?_⟩
    have := fdRead_length _ _ _ _ hr
    omega
  · refine ⟨(rsread_bounds rs none hok0 (fun t ht => by cases ht)).1, fun bytes fd1 hr => ?_⟩
    have := fdRead_length _ _ _ _ hr
    omega
  · obtain ⟨r, rs1, hg, h1, h2⟩ := gzfind_bounds flags now rs hok0
    exact ⟨r, rs1, hg, h1, fun h0 =>
      ⟨(h2 h0).1, (h2 h0).2, (skipByte_bounds rs1 h1 (h2 h0).1).2⟩⟩
  · intro q rs2 p2 h1 h2 hh
    obtain ⟨ok2, hp2, hfit⟩ := (gzfindHeader_bounds rs q hok0 h1 h2).2 rs2 p2 hh
    obtain ⟨hl2, -, hz2⟩ := ok2
    have hzz : zsend rs2 ≤ rs2.buf.length := by rw [hl2]; exact hz2
    refine ⟨⟨hl2, Nat.zero_le _, hz2⟩, hp2, hfit, hzz, gzcheck_take _ _ _, ?_⟩
    rw [List.length_take, List.length_drop]
    omega

/-- The window bounds hold at the start of a run over a zeroed buffer, and
after its first `rsread`. -/
theorem window_bounds_invariant_witness :
    windowOK (initState validHeader zeroBuf) ∧
    windowOK (rsread (initState validHeader zeroBuf) none).2 :=
  ⟨⟨List.length_replicate _ _, Nat.zero_le _, Nat.zero_le _⟩,
    (window_bounds_invariant GZ_FIND_STRICT 0 (initState validHeader zeroBuf)
      ⟨List.length_replicate _ _, Nat.zero_le _, Nat.zero_le _⟩).2.2.1.1⟩

/-! ## The stream offsets of successive candidates -/

theorem advance_pos_take (s : Source) (n : Nat) :
    (s.advance n).pos = s.pos + (s.next n).length := rfl

/-- The first block of the loop of `gzfind` keeps the stream offset of the
scan pointer. -/
theorem fill_off (rs rs1 : rstate) (p p1 : Nat) (hp : p ≤ zsend rs)
    (h : gzfindFill rs p = .ok (rs1, p1)) : scanOff rs1 p1 = scanOff rs p := by
  by_cases hlt : p < zsend rs
  · rw [fill_lt rs p hlt] at h
    cases h
    rfl
  · have hge : zsend rs ≤ p := Nat.not_lt.mp hlt
    cases hf : rs.fd.failing with
    | true =>
      obtain ⟨rs1', h'⟩ := fill_failing rs p hge hf
      rw [h'] at h; cases h
    | false =>
      by_cases he : rs.fd.rest = []
      · rw [fill_eof rs p hge hf he] at h; cases h
      · rw [fill_ge rs p hge hf he] at h
        cases h
        simp only [scanOff, zsend, refilled, advance_pos_take] at hp hge ⊢
        push_cast
        omega

/-- The header block of the loop of `gzfind` keeps the stream offset of the
scan pointer. -/
theorem header_off (rs rs2 : rstate) (q p2 : Nat) (hq : q ≤ zsend rs)
    (h : gzfindHeader rs q = .ok (rs2, p2)) : scanOff rs2 p2 = scanOff rs q := by
  by_cases hfit : q + GZ_HDR_LEN ≤ zsend rs
  · rw [header_fit rs q hfit] at h
    cases h
    rfl
  · have hlt : zsend rs < q + GZ_HDR_LEN := Nat.not_le.mp hfit
    cases hf : rs.fd.failing with
    | true =>
      obtain ⟨rs1', h'⟩ := header_failing rs q hlt hf
      rw [h'] at h; cases h
    | false =>
      rw [header_refill rs q hlt hf] at h
      by_cases h10 : GZ_HDR_LEN ≤ (refilledFrom rs q).avail_in
      · rw [if_pos h10] at h
        cases h
        simp only [scanOff, zsend, refilledFrom, advance_pos_take] at hq ⊢
        push_cast
        omega
      · rw [if_neg h10] at h; cases h

/-- When the loop of `gzfind` returns 0, the consumption boundary is at or
after the stream offset the scan pointer started from. -/
theorem gzfindLoop_offset (flags : Nat) (now : Int) :
    ∀ (fuel : Nat) (rs : rstate) (p : Nat) (rs' : rstate),
      rs.next_in ≤ p → p ≤ zsend rs → gzfindLoop flags now fuel rs p = some (0, rs') →
      scanOff rs p ≤ streamOff rs' := by
  intro fuel
  induction fuel with
  | zero => intro rs p rs' _ _ h; simp [gzfindLoop] at h
  | succ n ih =>
    intro rs p rs' hp hpz h
    rw [gzfindLoop_succ] at h
    rcases fill_cases rs p with ⟨e1, h1⟩ | ⟨rs1, p1, h1, hlt1, -, hn1, -⟩
    · simp only [h1] at h
      cases h
    · simp only [h1] at h
      have ho1 := fill_off rs rs1 p p1 hpz h1
      have hp1 := hn1 hp
      cases hmem : memchr rs1.buf p1 0x1f (zsend rs1 - p1) with
      | none =>
        simp only [hmem] at h
        have := ih rs1 (zsend rs1) rs' (by simp only [zsend]; omega) (Nat.le_refl _) h
        simp only [scanOff] at this ho1 ⊢
        omega
      | some q =>
        simp only [hmem] at h
        have hb := memchr_bounds _ _ _ _ _ hmem
        rcases header_cases rs1 q with ⟨e2, h2⟩ | ⟨rs2, p2, h2, hfit, -, hn2, -⟩
        · simp only [h2] at h
          cases h
        · simp only [h2] at h
          have ho2 := header_off rs1 rs2 q p2 (by omega) h2
          have hp2 := hn2 (by omega)
          by_cases hc : gzcheck (rs2.buf.drop p2) flags now = 0
          · rw [if_pos hc] at h
            cases h
            simp only [scanOff, streamOff, zsend, GZ_HDR_LEN] at ho1 ho2 hfit ⊢
            omega
          · rw [if_neg hc] at h
            have := ih rs2 (p2 + 1) rs' (by omega) (by simp only [GZ_HDR_LEN] at hfit; omega) h
            simp only [scanOff] at this ho1 ho2 ⊢
            omega

/-- A successful `gzfind` leaves the consumption boundary at or after the
stream offset it started from. -/
theorem gzfind_offset (flags : Nat) (now : Int) (rs rs' : rstate)
    (h : gzfind flags now rs = some (0, rs')) : streamOff rs ≤ streamOff rs' := by
  have := gzfindLoop_offset flags now _ rs rs.next_in rs' (Nat.le_refl _)
    (by simp only [zsend]; omega) h
  simp only [scanOff, streamOff, zsend] at this ⊢
  omega

/-- Along a run that alternates `gzfind` and the one-byte skip, every
candidate lies at or after the offset the run started from, the offsets of
the candidates increase strictly, and there are no more candidates than
bytes unread or in the window. -/
theorem candidates_offsets (now : Int) :
    ∀ (fuel : Nat) (rs : rstate), rs.avail_in ≤ BUFSIZE →
      (∀ c ∈ candidates now fuel rs, streamOff rs ≤ streamOff c) ∧
      List.Pairwise (· < ·) ((candidates now fuel rs).map streamOff) ∧
      (candidates now fuel rs).length ≤ rs.fd.rest.length + rs.avail_in := by
  intro fuel
  induction fuel with
  | zero => intro rs _; simp [candidates]
  | succ n ih =>
    intro rs hav
    obtain ⟨r, rs1, hg, hr, hpost⟩ := gzfind_cases GZ_FIND_STRICT now rs hav
    rw [candidates, hg]
    rcases hr with rfl | rfl
    · obtain ⟨h10, hB, hm, -, -⟩ := hpost rfl
      have hsk := skipByte_avail rs1 h10 hB
      have hso := (skipByte_streamOff rs1 (by simp only [GZ_HDR_LEN] at h10; omega)
        (by simp only [BUFSIZE] at hB; omega)).1
      have hoff := gzfind_offset GZ_FIND_STRICT now rs rs1 hg
      obtain ⟨i1, i2, i3⟩ := ih (skipByte rs1) (by rw [hsk]; omega)
      simp only [GZ_HDR_LEN] at h10
      refine ⟨?_, ?_, ?_⟩
      · intro c hc
        simp only [List.mem_cons] at hc
        rcases hc with rfl | hc
        · exact hoff
        · have := i1 c hc
          omega
      · simp only [List.map_cons, List.pairwise_cons]
        refine ⟨?_, i2⟩
        intro o ho
        obtain ⟨c, hc, rfl⟩ := List.mem_map.mp ho
        have := i1 c hc
        omega
      · simp only [List.length_cons]
        rw [hsk, skipByte_fd] at i3
        omega
    · simp

theorem foundOffsets_foundLog (k : Nat) (cs : List rstate) :
    foundOffsets (foundLog k cs) = cs.map streamOff := by
  induction cs generalizing k with
  | nil => rfl
  | cons c cs ih =>
    have := ih (k + 1)
    simp only [foundOffsets] at this ⊢
    simp [foundLog, this]

/-- In selection mode the successful `gzfind` calls of `main` are those of
the first `n` candidates. -/
theorem main_foundOffsets {σ : Type} (D : Decoder σ) (os : OS) (now : Int) (fuel n : Nat)
    (outfile : Option (List Nat)) (data buf0 name0 : List Nat) (s0 : σ)
    (hn : 1 ≤ n) (hfuel : data.length < fuel) :
    foundOffsets (main D os now fuel n outfile data buf0 name0 s0).log =
      ((inputCandidates now data buf0).take n).map streamOff := by
  unfold inputCandidates
  have hmain := mainLoop_select D os now fuel name0 n outfile
    { state := s0, zalloc := false, zfree := false } fuel (data.length + 1)
    (initState data buf0) 0 [] (by omega) (by simp [initState])
    (by simpa [initState, Source.rest] using hfuel) (by simp [initState, Source.rest])
  simp only [Nat.sub_zero, List.nil_append, Nat.zero_add] at hmain
  have hmain' : main D os now fuel n outfile data buf0 name0 s0 = _ := hmain
  generalize candidates now (data.length + 1) (initState data buf0) = cs at hmain' ⊢
  have hn0 : n ≠ 0 := by omega
  have hF : ∀ (L : List Event) (e : Event) (T : List Event),
      (∀ x ∈ e :: T, ∀ k o, x ≠ Event.found k o) →
      foundOffsets (L ++ e :: T) = foundOffsets L := by
    intro L e T hT
    have : foundOffsets (e :: T) = [] := by
      unfold foundOffsets
      rw [List.filterMap_eq_nil_iff]
      intro x hx
      have := hT x hx
      cases x <;> first | rfl | exact absurd rfl (this _ _)
    unfold foundOffsets at this ⊢
    rw [List.filterMap_append, this, List.append_nil]
  cases hget : cs.get? (n - 1) with
  | some c =>
    rw [hget] at hmain'
    simp only at hmain'
    obtain ⟨tail, htail, hdone⟩ := extractBranch_log D os fuel name0 n hn0 outfile c
      { state := s0, zalloc := false, zfree := false } (foundLog 0 (cs.take n))
    rw [hmain', htail, hF, foundOffsets_foundLog]
    intro x hx k o
    simp only [List.mem_cons] at hx
    rcases hx with rfl | hx
    · intro h; cases h
    · obtain ⟨r, o', w, rfl⟩ := hdone x hx
      intro h; cases h
  | none =>
    rw [hget] at hmain'
    simp only at hmain'
    have hlen : cs.length ≤ n := by
      by_contra hlt
      have h1 : n - 1 < cs.length := by omega
      rw [List.get?_eq_get h1] at hget
      cases hget
    rw [List.take_of_length_le hlen, hmain']
    unfold mainEnd
    split_ifs
    · rw [hF _ _ [] (by intro x hx k o; simp only [List.mem_singleton] at hx; subst hx; intro h; cases h),
        foundOffsets_foundLog]
    · rw [hF _ _ [] (by intro x hx k o; simp only [List.mem_singleton] at hx; subst hx; intro h; cases h),
        foundOffsets_foundLog]
    · exact foundOffsets_foundLog _ _

/-- C17. For every input, the stream offsets (`lseek` position minus
`avail_in`) of the successive successful `gzfind` calls, each followed by the
one-byte skip, increase strictly: each candidate lies at or after the byte
that follows the candidate before it. So no offset is counted twice, and the
number of accepted candidates is at most the input length. The same holds
for the `found` events of every selection-mode run of `main`, which are
those of the first `n` candidates. -/
theorem candidate_offsets_increase (now : Int) (data buf0 : List Nat) :
    List.Pairwise (· < ·) ((inputCandidates now data buf0).map streamOff) ∧
    (∀ i a b, (inputCandidates now data buf0).get? i = some a →
      (inputCandidates now data buf0).get? (i + 1) = some b →
      streamOff (skipByte a) = streamOff a + 1 ∧ streamOff (skipByte a) ≤ streamOff b) ∧
    (∀ c ∈ inputCandidates now data buf0, 0 ≤ streamOff c) ∧
    ((inputCandidates now data buf0).map streamOff).Nodup ∧
    (inputCandidates now data buf0).length ≤ data.length ∧
    (∀ (σ : Type) (D : Decoder σ) (os : OS) (fuel n : Nat) (outfile : Option (List Nat))
        (name0 : List Nat) (s0 : σ), 1 ≤ n → data.length < fuel →
      foundOffsets (main D os now fuel n outfile data buf0 name0 s0).log =
        ((inputCandidates now data buf0).take n).map streamOff ∧
      List.Pairwise (· < ·) (foundOffsets (main D os now fuel n outfile data buf0 name0 s0).log) ∧
      (foundOffsets (main D os now fuel n outfile data buf0 name0 s0).log).length ≤
        data.length) := by
  have hav : (initState data buf0).avail_in ≤ BUFSIZE := Nat.zero_le _
  obtain ⟨h1, h2, h3⟩ := candidates_offsets now (data.length + 1) (initState data buf0) hav
  have h3' : (inputCandidates now data buf0).length ≤ data.length := by
    simpa [initState, Source.rest] using h3
  have hgen : ∀ (fuel : Nat) (rs : rstate), rs.avail_in ≤ BUFSIZE →
      ∀ i a b, (candidates now fuel rs).get? i = some a →
        (candidates now fuel rs).get? (i + 1) = some b →
        streamOff (skipByte a) = streamOff a + 1 ∧ streamOff (skipByte a) ≤ streamOff b := by
    intro fuel
    induction fuel with
    | zero => intro rs _ i a b h; simp [candidates] at h
    | succ n ih =>
      intro rs hrs i a b ha hb
      obtain ⟨r, rs1, hg, hr, hpost⟩ := gzfind_cases GZ_FIND_STRICT now rs hrs
      rw [candidates, hg] at ha hb
      rcases hr with rfl | rfl
      · obtain ⟨h10, hB, -⟩ := hpost rfl
        have hsk := skipByte_avail rs1 h10 hB
        simp only at ha hb
        cases i with
        | zero =>
          simp only [List.get?_cons_zero, Option.some.injEq] at ha
          subst ha
          simp only [List.get?_cons_succ] at hb
          have hso := (skipByte_streamOff rs1 (by simp only [GZ_HDR_LEN] at h10; omega)
            (by simp only [BUFSIZE] at hB; omega)).1
          refine ⟨hso, ?_⟩
          have hmem : b ∈ candidates now n (skipByte rs1) := List.get?_mem hb
          exact (candidates_offsets now n (skipByte rs1) (by rw [hsk]; omega)).1 b hmem
        | succ j =>
          simp only [List.get?_cons_succ] at ha hb
          exact ih (skipByte rs1) (by rw [hsk]; omega) j a b ha hb
      · simp at ha
  refine ⟨h2, hgen _ _ hav, ?_, ?_, h3', ?_⟩
  · intro c hc
    have := h1 c hc
    simpa [streamOff, initState] using this
  · exact (h2.imp (fun h => ne_of_lt h))
  · intro σ D os fuel n outfile name0 s0 hn hfuel
    have hm := main_foundOffsets D os now fuel n outfile data buf0 name0 s0 hn hfuel
    refine ⟨hm, ?_, ?_⟩
    · rw [hm, List.map_take]
      exact h2.sublist (List.take_sublist _ _)
    · rw [hm, List.length_map, List.length_take]
      omega

/-! ## The payload loop of `gzextract` -/

theorem getLast_cons_of_some (a : List Nat) (l : List (List Nat)) (x : List Nat)
    (h : l.getLast? = some x) : (a :: l).getLast? = some x := by
  cases l with
  | nil => simp at h
  | cons b t => rw [List.getLast?_cons_cons]; exact h

/-- Whatever the payload loop returns, the chunks it reports were written in
full, one after the other; and it returns 0 only from a pass in which the
engine answered `Z_STREAM_END`, whose chunk is the last one written. -/
theorem gzextractLoop_result {σ : Type} (D : Decoder σ) (os : OS) (gzname : List Nat) :
    ∀ (fuel : Nat) (rs : rstate) (z : z_stream σ) (w : List (List Nat)) (err : Nat)
      (rs' : rstate) (z' : z_stream σ) (w' : List (List Nat)),
      gzextractLoop D os gzname fuel rs z w = some (err, rs', z', w') →
      (err = 0 ∨ err = 1) ∧
      ∃ cs, w' = w ++ cs ∧ WrittenInFull os w cs ∧
        (err = 0 → ∃ st input,
          (D.inflate st input BUFSIZE Z_NO_FLUSH gzname).ret = Z_STREAM_END ∧
          z'.state = (D.inflate st input BUFSIZE Z_NO_FLUSH gzname).state ∧
          cs.getLast? = some ((D.inflate st input BUFSIZE Z_NO_FLUSH gzname).output.take BUFSIZE)) := by
  intro fuel
  induction fuel with
  | zero => intro rs z w err rs' z' w' h; simp [gzextractLoop] at h
  | succ n ih =>
    intro rs z w err rs' z' w' h
    rw [gzextractLoop] at h
    have hnil : ∀ e : Nat, e = 1 → (e = 0 ∨ e = 1) ∧ ∃ cs, w = w ++ cs ∧ WrittenInFull os w cs ∧
        (e = 0 → ∃ st input,
          (D.inflate st input BUFSIZE Z_NO_FLUSH gzname).ret = Z_STREAM_END ∧
          z'.state = (D.inflate st input BUFSIZE Z_NO_FLUSH gzname).state ∧
          cs.getLast? = some ((D.inflate st input BUFSIZE Z_NO_FLUSH gzname).output.take BUFSIZE)) :=
      fun e he => ⟨Or.inr he, [], by simp, trivial, fun h0 => by omega⟩
    by_cases c1 : (D.inflate z.state (window rs) BUFSIZE Z_NO_FLUSH gzname).ret ≠ Z_OK ∧
        (D.inflate z.state (window rs) BUFSIZE Z_NO_FLUSH gzname).ret ≠ Z_BUF_ERROR ∧
        (D.inflate z.state (window rs) BUFSIZE Z_NO_FLUSH gzname).ret ≠ Z_STREAM_END
    · rw [if_pos c1] at h
      cases h
      exact hnil 1 rfl
    · rw [if_neg c1] at h
      by_cases c2 : os.write w
          ((D.inflate z.state (window rs) BUFSIZE Z_NO_FLUSH gzname).output.take BUFSIZE) ≠
          ((((D.inflate z.state (window rs) BUFSIZE Z_NO_FLUSH gzname).output.take
            BUFSIZE).length : Nat) : Int)
      · rw [if_pos c2] at h
        cases h
        exact hnil 1 rfl
      · rw [if_neg c2] at h
        have hwr := not_not.mp c2
        have hone : ∀ e : Nat, (e = 0 ∨ e = 1) →
            (e = 0 → (D.inflate z.state (window rs) BUFSIZE Z_NO_FLUSH gzname).ret = Z_STREAM_END ∧
              z'.state = (D.inflate z.state (window rs) BUFSIZE Z_NO_FLUSH gzname).state) →
            (e = 0 ∨ e = 1) ∧ ∃ cs,
              w ++ [(D.inflate z.state (window rs) BUFSIZE Z_NO_FLUSH gzname).output.take BUFSIZE] =
                w ++ cs ∧ WrittenInFull os w cs ∧
              (e = 0 → ∃ st input,
                (D.inflate st input BUFSIZE Z_NO_FLUSH gzname).ret = Z_STREAM_END ∧
                z'.state = (D.inflate st input BUFSIZE Z_NO_FLUSH gzname).state ∧
                cs.getLast? =
                  some ((D.inflate st input BUFSIZE Z_NO_FLUSH gzname).output.take BUFSIZE)) :=
          fun e he h0 => ⟨he, [_], rfl, ⟨hwr, trivial⟩,
            fun h00 => ⟨z.state, window rs, (h0 h00).1, (h0 h00).2, rfl⟩⟩
        have hrec : ∀ rsx zx, gzextractLoop D os gzname n rsx zx
            (w ++ [(D.inflate z.state (window rs) BUFSIZE Z_NO_FLUSH gzname).output.take BUFSIZE]) =
              some (err, rs', z', w') →
            (err = 0 ∨ err = 1) ∧ ∃ cs, w' = w ++ cs ∧ WrittenInFull os w cs ∧
              (err = 0 → ∃ st input,
                (D.inflate st input BUFSIZE Z_NO_FLUSH gzname).ret = Z_STREAM_END ∧
                z'.state = (D.inflate st input BUFSIZE Z_NO_FLUSH gzname).state ∧
                cs.getLast? =
                  some ((D.inflate st input BUFSIZE Z_NO_FLUSH gzname).output.take BUFSIZE)) := by
          intro rsx zx hx
          obtain ⟨he, cs, hcs, hfull, hend⟩ := ih rsx zx _ err rs' z' w' hx
          refine ⟨he, _ :: cs, by rw [hcs, List.append_assoc]; rfl, ⟨hwr, hfull⟩, fun h0 => ?_⟩
          obtain ⟨st, input, a1, a2, a3⟩ := hend h0
          exact ⟨st, input, a1, a2, getLast_cons_of_some _ _ _ a3⟩
        by_cases c3 : BUFSIZE -
            ((D.inflate z.state (window rs) BUFSIZE Z_NO_FLUSH gzname).output.take BUFSIZE).length = 0
        · rw [if_pos c3] at h
          exact hrec _ _ h
        · rw [if_neg c3] at h
          by_cases c4 : (D.inflate z.state (window rs) BUFSIZE Z_NO_FLUSH gzname).ret = Z_STREAM_END
          · rw [if_pos c4] at h
            cases h
            exact hone 0 (Or.inl rfl) (fun _ => ⟨c4, rfl⟩)
          · rw [if_neg c4] at h
            rcases hrr : rsread (consume rs
                (D.inflate z.state (window rs) BUFSIZE Z_NO_FLUSH gzname).consumed)
                (some (consume rs
                  (D.inflate z.state (window rs) BUFSIZE Z_NO_FLUSH gzname).consumed).next_in)
              with ⟨c, rs2⟩
            rw [hrr] at h
            cases c with
            | zero =>
              simp only at h
              by_cases c5 : rs2.avail_in = 0
              · rw [if_pos c5] at h
                cases h
                exact hone 1 (Or.inr rfl) (fun h0 => by omega)
              · rw [if_neg c5] at h
                exact hrec _ _ h
            | succ c =>
              simp only at h
              cases h
              exact hone 1 (Or.inr rfl) (fun h0 => by omega)

/-- The header pass of `starveDecoder` over a window that starts with
`validHeader`: it takes the ten bytes and reports the header done. -/
theorem starveDecoder_header (input name : List Nat)
    (hw : feedHeader [] input = (10, validHeader)) :
    starveDecoder.inflate [] input 0 Z_BLOCK name =
      { ret := Z_OK, consumed := 10, output := [], state := validHeader, done := 1,
        name := name } := by
  have h1 : ¬ (headerComplete [] = true ∧ input = []) := by
    intro h
    exact absurd h.1 (by decide)
  have h2 : ¬ (headerComplete [] = true) := by decide
  simp only [starveDecoder, headerDecoder, h1, h2, if_false, hw]
  rfl

/-- In the payload phase `starveDecoder` answers an empty input with
`Z_BUF_ERROR`. -/
theorem starveDecoder_payload (name : List Nat) :
    starveDecoder.inflate validHeader [] BUFSIZE Z_NO_FLUSH name =
      { ret := Z_BUF_ERROR, consumed := 0, output := [], state := validHeader, done := 1,
        name := name } := by
  have h1 : headerComplete validHeader = true ∧ ([] : List Nat) = [] := ⟨by decide, rfl⟩
  simp only [starveDecoder, h1, and_self, if_true]

/-- With `starveDecoder`, `gzinit` over a window that starts with `validHeader`
returns 0 after two passes of its loop, having consumed the ten bytes. -/
theorem gzinit_starveDecoder (rs : rstate) (name0 : List Nat)
    (hw : feedHeader [] (window rs) = (10, validHeader)) :
    gzinit starveDecoder 0 rs (freshStream []) name0 NAMELEN = none ∧
    gzinit starveDecoder 1 rs (freshStream []) name0 NAMELEN = none ∧
    ∀ n, gzinit starveDecoder (n + 2) rs (freshStream []) name0 NAMELEN =
      some { ret := 0, rs := consume rs 10,
             z := { state := validHeader, zalloc := true, zfree := true },
             name := (name0.set 0 0).set (NAMELEN - 1) 0 } := by
  have e1 : gzinitStart starveDecoder (freshStream ([] : List Nat)) =
      (0, { state := [], zalloc := true, zfree := true }) := rfl
  have e2 : starveDecoder.inflateGetHeader [] = (0, []) := rfl
  have hi := starveDecoder_header (window rs) (name0.set 0 0) hw
  have hb : (Z_OK = Z_BUF_ERROR) = False := eq_false (by decide)
  have hz : (Z_OK = 0) = True := eq_true rfl
  refine ⟨?_, ?_, fun n => ?_⟩
  · simp only [gzinit, e1, e2, ne_eq, not_true_eq_false, if_false, gzinitLoop]
  · simp only [gzinit, e1, e2, ne_eq, not_true_eq_false, if_false, gzinitLoop, hi, hb, hz,
      not_false_eq_true, if_true]
  · simp only [gzinit, e1, e2, ne_eq, not_true_eq_false, if_false, gzinitLoop, hi, hb, hz,
      not_false_eq_true, if_true]
    rfl

/-- One pass of the payload loop, case by case, with `r` what the engine
answered, `out` the chunk it produced and `rs1` the window after it: a return
code other than `Z_OK`, `Z_BUF_ERROR` and `Z_STREAM_END` ends the loop with 1,
so does a short write; a full output buffer leads to the next pass;
`Z_STREAM_END` ends the loop with 0; otherwise the window is refilled from
`next_in`, and the loop ends with 1 when the refill fails or leaves the
window empty, and goes on otherwise. -/
theorem gzextractLoop_pass {σ : Type} (D : Decoder σ) (os : OS) (gzname : List Nat) (fuel : Nat)
    (rs : rstate) (z : z_stream σ) (w : List (List Nat)) (r : InflateResult σ) (out : List Nat)
    (rs1 : rstate) (z1 : z_stream σ)
    (hr : r = D.inflate z.state (window rs) BUFSIZE Z_NO_FLUSH gzname)
    (hout : out = r.output.take BUFSIZE) (hrs1 : rs1 = consume rs r.consumed)
    (hz1 : z1 = { z with state := r.state }) :
    ((r.ret ≠ Z_OK ∧ r.ret ≠ Z_BUF_ERROR ∧ r.ret ≠ Z_STREAM_END) →
      gzextractLoop D os gzname (fuel + 1) rs z w = some (1, rs1, z1, w)) ∧
    ((r.ret = Z_OK ∨ r.ret = Z_BUF_ERROR ∨ r.ret = Z_STREAM_END) →
      (os.write w out ≠ (out.length : Int) →
        gzextractLoop D os gzname (fuel + 1) rs z w = some (1, rs1, z1, w)) ∧
      (os.write w out = (out.length : Int) →
        (out.length = BUFSIZE →
          gzextractLoop D os gzname (fuel + 1) rs z w =
            gzextractLoop D os gzname fuel rs1 z1 (w ++ [out])) ∧
        (out.length < BUFSIZE →
          (r.ret = Z_STREAM_END →
            gzextractLoop D os gzname (fuel + 1) rs z w = some (0, rs1, z1, w ++ [out])) ∧
          (r.ret ≠ Z_STREAM_END →
            (∀ rs2, (rsread rs1 (some rs1.next_in)).1 ≠ 0 → (rsread rs1 (some rs1.next_in)).2 = rs2 →
              gzextractLoop D os gzname (fuel + 1) rs z w = some (1, rs2, z1, w ++ [out])) ∧
            (∀ rs2, rsread rs1 (some rs1.next_in) = (0, rs2) →
              (rs2.avail_in = 0 →
                gzextractLoop D os gzname (fuel + 1) rs z w = some (1, rs2, z1, w ++ [out])) ∧
              (rs2.avail_in ≠ 0 →
                gzextractLoop D os gzname (fuel + 1) rs z w =
                  gzextractLoop D os gzname fuel rs2 z1 (w ++ [out]))))))) := by
  subst hout hrs1 hz1
  subst hr
  refine ⟨fun c1 => ?_, fun c1 => ⟨fun c2 => ?_, fun c2 => ⟨fun c3 => ?_, fun c3 =>
    ⟨fun c4 => ?_, fun c4 => ⟨fun rs2 c5 e => ?_, fun rs2 e => ⟨fun c6 => ?_, fun c6 => ?_⟩⟩⟩⟩⟩⟩
  · rw [gzextractLoop, if_pos c1]
  · have n1 : ¬ ((D.inflate z.state (window rs) BUFSIZE Z_NO_FLUSH gzname).ret ≠ Z_OK ∧
        (D.inflate z.state (window rs) BUFSIZE Z_NO_FLUSH gzname).ret ≠ Z_BUF_ERROR ∧
        (D.inflate z.state (window rs) BUFSIZE Z_NO_FLUSH gzname).ret ≠ Z_STREAM_END) := by
      tauto
    rw [gzextractLoop, if_neg n1, if_pos c2]
  all_goals
    have n1 : ¬ ((D.inflate z.state (window rs) BUFSIZE Z_NO_FLUSH gzname).ret ≠ Z_OK ∧
        (D.inflate z.state (window rs) BUFSIZE Z_NO_FLUSH gzname).ret ≠ Z_BUF_ERROR ∧
        (D.inflate z.state (window rs) BUFSIZE Z_NO_FLUSH gzname).ret ≠ Z_STREAM_END) := by
      tauto
    have n2 : ¬ (os.write w ((D.inflate z.state (window rs) BUFSIZE Z_NO_FLUSH gzname).output.take
        BUFSIZE) ≠ ((((D.inflate z.state (window rs) BUFSIZE Z_NO_FLUSH gzname).output.take
          BUFSIZE).length : Nat) : Int)) := not_not.mpr c2
    rw [gzextractLoop, if_neg n1, if_neg n2]
  · rw [if_pos (by omega)]
  · rw [if_neg (by omega), if_pos c4]
  · rw [if_neg (by omega), if_neg c4]
    rcases hrr : rsread (consume rs (D.inflate z.state (window rs) BUFSIZE Z_NO_FLUSH gzname).consumed)
        (some (consume rs
          (D.inflate z.state (window rs) BUFSIZE Z_NO_FLUSH gzname).consumed).next_in) with ⟨c, rsx⟩
    rw [hrr] at c5 e
    simp only at c5 e
    subst e
    cases c with
    | zero => exact absurd rfl c5
    | succ c => rfl
  · rw [if_neg (by omega), if_neg c4, e]
    simp only
    rw [if_pos c6]
  · rw [if_neg (by omega), if_neg c4, e]
    simp only
    rw [if_neg c6]

/-- A pass in which the engine has consumed its whole input, asks for more
(neither an error nor the end of the member, the output buffer not full), and
the source is at its end: the refill leaves the window empty and the loop
ends with 1. -/
theorem gzextractLoop_starved {σ : Type} (D : Decoder σ) (os : OS) (gzname : List Nat)
    (fuel : Nat) (rs : rstate) (z : z_stream σ) (w : List (List Nat))
    (hret : (D.inflate z.state (window rs) BUFSIZE Z_NO_FLUSH gzname).ret = Z_OK ∨
      (D.inflate z.state (window rs) BUFSIZE Z_NO_FLUSH gzname).ret = Z_BUF_ERROR)
    (hwrite : os.write w ((D.inflate z.state (window rs) BUFSIZE Z_NO_FLUSH gzname).output.take
      BUFSIZE) = ((((D.inflate z.state (window rs) BUFSIZE Z_NO_FLUSH gzname).output.take
        BUFSIZE).length : Nat) : Int))
    (hout : ((D.inflate z.state (window rs) BUFSIZE Z_NO_FLUSH gzname).output.take
      BUFSIZE).length < BUFSIZE)
    (hall : rs.avail_in ≤ (D.inflate z.state (window rs) BUFSIZE Z_NO_FLUSH gzname).consumed)
    (hR : rs.fd.rest = []) (hf : rs.fd.failing = false) :
    ∃ rs2, gzextractLoop D os gzname (fuel + 1) rs z w =
      some (1, rs2, { z with state := (D.inflate z.state (window rs) BUFSIZE Z_NO_FLUSH gzname).state },
        w ++ [(D.inflate z.state (window rs) BUFSIZE Z_NO_FLUSH gzname).output.take BUFSIZE]) := by
  have hp := (gzextractLoop_pass D os gzname fuel rs z w _ _ _ _ rfl rfl rfl rfl).2
    (by rcases hret with h | h
        · exact Or.inl h
        · exact Or.inr (Or.inl h))
  have hne : (D.inflate z.state (window rs) BUFSIZE Z_NO_FLUSH gzname).ret ≠ Z_STREAM_END := by
    rcases hret with h | h <;> rw [h] <;> decide
  have ha1 : (consume rs (D.inflate z.state (window rs) BUFSIZE Z_NO_FLUSH gzname).consumed).avail_in
      = 0 := by
    simp only [consume]
    omega
  obtain ⟨rs2, e1, e2, -⟩ := rsread_starved
    (consume rs (D.inflate z.state (window rs) BUFSIZE Z_NO_FLUSH gzname).consumed) ha1 hR hf
  exact ⟨rs2, ((((hp.2 hwrite).2 hout).2 hne).2 rs2 e1).1 e2⟩

/-- Over `validHeader` alone, a member without payload, `gzextract` with
`starveDecoder` fails: the engine asks for more input with the window empty,
and the refill reads nothing. -/
theorem gzextract_starved_run (buf0 name0 : List Nat) (n : Nat) :
    ∃ e, gzextract starveDecoder plainOS (n + 2) name0 none
      (refilled (initState validHeader buf0)) (freshStream []) = some e ∧ e.ret = 1 ∧
      e.written = [[]] := by
  have h := header_at_start GZ_FIND_STRICT 0 validHeader buf0 (by decide) (by decide) rfl
    (gzcheck_validHeader _ _)
  obtain ⟨hw, ha, hR, hf, -⟩ := header_at_start_state validHeader buf0 h.2
  obtain ⟨-, -, g2⟩ := gzinit_starveDecoder (refilled (initState validHeader buf0)) name0
    (by rw [hw]; rfl)
  have ha1 : (consume (refilled (initState validHeader buf0)) 10).avail_in = 0 := by
    simp only [consume, ha]
    decide
  have hwin : window (consume (refilled (initState validHeader buf0)) 10) = [] := by
    simp only [window, ha1, List.take_zero]
  have hp := starveDecoder_payload ((name0.set 0 0).set (NAMELEN - 1) 0)
  rw [← hwin] at hp
  obtain ⟨rs2, hl⟩ := gzextractLoop_starved starveDecoder plainOS
    ((name0.set 0 0).set (NAMELEN - 1) 0) (n + 1)
    (consume (refilled (initState validHeader buf0)) 10)
    { state := validHeader, zalloc := true, zfree := true } []
    (by rw [hp]; exact Or.inr rfl) (by rw [hp]; rfl)
    (by rw [hp]; exact (by decide : (List.take BUFSIZE ([] : List Nat)).length < BUFSIZE))
    (by rw [ha1]; exact Nat.zero_le _) hR hf
  rw [hp] at hl
  have ho : ∀ a b, plainOS.openOut a b = true := fun _ _ => rfl
  unfold gzextract
  rw [g2]
  dsimp only
  rw [if_neg (by decide), ho, if_neg (by decide), hl]
  exact ⟨_, rfl, rfl, rfl⟩

/-- What `gzextract` returns: 0 or 1; the chunks it reports were written in
full; and 0 only when closing the output succeeded and the last pass of the
payload loop was one in which the engine answered `Z_STREAM_END`. -/
theorem gzextract_result {σ : Type} (D : Decoder σ) (os : OS) (fuel : Nat) (name0 : List Nat)
    (username : Option (List Nat)) (rs : rstate) (z : z_stream σ) (e : ExtractResult σ)
    (he : gzextract D os fuel name0 username rs z = some e) :
    (e.ret = 0 ∨ e.ret = 1) ∧ WrittenInFull os [] e.written ∧
    (e.ret = 0 → os.closeOutFails = false ∧ ∃ st input gzname,
      (D.inflate st input BUFSIZE Z_NO_FLUSH gzname).ret = Z_STREAM_END ∧
      e.z.state = (D.inflate st input BUFSIZE Z_NO_FLUSH gzname).state ∧
      e.written.getLast? = some ((D.inflate st input BUFSIZE Z_NO_FLUSH gzname).output.take BUFSIZE)) := by
  unfold gzextract at he
  cases hg : gzinit D fuel rs z name0 NAMELEN with
  | none => rw [hg] at he; cases he
  | some i =>
    rw [hg] at he
    dsimp only at he
    by_cases c1 : i.ret ≠ 0
    · rw [if_pos c1] at he
      cases he
      exact ⟨Or.inr rfl, trivial, fun h => by cases h⟩
    · rw [if_neg c1] at he
      by_cases c2 : os.openOut (outputSettings username i.name).1
          (outputSettings username i.name).2 = false
      · rw [if_pos c2] at he
        cases he
        exact ⟨Or.inr rfl, trivial, fun h => by cases h⟩
      · rw [if_neg c2] at he
        cases hl : gzextractLoop D os i.name fuel i.rs i.z [] with
        | none => rw [hl] at he; cases he
        | some v =>
          obtain ⟨err, rs1, z1, written⟩ := v
          rw [hl] at he
          dsimp only at he
          cases he
          obtain ⟨h01, cs, hcs, hfull, hend⟩ :=
            gzextractLoop_result D os i.name fuel i.rs i.z [] err rs1 z1 written hl
          rw [List.nil_append] at hcs
          subst hcs
          refine ⟨?_, hfull, fun h0 => ?_⟩
          · show (if os.closeOutFails = true then 1 else err) = 0 ∨
              (if os.closeOutFails = true then 1 else err) = 1
            split_ifs
            · exact Or.inr rfl
            · exact h01
          · have h0' : (if os.closeOutFails = true then 1 else err) = 0 := h0
            by_cases hc : os.closeOutFails = true
            · rw [if_pos hc] at h0'; cases h0'
            · rw [if_neg hc] at h0'
              obtain ⟨st, input, a1, a2, a3⟩ := hend h0'
              exact ⟨by simpa using hc, st, input, i.name, a1, a2, a3⟩

/-- After a successful refill from `next_in` the window holds what it held
before and the bytes newly read: `avail_in` grows by as much as the file
position. -/
theorem rsread_avail (rs rs2 : rstate) (h : rsread rs (some rs.next_in) = (0, rs2)) :
    rs.fd.pos ≤ rs2.fd.pos ∧ rs2.avail_in = rs.avail_in + (rs2.fd.pos - rs.fd.pos) := by
  cases hf : rs.fd.failing with
  | true =>
    have := rsread_failing rs (some rs.next_in) hf
    rw [h] at this
    cases this
  | false =>
    rw [rsread_some_ok rs _ hf] at h
    cases h
    simp only [refilledFrom, advance_pos_take, zsend]
    omega

/-- A pass in which the engine needs more input (it has consumed its whole
input, without an error, without reaching the end of the member and without
filling the output buffer) and the refill obtains no new byte from the source:
the loop ends with 1. -/
theorem gzextractLoop_no_new_bytes {σ : Type} (D : Decoder σ) (os : OS) (gzname : List Nat)
    (n : Nat) (rs1 : rstate) (z1 : z_stream σ) (w : List (List Nat)) (rs2 : rstate)
    (hret : (passResult D gzname rs1 z1).ret = Z_OK ∨
      (passResult D gzname rs1 z1).ret = Z_BUF_ERROR)
    (hwrite : os.write w (passChunk D gzname rs1 z1) = ((passChunk D gzname rs1 z1).length : Int))
    (hout : (passChunk D gzname rs1 z1).length < BUFSIZE)
    (hall : (passWindow D gzname rs1 z1).avail_in = 0)
    (hread : rsread (passWindow D gzname rs1 z1) (some (passWindow D gzname rs1 z1).next_in) =
      (0, rs2))
    (hnew : rs2.fd.pos = (passWindow D gzname rs1 z1).fd.pos) :
    gzextractLoop D os gzname (n + 1) rs1 z1 w =
      some (1, rs2, passStream D gzname rs1 z1, w ++ [passChunk D gzname rs1 z1]) := by
  have hp := (gzextractLoop_pass D os gzname n rs1 z1 w (passResult D gzname rs1 z1)
    (passChunk D gzname rs1 z1) (passWindow D gzname rs1 z1) (passStream D gzname rs1 z1)
    rfl rfl rfl rfl).2
    (by rcases hret with h | h
        · exact Or.inl h
        · exact Or.inr (Or.inl h))
  have hne : (passResult D gzname rs1 z1).ret ≠ Z_STREAM_END := by
    rcases hret with h | h <;> rw [h] <;> decide
  have ha := (rsread_avail _ _ hread).2
  rw [hall, hnew, Nat.sub_self] at ha
  exact ((((hp.2 hwrite).2 hout).2 hne).2 rs2 hread).1 ha

/-- C16. For every engine, file system, input and window state: `gzextract`
returns 0 or 1, and 0 only if the engine answered `Z_STREAM_END` (in the last
pass of the payload loop), every chunk it reports was written in full and
closing the output succeeded. When the engine needs more input, that is, it
has consumed its whole input (`avail_in = 0` after the call) without an error,
without reaching the end of the member and without filling the output buffer,
and the refill obtains no new byte from the source (the file position does not
move; so at the end of the file), the loop ends with 1 and `gzextract` returns
failure. In each pass a return code other than `Z_OK`, `Z_BUF_ERROR` and
`Z_STREAM_END` ends the loop with 1, and so does a short write or a failed
read; a full output buffer leads to the next pass; `Z_STREAM_END` ends the
loop with 0. Whatever the loop ends with, `gzextract` returns it, or 1 when
closing the output fails. Over a member cut off right after its header, with
an engine that answers the empty input with `Z_BUF_ERROR`, the run fails in
this way. -/
theorem gzextract_outcomes {σ : Type} (D : Decoder σ) (os : OS) (fuel : Nat) (name0 : List Nat)
    (username : Option (List Nat)) (rs : rstate) (z : z_stream σ) :
    (∀ e, gzextract D os fuel name0 username rs z = some e →
      (e.ret = 0 ∨ e.ret = 1) ∧ WrittenInFull os [] e.written ∧
      (e.ret = 0 → os.closeOutFails = false ∧ ∃ st input gzname,
        (D.inflate st input BUFSIZE Z_NO_FLUSH gzname).ret = Z_STREAM_END ∧
        e.z.state = (D.inflate st input BUFSIZE Z_NO_FLUSH gzname).state ∧
        e.written.getLast? =
          some ((D.inflate st input BUFSIZE Z_NO_FLUSH gzname).output.take BUFSIZE))) ∧
    (∀ (gzname : List Nat) (n : Nat) (rs1 : rstate) (z1 : z_stream σ) (w : List (List Nat)),
      (((passResult D gzname rs1 z1).ret ≠ Z_OK ∧ (passResult D gzname rs1 z1).ret ≠ Z_BUF_ERROR ∧
          (passResult D gzname rs1 z1).ret ≠ Z_STREAM_END) →
        gzextractLoop D os gzname (n + 1) rs1 z1 w =
          some (1, passWindow D gzname rs1 z1, passStream D gzname rs1 z1, w)) ∧
      (((passResult D gzname rs1 z1).ret = Z_OK ∨ (passResult D gzname rs1 z1).ret = Z_BUF_ERROR ∨
          (passResult D gzname rs1 z1).ret = Z_STREAM_END) →
        (os.write w (passChunk D gzname rs1 z1) ≠ ((passChunk D gzname rs1 z1).length : Int) →
          gzextractLoop D os gzname (n + 1) rs1 z1 w =
            some (1, passWindow D gzname rs1 z1, passStream D gzname rs1 z1, w)) ∧
        (os.write w (passChunk D gzname rs1 z1) = ((passChunk D gzname rs1 z1).length : Int) →
          ((passChunk D gzname rs1 z1).length = BUFSIZE →
            gzextractLoop D os gzname (n + 1) rs1 z1 w =
              gzextractLoop D os gzname n (passWindow D gzname rs1 z1)
                (passStream D gzname rs1 z1) (w ++ [passChunk D gzname rs1 z1])) ∧
          ((passChunk D gzname rs1 z1).length < BUFSIZE →
            ((passResult D gzname rs1 z1).ret = Z_STREAM_END →
              gzextractLoop D os gzname (n + 1) rs1 z1 w =
                some (0, passWindow D gzname rs1 z1, passStream D gzname rs1 z1,
                  w ++ [passChunk D gzname rs1 z1])) ∧
            ((passResult D gzname rs1 z1).ret ≠ Z_STREAM_END →
              (∀ rs2,
                (rsread (passWindow D gzname rs1 z1)
                  (some (passWindow D gzname rs1 z1).next_in)).1 ≠ 0 →
                (rsread (passWindow D gzname rs1 z1)
                  (some (passWindow D gzname rs1 z1).next_in)).2 = rs2 →
                gzextractLoop D os gzname (n + 1) rs1 z1 w =
                  some (1, rs2, passStream D gzname rs1 z1, w ++ [passChunk D gzname rs1 z1])) ∧
              (∀ rs2,
                rsread (passWindow D gzname rs1 z1)
                  (some (passWindow D gzname rs1 z1).next_in) = (0, rs2) →
                (rs2.avail_in = 0 →
                  gzextractLoop D os gzname (n + 1) rs1 z1 w =
                    some (1, rs2, passStream D gzname rs1 z1,
                      w ++ [passChunk D gzname rs1 z1])) ∧
                (rs2.avail_in ≠ 0 →
                  gzextractLoop D os gzname (n + 1) rs1 z1 w =
                    gzextractLoop D os gzname n rs2 (passStream D gzname rs1 z1)
                      (w ++ [passChunk D gzname rs1 z1])))))))) ∧
    (∀ (gzname : List Nat) (n : Nat) (rs1 : rstate) (z1 : z_stream σ) (w : List (List Nat))
        (rs2 : rstate),
      ((passResult D gzname rs1 z1).ret = Z_OK ∨ (passResult D gzname rs1 z1).ret = Z_BUF_ERROR) →
      os.write w (passChunk D gzname rs1 z1) = ((passChunk D gzname rs1 z1).length : Int) →
      (passChunk D gzname rs1 z1).length < BUFSIZE →
      (passWindow D gzname rs1 z1).avail_in = 0 →
      rsread (passWindow D gzname rs1 z1) (some (passWindow D gzname rs1 z1).next_in) =
        (0, rs2) →
      rs2.fd.pos = (passWindow D gzname rs1 z1).fd.pos →
      gzextractLoop D os gzname (n + 1) rs1 z1 w =
        some (1, rs2, passStream D gzname rs1 z1, w ++ [passChunk D gzname rs1 z1])) ∧
    (∀ (gzname : List Nat) (n : Nat) (rs1 : rstate) (z1 : z_stream σ) (w : List (List Nat)),
      ((passResult D gzname rs1 z1).ret = Z_OK ∨ (passResult D gzname rs1 z1).ret = Z_BUF_ERROR) →
      os.write w (passChunk D gzname rs1 z1) = ((passChunk D gzname rs1 z1).length : Int) →
      (passChunk D gzname rs1 z1).length < BUFSIZE →
      rs1.avail_in ≤ (passResult D gzname rs1 z1).consumed →
      rs1.fd.rest = [] → rs1.fd.failing = false →
      ∃ rs2, gzextractLoop D os gzname (n + 1) rs1 z1 w =
        some (1, rs2, passStream D gzname rs1 z1, w ++ [passChunk D gzname rs1 z1])) ∧
    (∀ i err rs1 z1 w, gzinit D fuel rs z name0 NAMELEN = some i → i.ret = 0 →
      os.openOut (outputSettings username i.name).1 (outputSettings username i.name).2 = true →
      gzextractLoop D os i.name fuel i.rs i.z [] = some (err, rs1, z1, w) →
      ∃ e, gzextract D os fuel name0 username rs z = some e ∧
        e.ret = (if os.closeOutFails then 1 else err) ∧ e.written = w) ∧
    (∀ (buf0 name1 : List Nat) (n : Nat),
      ∃ e, gzextract starveDecoder plainOS (n + 2) name1 none
        (refilled (initState validHeader buf0)) (freshStream []) = some e ∧ e.ret = 1 ∧
        e.written = [[]]) := by
  refine ⟨fun e he => gzextract_result D os fuel name0 username rs z e he,
    fun gzname n rs1 z1 w => gzextractLoop_pass D os gzname n rs1 z1 w _ _ _ _ rfl rfl rfl rfl,
    fun gzname n rs1 z1 w rs2 h1 h2 h3 h4 h5 h6 =>
      gzextractLoop_no_new_bytes D os gzname n rs1 z1 w rs2 h1 h2 h3 h4 h5 h6,
    fun gzname n rs1 z1 w h1 h2 h3 h4 h5 h6 =>
      gzextractLoop_starved D os gzname n rs1 z1 w h1 h2 h3 h4 h5 h6,
    ?_, fun buf0 name1 n => gzextract_starved_run buf0 name1 n⟩
  intro i err rs1 z1 w hg hi ho hl
  have hx : gzextract D os fuel name0 username rs z =
      some { ret := if os.closeOutFails then 1 else err, rs := rs1, z := z1,
             opened := some (outputSettings username i.name), written := w } := by
    unfold gzextract
    rw [hg]
    dsimp only
    rw [if_neg (by rw [hi]; exact fun h => h rfl), ho, if_neg (by decide), hl]
  exact ⟨_, hx, rfl, rfl⟩

/-! ## Scans over an input that fits in the buffer -/

theorem rebase_zsend (rs : rstate) : zsend (rebase rs) = zsend rs := by
  simp [rebase, zsend]

/-- At the end of the file the loop of `gzfind` does not depend on where the
window starts, only on where it ends and on the scan pointer: it returns the
same code, and on success the same state. -/
theorem gzfindLoop_rebase (flags : Nat) (now : Int) :
    ∀ (fuel : Nat) (rs : rstate) (p : Nat) (r : Nat × rstate),
      rs.fd.rest = [] → rs.fd.failing = false → rs.next_in ≤ p →
      gzfindLoop flags now fuel (rebase rs) p = some r →
      (r.1 = 0 ∨ r.1 = 1) ∧ (r.1 = 0 → gzfindLoop flags now fuel rs p = some r) ∧
      (r.1 = 1 → ∃ rs', gzfindLoop flags now fuel rs p = some (1, rs')) := by
  intro fuel
  induction fuel with
  | zero => intro rs p r _ _ _ h; simp [gzfindLoop] at h
  | succ n ih =>
    intro rs p r hR hf hp h
    have hz := rebase_zsend rs
    have hR0 : (rebase rs).fd.rest = [] := hR
    have hf0 : (rebase rs).fd.failing = false := hf
    rw [gzfindLoop_succ] at h ⊢
    by_cases hlt : p < zsend rs
    · rw [fill_lt _ p (by rw [hz]; exact hlt)] at h
      rw [fill_lt rs p hlt]
      simp only at h ⊢
      have hbuf : (rebase rs).buf = rs.buf := rfl
      rw [hbuf, hz] at h
      cases hmem : memchr rs.buf p 0x1f (zsend rs - p) with
      | none =>
        simp only [hmem] at h ⊢
        exact ih rs (zsend rs) r hR hf (by simp only [zsend]; omega) h
      | some q =>
        simp only [hmem] at h ⊢
        have hb := memchr_bounds _ _ _ _ _ hmem
        by_cases hfit : q + GZ_HDR_LEN ≤ zsend rs
        · rw [header_fit _ q (by rw [hz]; exact hfit)] at h
          rw [header_fit rs q hfit]
          simp only at h ⊢
          rw [hbuf] at h
          by_cases hc : gzcheck (rs.buf.drop q) flags now = 0
          · rw [if_pos hc] at h ⊢
            cases h
            refine ⟨Or.inl rfl, fun _ => ?_, fun h1 => by cases h1⟩
            congr 2
            simp only [rebase, zsend, GZ_HDR_LEN] at hfit ⊢
            cases rs
            simp only [rstate.mk.injEq, true_and]
            simp only at hp hb hfit
            omega
          · rw [if_neg hc] at h ⊢
            exact ih rs (q + 1) r hR hf (by omega) h
        · have hlt2 : zsend rs < q + GZ_HDR_LEN := Nat.not_le.mp hfit
          have hshort : ∀ x : rstate, x.fd.rest = [] → zsend x = zsend rs →
              ¬ (GZ_HDR_LEN ≤ (refilledFrom x q).avail_in) := by
            intro x hx hzx
            simp only [refilledFrom, hzx, next_eof _ _ hx, List.length_nil, GZ_HDR_LEN] at hlt2 ⊢
            omega
          rw [header_refill _ q (by rw [hz]; exact hlt2) hf0, if_neg (hshort _ hR0 hz)] at h
          rw [header_refill rs q hlt2 hf, if_neg (hshort rs hR rfl)]
          simp only at h ⊢
          cases h
          exact ⟨Or.inr rfl, fun h1 => (by cases h1), fun _ => ⟨_, rfl⟩⟩
    · have hge : zsend rs ≤ p := Nat.not_lt.mp hlt
      rw [fill_eof _ p (by rw [hz]; exact hge) hf0 hR0] at h
      rw [fill_eof rs p hge hf hR]
      simp only at h ⊢
      cases h
      exact ⟨Or.inr rfl, fun h1 => (by cases h1), fun _ => ⟨_, rfl⟩⟩

theorem tail_streamOff (rs : rstate) (data : List Nat) (k : Nat) (h : Tail rs data k) :
    streamOff rs = k := by
  obtain ⟨-, h2, h3, -, -, -, -, h8⟩ := h
  simp only [streamOff, h2, h8]
  omega

/-- The indices `a + t` of `W` and `k + t` of `D` are candidates together when
`W` from `a` on is `D` from `k` on. -/
theorem validAt_shift (flags : Nat) (now : Int) (W D : List Nat) (a k t : Nat)
    (hd : W.drop a = D.drop k) (ha : a ≤ W.length) (hk : k ≤ D.length) :
    validAt flags now W (a + t) ↔ validAt flags now D (k + t) := by
  have hlen : W.length - a = D.length - k := by
    have := congrArg List.length hd
    simpa [List.length_drop] using this
  have hb : byteAt W (a + t) = byteAt D (k + t) := by
    rw [← byteAt_drop, ← byteAt_drop, hd]
  have hdd : W.drop (a + t) = D.drop (k + t) := by
    rw [← List.drop_drop, ← List.drop_drop, hd]
  unfold validAt
  rw [hb, hdd]
  constructor
  · rintro ⟨h1, h2, h3⟩; exact ⟨by omega, h2, h3⟩
  · rintro ⟨h1, h2, h3⟩; exact ⟨by omega, h2, h3⟩

/-- A scan state over an input that fits in the buffer, seen from the start of
the buffer. -/
theorem tail_holds (rs : rstate) (data : List Nat) (k : Nat) (h : Tail rs data k) :
    Holds (rebase rs) (rs.buf.take (zsend rs)) [] data.length ∧
    (rs.buf.take (zsend rs)).length = zsend rs ∧
    (rs.buf.take (zsend rs)).drop rs.next_in = data.drop k := by
  obtain ⟨h1, h2, h3, h4, h5, h6, h7, h8⟩ := h
  have hl : (rs.buf.take (zsend rs)).length = zsend rs := by
    rw [List.length_take]
    simp only [zsend]
    omega
  refine ⟨⟨rfl, ?_, ?_, h6, h5, h8, h7⟩, hl, ?_⟩
  · rw [hl]; rfl
  · rw [hl]; rfl
  · rw [← h1]
    simp only [window, zsend, List.drop_take, Nat.add_sub_cancel_left]

/-- From a scan state over an input that fits in the buffer, `gzfind` returns
0 at the first candidate at or after the consumption boundary that `gzcheck`
accepts, the boundary then being there, and 1 when there is none. -/
theorem tail_gzfind (flags : Nat) (now : Int) (rs : rstate) (data : List Nat) (k : Nat)
    (h : Tail rs data k) :
    ∃ r, gzfind flags now rs = some r ∧
      ((∃ i, k ≤ i ∧ validAt flags now data i ∧
          (∀ j, k ≤ j → j < i → ¬ validAt flags now data j) ∧ r.1 = 0 ∧ Tail r.2 data i) ∨
        (r.1 = 1 ∧ ∀ j, k ≤ j → ¬ validAt flags now data j)) := by
  obtain ⟨H, hl, hd⟩ := tail_holds rs data k h
  obtain ⟨h1, h2, h3, h4, h5, h6, h7, h8⟩ := h
  have hfuel : gzfindFuel rs = rs.avail_in + 1 := by simp [gzfindFuel, h5]
  obtain ⟨r0, hr0⟩ := gzfindLoop_total flags now (gzfindFuel rs) (rebase rs) rs.next_in
    (by have hr : (rebase rs).fd.rest = [] := h5
        have hz := rebase_zsend rs
        simp only [scanMeasure, hr, hfuel, List.length_nil, hz]
        simp only [zsend]
        omega)
  obtain ⟨h01, hsucc, hfail⟩ := gzfindLoop_rebase flags now _ rs rs.next_in r0 h5 h6
    (Nat.le_refl _) hr0
  have hshift : ∀ t, validAt flags now (rs.buf.take (zsend rs)) (rs.next_in + t) ↔
      validAt flags now data (k + t) := fun t =>
    validAt_shift flags now _ data rs.next_in k t hd (by rw [hl]; simp only [zsend]; omega) h3
  rcases window_scan flags now _ _ _ _ rs.next_in r0 H (by rw [hl]; simp only [zsend]; omega) hr0
    with ⟨i, hi, hv, hmin, hres⟩ | ⟨hone, hno⟩
  · subst hres
    refine ⟨_, hsucc rfl, Or.inl ⟨k + (i - rs.next_in), Nat.le_add_right _ _, ?_, ?_, rfl, ?_⟩⟩
    · rw [← hshift, Nat.add_sub_cancel' hi]; exact hv
    · intro j hj hji hvj
      have := hmin (rs.next_in + (j - k)) (Nat.le_add_right _ _) (by omega)
      rw [hshift, Nat.add_sub_cancel' hj] at this
      exact this hvj
    · have hfit := hv.1
      rw [hl] at hfit
      simp only [zsend] at hfit
      refine ⟨?_, ?_, by omega, ?_, h5, h6, h7, h8⟩
      · show (rs.buf.drop i).take ((rs.buf.take (zsend rs)).length - i) = _
        rw [hl, ← List.drop_take]
        have : i = rs.next_in + (i - rs.next_in) := by omega
        rw [this, ← List.drop_drop, hd, List.drop_drop, ← this]
      · show (rs.buf.take (zsend rs)).length - i = _
        rw [hl]; simp only [zsend]; omega
      · show i + ((rs.buf.take (zsend rs)).length - i) ≤ rs.buf.length
        rw [hl]; simp only [zsend]; omega
  · obtain ⟨rs', hrs'⟩ := hfail hone
    refine ⟨_, hrs', Or.inr ⟨rfl, fun j hj hvj => ?_⟩⟩
    have := hno (rs.next_in + (j - k)) (Nat.le_add_right _ _)
    rw [hshift, Nat.add_sub_cancel' hj] at this
    exact this hvj

theorem window_advance (rs : rstate) (m : Nat) :
    ((rs.buf.drop (rs.next_in + m)).take (rs.avail_in - m)) = (window rs).drop m := by
  simp only [window, List.drop_take, List.drop_drop]

/-- The one-byte skip moves the boundary of a scan state one byte on. -/
theorem tail_skip (rs : rstate) (data : List Nat) (k : Nat) (h : Tail rs data k)
    (h10 : GZ_HDR_LEN ≤ rs.avail_in) (hlen : data.length ≤ BUFSIZE) :
    Tail (skipByte rs) data (k + 1) := by
  obtain ⟨h1, h2, h3, h4, h5, h6, h7, h8⟩ := h
  have ha := skipByte_avail rs h10 (by omega)
  simp only [GZ_HDR_LEN] at h10
  refine ⟨?_, by rw [ha]; omega, by omega, ?_, h5, h6, h7, h8⟩
  · show ((skipByte rs).buf.drop (skipByte rs).next_in).take (skipByte rs).avail_in = _
    rw [ha]
    show ((rs.buf.drop (rs.next_in + 1)).take (rs.avail_in - 1)) = _
    rw [window_advance rs 1, h1, List.drop_drop]
  · rw [ha]
    show rs.next_in + 1 + (rs.avail_in - 1) ≤ rs.buf.length
    omega

/-- Consuming bytes moves the boundary of a scan state by as many. -/
theorem tail_consume (rs : rstate) (data : List Nat) (k c : Nat) (h : Tail rs data k) :
    Tail (consume rs c) data (k + min c rs.avail_in) := by
  obtain ⟨h1, h2, h3, h4, h5, h6, h7, h8⟩ := h
  have hm : min c rs.avail_in ≤ rs.avail_in := Nat.min_le_right _ _
  refine ⟨?_, ?_, by omega, ?_, h5, h6, h7, h8⟩
  · show ((rs.buf.drop (rs.next_in + min c rs.avail_in)).take
      (rs.avail_in - min c rs.avail_in)) = _
    rw [window_advance rs _, h1, List.drop_drop]
  · show rs.avail_in - min c rs.avail_in = _
    omega
  · show rs.next_in + min c rs.avail_in + (rs.avail_in - min c rs.avail_in) ≤ rs.buf.length
    omega

/-- A refill from `next_in` at the end of the file keeps the window's bytes
and the boundary. -/
theorem tail_refill (rs : rstate) (data : List Nat) (k : Nat) (h : Tail rs data k) :
    rsread rs (some rs.next_in) = (0, refilledFrom rs rs.next_in) ∧
    Tail (refilledFrom rs rs.next_in) data k := by
  obtain ⟨h1, h2, h3, h4, h5, h6, h7, h8⟩ := h
  refine ⟨rsread_some_ok rs _ h6, ?_⟩
  have hk : zsend rs - rs.next_in = rs.avail_in := by simp [zsend]
  have hn : rs.fd.next (BUFSIZE - rs.avail_in) = [] := next_eof _ _ h5
  have hwl : (window rs).length = rs.avail_in := by
    simp only [window, List.length_take, List.length_drop]
    omega
  have hbuf : (refilledFrom rs rs.next_in).buf =
      if rs.avail_in ≠ 0 then memmove rs.buf rs.next_in rs.avail_in else rs.buf := by
    simp only [refilledFrom, hk, hn, bufStore, List.append_nil, List.length_nil, Nat.add_zero,
      List.take_append_drop]
  have hav : (refilledFrom rs rs.next_in).avail_in = rs.avail_in := by
    simp only [refilledFrom, hk, hn, List.length_nil, Nat.add_zero]
  have hni : (refilledFrom rs rs.next_in).next_in = 0 := rfl
  refine ⟨?_, by rw [hav]; exact h2, h3, ?_, ?_, h6, ?_, ?_⟩
  · rw [← h1]
    show ((refilledFrom rs rs.next_in).buf.drop (refilledFrom rs rs.next_in).next_in).take
      (refilledFrom rs rs.next_in).avail_in = _
    rw [hbuf, hav, hni, List.drop_zero]
    by_cases h0 : rs.avail_in = 0
    · simp [h0, window]
    · rw [if_pos h0]
      have : memmove rs.buf rs.next_in rs.avail_in = window rs ++ rs.buf.drop (window rs).length := by
        simp only [memmove, bufStore_zero, window]
      rw [this, ← hwl, List.take_left]
  · rw [hav, hni, hbuf]
    split_ifs
    · rw [memmove_length]; omega
    · omega
  · simp [refilledFrom, advance_rest, h5]
  · exact advance_short_nil _ _ h7
  · simp only [refilledFrom, advance_pos_take, hk, hn, List.length_nil, Nat.add_zero]
    exact h8

/-- Over a scan state the header loop of `gzinit`, when it returns, leaves a
scan state whose boundary has not moved back. -/
theorem tail_gzinitLoop {σ : Type} (D : Decoder σ) (data : List Nat) :
    ∀ (fuel : Nat) (rs : rstate) (z : z_stream σ) (name : List Nat) (done : Int) (k : Nat)
      (i : InitResult σ), Tail rs data k → gzinitLoop D fuel rs z name done = some i →
      ∃ k', k ≤ k' ∧ Tail i.rs data k' := by
  intro fuel
  induction fuel with
  | zero => intro rs z name done k i _ h; simp [gzinitLoop] at h
  | succ n ih =>
    intro rs z name done k i hT h
    rw [gzinitLoop] at h
    by_cases hd : done ≠ 0
    · rw [if_pos hd] at h
      cases h
      exact ⟨k, Nat.le_refl _, hT⟩
    · rw [if_neg hd] at h
      have hT1 := tail_consume rs data k (D.inflate z.state (window rs) 0 Z_BLOCK name).consumed hT
      obtain ⟨hr, hT2⟩ := tail_refill _ data _ hT1
      simp only at h
      by_cases hb : (D.inflate z.state (window rs) 0 Z_BLOCK name).ret = Z_BUF_ERROR
      · rw [if_pos hb, hr] at h
        simp only at h
        obtain ⟨k', hk', hT'⟩ := ih _ _ _ _ _ i hT2 h
        exact ⟨k', by omega, hT'⟩
      · rw [if_neg hb] at h
        by_cases hz : (D.inflate z.state (window rs) 0 Z_BLOCK name).ret ≠ 0
        · rw [if_pos hz] at h
          cases h
          exact ⟨_, Nat.le_add_right _ _, hT1⟩
        · rw [if_neg hz] at h
          obtain ⟨k', hk', hT'⟩ := ih _ _ _ _ _ i hT1 h
          exact ⟨k', by omega, hT'⟩

/-- Over a scan state `gzlist`, when it returns, leaves a scan state whose
boundary has not moved back, and the line it prints carries the offset of the
boundary it was called with. -/
theorem tail_gzlist {σ : Type} (D : Decoder σ) (os : OS) (fuel : Nat) (name0 data : List Nat)
    (idx : Nat) (rs : rstate) (z : z_stream σ) (k : Nat) (l : ListResult σ)
    (hT : Tail rs data k) (h : gzlist D os fuel name0 idx rs z = some l) :
    (∃ k', k ≤ k' ∧ Tail l.rs data k') ∧
    (l.ret = 0 → ∃ name, l.line = some (idx, (k : Int), name)) := by
  have hoff := tail_streamOff rs data k hT
  unfold gzlist at h
  by_cases hs : os.lseekFails = true
  · rw [if_pos hs] at h
    cases h
    exact ⟨⟨k, Nat.le_refl _, hT⟩, fun h0 => by cases h0⟩
  · rw [if_neg hs] at h
    simp only at h
    cases hg : gzinit D fuel rs z name0 NAMELEN with
    | none => rw [hg] at h; cases h
    | some r =>
      rw [hg] at h
      simp only at h
      have hr : ∃ k', k ≤ k' ∧ Tail r.rs data k' := by
        unfold gzinit at hg
        simp only at hg
        by_cases c1 : (gzinitStart D z).1 ≠ 0
        · rw [if_pos c1] at hg
          cases hg
          exact ⟨k, Nat.le_refl _, hT⟩
        · rw [if_neg c1] at hg
          by_cases c2 : (D.inflateGetHeader (gzinitStart D z).2.state).1 ≠ 0
          · rw [if_pos c2] at hg
            cases hg
            exact ⟨k, Nat.le_refl _, hT⟩
          · rw [if_neg c2] at hg
            cases hl : gzinitLoop D fuel rs
                { (gzinitStart D z).2 with
                  state := (D.inflateGetHeader (gzinitStart D z).2.state).2 }
                (name0.set 0 0) 0 with
            | none => rw [hl] at hg; cases hg
            | some i =>
              rw [hl] at hg
              simp only at hg
              have hi := tail_gzinitLoop D data fuel rs _ _ _ k i hT hl
              by_cases c3 : i.ret ≠ 0
              · rw [if_pos c3] at hg
                cases hg
                exact hi
              · rw [if_neg c3] at hg
                cases hg
                exact hi
      by_cases c : r.ret ≠ 0
      · rw [if_pos c] at h
        cases h
        exact ⟨hr, fun h0 => by cases h0⟩
      · rw [if_neg c] at h
        cases h
        exact ⟨hr, fun _ => ⟨_, by rw [hoff]⟩⟩

/-- The first `gzfind` call over a non-empty input that fits in the buffer is
the call from the scan state the first refill leaves. -/
theorem gzfind_init_tail (flags : Nat) (now : Int) (data buf0 : List Nat) (hd : data ≠ [])
    (hlen : data.length ≤ BUFSIZE) :
    gzfind flags now (initState data buf0) = gzfind flags now (refilled (initState data buf0)) ∧
    Tail (refilled (initState data buf0)) data 0 := by
  have H := holds_refilled (initState data buf0) data 0 rfl (initState_rest _ _) rfl rfl
  rw [List.take_of_length_le hlen, List.drop_of_length_le hlen, Nat.zero_add,
    Nat.min_eq_right hlen] at H
  have hw := H.window
  have hle := H.le_buf
  obtain ⟨h1, h2, h3, h4, h5, h6, h7⟩ := H
  have hne : (initState data buf0).fd.rest ≠ [] := by rw [initState_rest]; exact hd
  constructor
  · unfold gzfind
    have hf2 : gzfindFuel (refilled (initState data buf0)) = data.length + 1 := by
      simp [gzfindFuel, h5, h2]
    rw [initState_fuel, hf2, h1]
    exact scan_fill flags now data.length _ 0 rfl hne (by simp [zsend, initState])
  · exact ⟨by rw [hw, List.drop_zero], by rw [h2, Nat.sub_zero], Nat.zero_le _,
      by rw [h1, h2, Nat.zero_add]; exact hle, h5, h4, h7, h6⟩

/-! ## Listing mode against selection mode -/

theorem listedOffsets_append (A B : List Event) :
    listedOffsets (A ++ B) = listedOffsets A ++ listedOffsets B := by
  simp [listedOffsets, List.filterMap_append]

/-- The lines listing mode prints are those of the steps of its walk in which
`gzlist` returned 0. -/
theorem mainLoop_listed {σ : Type} (D : Decoder σ) (os : OS) (now : Int) (cf : Nat)
    (name0 : List Nat) (outfile : Option (List Nat)) :
    ∀ (fuel : Nat) (rs : rstate) (z : z_stream σ) (k : Nat) (L : List Event),
      listedOffsets (mainLoop D os now cf name0 0 outfile fuel rs z k L).log =
        listedOffsets L ++ printedOffsets (listSteps D os now cf name0 fuel rs z k) := by
  intro fuel
  induction fuel with
  | zero => intro rs z k L; simp [mainLoop, listSteps, printedOffsets]
  | succ f ih =>
    intro rs z k L
    rw [mainLoop, listSteps]
    cases hg : gzfind GZ_FIND_STRICT now rs with
    | none => simp [printedOffsets]
    | some v =>
      obtain ⟨r, rs1⟩ := v
      cases r with
      | succ r =>
        obtain ⟨T, hT, -, hT2, -⟩ := mainEnd_log_extends D os 0 z k L
        simp only [ne_eq, Nat.succ_ne_zero, not_false_eq_true, if_true]
        rw [hT, listedOffsets_append, hT2]
        simp [printedOffsets]
      | zero =>
        simp only [ne_eq, not_true_eq_false, if_false]
        rw [if_neg (by omega)]
        cases hl : gzlist D os cf name0 (k + 1) rs1 z with
        | none =>
          simp only
          rw [listedOffsets_append, listedOffsets_append]
          simp [printedOffsets, listedOffsets]
        | some l =>
          obtain ⟨hok, hbad⟩ := gzlist_line D os cf name0 (k + 1) rs1 z l hl
          simp only
          by_cases hret : l.ret = 0
          · obtain ⟨i, -, -, -, -, hline⟩ := hok hret
            rw [if_neg (by rw [hret]; exact fun h => h rfl), if_pos hret, ih]
            rw [listedOffsets_append, listedOffsets_append, hline]
            simp [printedOffsets, listedOffsets]
          · rw [if_pos hret, if_neg hret]
            rw [listedOffsets_append, listedOffsets_append, hbad hret]
            simp [printedOffsets, listedOffsets]

/-- In selection mode `gzextract` is called at the `n`-th candidate. -/
theorem main_extractOffset {σ : Type} (D : Decoder σ) (os : OS) (now : Int) (fuel n : Nat)
    (outfile : Option (List Nat)) (data buf0 name0 : List Nat) (s0 : σ)
    (hn : 1 ≤ n) (hfuel : data.length < fuel) :
    extractOffset (main D os now fuel n outfile data buf0 name0 s0).log =
      ((inputCandidates now data buf0).get? (n - 1)).map streamOff := by
  unfold inputCandidates
  have hmain := mainLoop_select D os now fuel name0 n outfile
    { state := s0, zalloc := false, zfree := false } fuel (data.length + 1)
    (initState data buf0) 0 [] (by omega) (by simp [initState])
    (by simpa [initState, Source.rest] using hfuel) (by simp [initState, Source.rest])
  simp only [Nat.sub_zero, List.nil_append, Nat.zero_add] at hmain
  have hmain' : main D os now fuel n outfile data buf0 name0 s0 = _ := hmain
  generalize candidates now (data.length + 1) (initState data buf0) = cs at hmain' ⊢
  have hn0 : n ≠ 0 := by omega
  have hfl : ∀ (k : Nat) (l : List rstate), extractOffset (foundLog k l) = none ∧
      ∀ T, extractOffset (foundLog k l ++ T) = extractOffset T := by
    intro k l
    induction l generalizing k with
    | nil => exact ⟨rfl, fun T => rfl⟩
    | cons c l ih =>
      obtain ⟨i1, i2⟩ := ih (k + 1)
      constructor
      · simpa [foundLog, extractOffset] using i1
      · intro T
        have := i2 T
        simpa [foundLog, extractOffset] using this
  cases hget : cs.get? (n - 1) with
  | some c =>
    rw [hget] at hmain'
    simp only at hmain'
    obtain ⟨tail, htail, -⟩ := extractBranch_log D os fuel name0 n hn0 outfile c
      { state := s0, zalloc := false, zfree := false } (foundLog 0 (cs.take n))
    rw [hmain', htail, (hfl 0 (cs.take n)).2]
    simp [extractOffset]
  | none =>
    rw [hget] at hmain'
    simp only at hmain'
    obtain ⟨T, hT, -, -, hT3⟩ := mainEnd_log_extends D os n
      { state := s0, zalloc := false, zfree := false } cs.length (foundLog 0 cs)
    rw [hmain', hT, (hfl 0 cs).2, hT3]
    rfl

theorem noNested_tail (now : Int) (data : List Nat) (s : rstate × Option rstate)
    (steps : List (rstate × Option rstate)) (h : noNested now data (s :: steps)) :
    noNested now data steps :=
  fun t ht => h t (List.mem_cons_of_mem _ ht)

/-- Over an input that fits in the buffer, when no accepted header start lies
inside the bytes listing mode consumed, the offsets listing mode prints are
the offsets of the first candidates of selection mode, in order. The two
walks may start from different boundaries `mB >= mA` with no accepted header
start in between. -/
theorem listing_prefix {σ : Type} (D : Decoder σ) (os : OS) (now : Int) (cf : Nat)
    (name0 data : List Nat) (hlen : data.length ≤ BUFSIZE) :
    ∀ (f : Nat) (sB : rstate) (z : z_stream σ) (k : Nat) (sA : rstate) (F mA mB : Nat),
      Tail sA data mA → Tail sB data mB → mA ≤ mB →
      (∀ j, mA ≤ j → j < mB → ¬ validAt GZ_FIND_STRICT now data j) →
      data.length - mA < F →
      noNested now data (listSteps D os now cf name0 f sB z k) →
      printedOffsets (listSteps D os now cf name0 f sB z k) <+:
        (candidates now F sA).map streamOff := by
  intro f
  induction f with
  | zero => intro sB z k sA F mA mB _ _ _ _ _ _; simp [listSteps, printedOffsets]
  | succ f ih =>
    intro sB z k sA F mA mB hA hB hle hno hF hnn
    obtain ⟨rB, hgB, hcB⟩ := tail_gzfind GZ_FIND_STRICT now sB data mB hB
    obtain ⟨cB, rsB⟩ := rB
    rcases hcB with ⟨i, hi, hv, hmin, hc0, hTB⟩ | ⟨hc1, -⟩
    · simp only at hc0 hTB
      subst hc0
      have hi10 := hv.1
      obtain ⟨rA, hgA, hcA⟩ := tail_gzfind GZ_FIND_STRICT now sA data mA hA
      obtain ⟨cA, rsA⟩ := rA
      rcases hcA with ⟨i', hi', hv', hmin', hc0', hTA⟩ | ⟨-, hnone⟩
      · simp only at hc0' hTA
        subst hc0'
        have hii : i' = i := by
          have h1 : ¬ i' < mB := fun h => hno i' hi' h hv'
          have h2 : ¬ i' < i := fun h => hmin i' (by omega) h hv'
          have h3 : ¬ i < i' := fun h => hmin' i (by omega) h hv
          omega
        subst hii
        have hoA := tail_streamOff rsA data i' hTA
        have hoB := tail_streamOff rsB data i' hTB
        cases F with
        | zero => omega
        | succ F =>
          rw [candidates, hgA]
          simp only [List.map_cons]
          rw [listSteps, hgB] at hnn ⊢
          simp only at hnn ⊢
          cases hl : gzlist D os cf name0 (k + 1) rsB z with
          | none => simp [printedOffsets]
          | some l =>
            rw [hl] at hnn
            simp only at hnn ⊢
            by_cases hret : l.ret = 0
            · rw [if_pos hret] at hnn ⊢
              obtain ⟨⟨k', hk', hTl⟩, -⟩ := tail_gzlist D os cf name0 data (k + 1) rsB z i' l hTB hl
              have hol := tail_streamOff l.rs data k' hTl
              obtain ⟨hstep, hin⟩ := hnn (rsB, some l.rs) (List.mem_cons_self _ _) l.rs rfl
              simp only at hstep hin
              rw [hoB, hol] at hstep hin
              have hav : GZ_HDR_LEN ≤ rsA.avail_in := by
                rw [hTA.2.1]; simp only [GZ_HDR_LEN]; omega
              have := ih l.rs l.z (k + 1) (skipByte rsA) F (i' + 1) k'
                (tail_skip rsA data i' hTA hav hlen) hTl (by omega)
                (fun j hj1 hj2 hvj => hin j (by have := hvj.1; omega) (by omega) (by omega) hvj)
                (by omega) (noNested_tail now data _ _ hnn)
              simp only [printedOffsets, List.filterMap_cons, Option.map_some']
              rw [hoA, hoB]
              exact (List.prefix_cons_inj _).mpr this
            · rw [if_neg hret]
              simp [printedOffsets]
      · exact absurd hv (hnone i (by omega))
    · simp only at hc1
      subst hc1
      rw [listSteps, hgB]
      simp [printedOffsets]

/-- The offsets listing mode prints over a whole input that fits in the
buffer, with no accepted header start inside the bytes it consumed, are the
offsets of the first candidates of selection mode. -/
theorem listing_prefix_init {σ : Type} (D : Decoder σ) (os : OS) (now : Int) (cf : Nat)
    (name0 data buf0 : List Nat) (hlen : data.length ≤ BUFSIZE) (f : Nat) (z : z_stream σ)
    (hnn : noNested now data (listSteps D os now cf name0 f (initState data buf0) z 0)) :
    printedOffsets (listSteps D os now cf name0 f (initState data buf0) z 0) <+:
      (inputCandidates now data buf0).map streamOff := by
  cases f with
  | zero => simp [listSteps, printedOffsets]
  | succ f =>
    by_cases hd : data = []
    · obtain ⟨r, hr, hc⟩ := gzfind_one_window GZ_FIND_STRICT now data buf0 hlen
      obtain ⟨c, rs'⟩ := r
      rcases hc with ⟨i, hv, -⟩ | ⟨h1, -⟩
      · have := hv.1
        rw [hd] at this
        simp at this
      · simp only at h1
        subst h1
        rw [listSteps, hr]
        simp [printedOffsets]
    · obtain ⟨heq, hT⟩ := gzfind_init_tail GZ_FIND_STRICT now data buf0 hd hlen
      have hl : ∀ g, listSteps D os now cf name0 (g + 1) (initState data buf0) z 0 =
          listSteps D os now cf name0 (g + 1) (refilled (initState data buf0)) z 0 := by
        intro g
        rw [listSteps, listSteps, heq]
      have hcand : inputCandidates now data buf0 =
          candidates now (data.length + 1) (refilled (initState data buf0)) := by
        rw [inputCandidates, candidates, candidates, heq]
      rw [hl] at hnn ⊢
      rw [hcand]
      exact listing_prefix D os now cf name0 data hlen (f + 1) _ z 0 _ (data.length + 1) 0 0
        hT hT (Nat.le_refl _) (fun j _ h => absurd h (Nat.not_lt_zero _)) (by omega) hnn

theorem feedHeader_zero (input hb : List Nat) (h : (feedHeader hb input).1 = 0) :
    (feedHeader hb input).2 = hb := by
  cases input with
  | nil => rfl
  | cons b rest =>
    unfold feedHeader at h ⊢
    by_cases hc : headerComplete hb = true
    · rw [if_pos hc]
    · rw [if_neg hc] at h
      simp at h

theorem feedHeader_le (input : List Nat) : ∀ hb, (feedHeader hb input).1 ≤ input.length := by
  induction input with
  | nil => intro hb; simp [feedHeader]
  | cons b rest ih =>
    intro hb
    unfold feedHeader
    by_cases hc : headerComplete hb = true
    · rw [if_pos hc]; exact Nat.zero_le _
    · rw [if_neg hc]
      have := ih (hb ++ [b])
      simp only [List.length_cons]
      omega

/-- With `headerDecoder`, over a window that starts with a complete header,
the header loop of `gzinit` consumes the bytes of the header and returns 0. -/
theorem gzinitLoop_headerDecoder (n : Nat) (rs : rstate) (z : z_stream (List Nat))
    (name : List Nat) (c : Nat) (hb : List Nat) (hz : z.state = [])
    (hw : feedHeader [] (window rs) = (c, hb)) (hc : headerComplete hb = true) :
    ∃ i, gzinitLoop headerDecoder (n + 2) rs z name 0 = some i ∧ i.ret = 0 ∧
      i.rs = consume rs c := by
  have hc0 : c ≠ 0 := by
    intro h0
    have := feedHeader_zero (window rs) [] (by rw [hw]; exact h0)
    rw [hw] at this
    simp only at this
    rw [this] at hc
    exact absurd hc (by decide)
  have h2 : ¬ (headerComplete [] = true) := by decide
  have hi : headerDecoder.inflate [] (window rs) 0 Z_BLOCK name =
      { ret := Z_OK, consumed := c, output := [], state := hb, done := 1,
        name := if byteAt hb 3 &&& 8 ≠ 0 then bufStore name 0 ((hb.drop 10).take NAMELEN)
                else name } := by
    simp only [headerDecoder, h2, if_false, hw, hc0, hc, if_true]
    rfl
  have hbz : (Z_OK = Z_BUF_ERROR) = False := eq_false (by decide)
  have hzz : (Z_OK = 0) = True := eq_true rfl
  have hx : gzinitLoop headerDecoder (n + 2) rs z name 0 =
      some { ret := 0, rs := consume rs c, z := { z with state := hb },
             name := if byteAt hb 3 &&& 8 ≠ 0 then bufStore name 0 ((hb.drop 10).take NAMELEN)
                     else name } := by
    simp only [gzinitLoop, hz, hi, ne_eq, not_true_eq_false, if_false, hbz, hzz,
      not_false_eq_true, if_true]
    rfl
  exact ⟨_, hx, rfl, rfl⟩

/-- With `headerDecoder`, from an entry at offset `e` where the input holds a
complete header of `c` bytes, `gzlist` prints the line of offset `e` and
leaves the boundary at offset `e + c`, after the header. -/
theorem gzlist_headerDecoder (os : OS) (cf idx : Nat) (name0 data : List Nat) (rs : rstate)
    (z : z_stream (List Nat)) (e c : Nat) (hb : List Nat) (hT : Tail rs data e)
    (hfeed : feedHeader [] (data.drop e) = (c, hb)) (hc : headerComplete hb = true)
    (hseek : os.lseekFails = false) :
    ∃ l, gzlist headerDecoder os (cf + 2) name0 idx rs z = some l ∧ l.ret = 0 ∧
      l.rs = consume rs c ∧ Tail l.rs data (e + c) ∧ streamOff l.rs = e + c ∧
      ∃ name, l.line = some (idx, (e : Int), name) := by
  have hoff := tail_streamOff rs data e hT
  have hw : feedHeader [] (window rs) = (c, hb) := by rw [hT.1]; exact hfeed
  have hcle : c ≤ rs.avail_in := by
    have := feedHeader_le (data.drop e) []
    rw [hfeed, List.length_drop] at this
    rw [hT.2.1]
    exact this
  have hTc := tail_consume rs data e c hT
  rw [Nat.min_eq_left hcle] at hTc
  have e1 : (gzinitStart headerDecoder z).1 = 0 := by
    unfold gzinitStart; split <;> rfl
  have e2 : (gzinitStart headerDecoder z).2.state = [] := by
    unfold gzinitStart; split <;> rfl
  have e3 : ∀ st, headerDecoder.inflateGetHeader st = (0, st) := fun _ => rfl
  obtain ⟨i, hi, hr, hrs⟩ := gzinitLoop_headerDecoder cf rs
    { (gzinitStart headerDecoder z).2 with
      state := (headerDecoder.inflateGetHeader (gzinitStart headerDecoder z).2.state).2 }
    (name0.set 0 0) c hb (by rw [e3]; exact e2) hw hc
  have hg : gzinit headerDecoder (cf + 2) rs z name0 NAMELEN =
      some { i with name := i.name.set (NAMELEN - 1) 0 } := by
    unfold gzinit
    simp only
    rw [if_neg (by rw [e1]; exact fun h => h rfl), if_neg (by rw [e3]; exact fun h => h rfl), hi]
    simp only
    rw [if_neg (by rw [hr]; exact fun h => h rfl)]
  have hl : gzlist headerDecoder os (cf + 2) name0 idx rs z =
      some { ret := 0, rs := i.rs, z := i.z,
             line := some (idx, streamOff rs, cstr (i.name.set (NAMELEN - 1) 0)) } := by
    unfold gzlist
    rw [if_neg (by rw [hseek]; decide), hg]
    simp only
    rw [if_neg (by rw [hr]; exact fun h => h rfl)]
  refine ⟨_, hl, rfl, hrs, ?_, ?_, _, by rw [hoff]⟩
  · show Tail i.rs data (e + c)
    rw [hrs]; exact hTc
  · show streamOff i.rs = e + c
    rw [hrs, tail_streamOff _ data (e + c) hTc]
    push_cast
    rfl

/-- C8, amended. The first entry of listing mode and the call of `gzextract`
for ordinal 1 are at the same stream offset, for every input and engine. After
an accepted header at offset `e` the two modes resume the scan at different
places: selection mode one byte past the header start, at `e + 1`; listing
mode where `gzlist` left the boundary, at an offset `e' >= e` after the bytes
the engine consumed (with `headerDecoder`, `e' = e + c` for a complete header
of `c` bytes). Over an input that fits in the buffer each mode then finds the
first header start at or after its boundary that `gzcheck` accepts. So when no
accepted header start lies inside the bytes listing mode consumed (`noNested`),
the offsets listing mode prints are the offsets of the first candidates of
selection mode, and for every `n >= 1` the `n`-th entry printed is at the
offset where extraction with ordinal `n` starts decoding. -/
theorem listing_vs_selection {σ : Type} (D : Decoder σ) (os : OS) (now : Int) (fuel : Nat)
    (outfile : Option (List Nat)) (data buf0 name0 : List Nat) (s0 : σ) :
    ((listCallOffsets (main D os now fuel 0 outfile data buf0 name0 s0).log).head? =
      extractOffset (main D os now fuel 1 outfile data buf0 name0 s0).log) ∧
    (∀ off,
      (listedOffsets (main D os now fuel 0 outfile data buf0 name0 s0).log).head? = some off →
      extractOffset (main D os now fuel 1 outfile data buf0 name0 s0).log = some off) ∧
    (data.length ≤ BUFSIZE → ∀ (rs : rstate) (e : Nat), Tail rs data e →
      (GZ_HDR_LEN ≤ rs.avail_in →
        Tail (skipByte rs) data (e + 1) ∧ streamOff (skipByte rs) = e + 1) ∧
      (∀ (cf idx : Nat) (z : z_stream σ) (l : ListResult σ),
        gzlist D os cf name0 idx rs z = some l →
        (∃ e', e ≤ e' ∧ Tail l.rs data e' ∧ streamOff l.rs = e') ∧
        (l.ret = 0 → ∃ name, l.line = some (idx, (e : Int), name))) ∧
      (∃ r, gzfind GZ_FIND_STRICT now rs = some r ∧
        ((∃ i, e ≤ i ∧ validAt GZ_FIND_STRICT now data i ∧
            (∀ j, e ≤ j → j < i → ¬ validAt GZ_FIND_STRICT now data j) ∧
            r.1 = 0 ∧ Tail r.2 data i ∧ streamOff r.2 = i) ∨
          (r.1 = 1 ∧ ∀ j, e ≤ j → ¬ validAt GZ_FIND_STRICT now data j)))) ∧
    (data.length ≤ BUFSIZE → data.length < fuel →
      noNested now data
        (listSteps D os now fuel name0 fuel (initState data buf0) (freshStream s0) 0) →
      listedOffsets (main D os now fuel 0 outfile data buf0 name0 s0).log <+:
        (inputCandidates now data buf0).map streamOff ∧
      ∀ n off, 1 ≤ n →
        (listedOffsets (main D os now fuel 0 outfile data buf0 name0 s0).log).get? (n - 1) =
          some off →
        extractOffset (main D os now fuel n outfile data buf0 name0 s0).log = some off) ∧
    (∀ (os1 : OS) (cf idx : Nat) (rs : rstate) (z : z_stream (List Nat)) (e c : Nat)
        (hb : List Nat),
      Tail rs data e → feedHeader [] (data.drop e) = (c, hb) → headerComplete hb = true →
      os1.lseekFails = false →
      ∃ l, gzlist headerDecoder os1 (cf + 2) name0 idx rs z = some l ∧ l.ret = 0 ∧
        Tail l.rs data (e + c) ∧ streamOff l.rs = e + c ∧
        ∃ name, l.line = some (idx, (e : Int), name)) := by
  refine ⟨(first_entry_agrees D os now fuel outfile data buf0 name0 s0).1,
    (first_entry_agrees D os now fuel outfile data buf0 name0 s0).2, ?_, ?_, ?_⟩
  · intro hlen rs e hT
    refine ⟨fun h10 => ?_, fun cf idx z l hl => ?_, ?_⟩
    · have hs := tail_skip rs data e hT h10 hlen
      exact ⟨hs, by rw [tail_streamOff _ data (e + 1) hs]; push_cast; rfl⟩
    · obtain ⟨⟨e', he', hT'⟩, hline⟩ := tail_gzlist D os cf name0 data idx rs z e l hT hl
      exact ⟨⟨e', he', hT', tail_streamOff _ data e' hT'⟩, hline⟩
    · obtain ⟨r, hr, hc⟩ := tail_gzfind GZ_FIND_STRICT now rs data e hT
      refine ⟨r, hr, ?_⟩
      rcases hc with ⟨i, hi, hv, hmin, h0, hTi⟩ | h1
      · exact Or.inl ⟨i, hi, hv, hmin, h0, hTi, tail_streamOff _ data i hTi⟩
      · exact Or.inr h1
  · intro hlen hfuel hnn
    have hlisted : listedOffsets (main D os now fuel 0 outfile data buf0 name0 s0).log =
        printedOffsets
          (listSteps D os now fuel name0 fuel (initState data buf0) (freshStream s0) 0) := by
      unfold main
      rw [mainLoop_listed]
      rfl
    have hpre := listing_prefix_init D os now fuel name0 data buf0 hlen fuel (freshStream s0) hnn
    rw [← hlisted] at hpre
    refine ⟨hpre, fun n off hn hget => ?_⟩
    rw [main_extractOffset D os now fuel n outfile data buf0 name0 s0 hn hfuel]
    obtain ⟨t, ht⟩ := hpre
    rw [List.get?_eq_getElem?] at hget ⊢
    have hlt : n - 1 < (listedOffsets (main D os now fuel 0 outfile data buf0 name0 s0).log).length := by
      by_contra hge
      rw [List.getElem?_eq_none (Nat.not_lt.mp hge)] at hget
      cases hget
    have h2 : ((inputCandidates now data buf0).map streamOff)[n - 1]? = some off := by
      rw [← ht, List.getElem?_append_left hlt]
      exact hget
    rw [List.getElem?_map] at h2
    exact h2
  · intro os1 cf idx rs z e c hb hT hfeed hc hseek
    obtain ⟨l, hl, hr, -, hTl, hoff, hline⟩ :=
      gzlist_headerDecoder os1 cf idx name0 data rs z e c hb hT hfeed hc hseek
    exact ⟨l, hl, hr, hTl, hoff, hline⟩

/-- C8, amended, at a concrete input: two members back to back. Listing mode
prints the offsets 0 and 10, no accepted header start lies inside the bytes
it consumed, and extraction with ordinal 2 starts decoding at offset 10. -/
theorem listing_vs_selection_witness :
    twoHeaders.length ≤ BUFSIZE ∧ twoHeaders.length < 100 ∧
    noNested 1600000000 twoHeaders
      (listSteps headerDecoder plainOS 1600000000 100 zeroName 100
        (initState twoHeaders zeroBuf) (freshStream []) 0) ∧
    (listedOffsets (main headerDecoder plainOS 1600000000 100 0 none twoHeaders zeroBuf
      zeroName []).log).get? (2 - 1) = some 10 ∧
    extractOffset (main headerDecoder plainOS 1600000000 100 2 none twoHeaders zeroBuf
      zeroName []).log = some 10 :=
  have h1 : twoHeaders.length ≤ BUFSIZE := by decide
  have h2 : twoHeaders.length < 100 := by decide
  have h3 : noNested 1600000000 twoHeaders
      (listSteps headerDecoder plainOS 1600000000 100 zeroName 100
        (initState twoHeaders zeroBuf) (freshStream []) 0) := by
    set_option maxRecDepth 100000 in decide!
  have h4 : (listedOffsets (main headerDecoder plainOS 1600000000 100 0 none twoHeaders zeroBuf
      zeroName []).log).get? (2 - 1) = some 10 := by
    set_option maxRecDepth 100000 in decide!
  ⟨h1, h2, h3, h4,
    ((listing_vs_selection headerDecoder plainOS 1600000000 100 none twoHeaders zeroBuf zeroName
      []).2.2.2.1 h1 h2 h3).2 2 10 (by decide) h4⟩

end Gzdetect
